import Mathlib

/-!
# krepostats: pull-request statistics

A shallow embedding of `pkg/krepostats/search.go` and theorems about it.

* Go maps with string keys are association lists with distinct keys
  (`GoMap`); the order in which a `range` statement visits the keys is not
  fixed by the language, so every `range` consults a `RangeOrder`, an
  arbitrary family of permutations indexed by the number of `range`
  statements executed so far.
* Go `int` is the 64-bit two's complement integer: additions go through
  `wrapInt`.
* The GitHub client `k.GHC` is a state machine: each call takes the client
  state and returns a value or an error together with the next state.
* `klog.Infof` lines and the client calls are recorded, in order, in a list
  of `Event`s; `klog.Fatalf` ends the run.
* The search loop `for { ... }` has no bound in the source; it is run with
  fuel, and `none` means that the fuel ran out.
-/

namespace krepostats

/-! ## Go runtime -/

/-- Two's complement wrap-around of Go's 64-bit `int`. -/
def wrapInt (x : Int) : Int := (x + 2 ^ 63) % 2 ^ 64 - 2 ^ 63

/-- Go's `<` on strings. Go compares byte-wise; on UTF-8 text that is the
order of the code points, which is the order of the character lists. -/
def stringLess (a b : String) : Bool := decide (a.toList < b.toList)

/-- A Go `map[string]V`: an association list with distinct keys. -/
abbrev GoMap (V : Type) := AList (fun _ : String => V)

/-- The expression `m[k]`: the stored value, or the zero value of `V`. -/
def GoMap.get {V : Type} (m : GoMap V) (zero : V) (k : String) : V :=
  (m.lookup k).getD zero

/-- The statement `m[k] = v`. -/
def GoMap.set {V : Type} (m : GoMap V) (k : String) (v : V) : GoMap V :=
  m.insert k v

/-- The statement `m[k]++` on a `map[string]int`. -/
def GoMap.incr (m : GoMap Int) (k : String) : GoMap Int :=
  m.set k (wrapInt (m.get 0 k + 1))

/-- The order in which `range` visits the keys of a map: the `n`-th `range`
statement of a run visits the keys `l` in the order `enum n l`, some
permutation of them. -/
structure RangeOrder where
  enum : Nat → List String → List String
  perm : ∀ n l, (enum n l).Perm l

/-- The keys of `m` as the `n`-th `range` statement visits them. -/
def RangeOrder.keys {V : Type} (rho : RangeOrder) (n : Nat) (m : GoMap V) : List String :=
  rho.enum n m.keys

/-! ## Insertion sort, as `sort.Slice` runs it on short slices

`sort.Slice` is library code: an insertion sort on slices of at most twelve
elements, a pattern-defeating quicksort on longer ones. Its result is a
permutation of the slice in the order of `less`. The closure `printTable`
passes is a strict total order on distinct keys, so that permutation is
unique (`eq_of_perm_of_less` below) and the choice of algorithm does not
show in the result; the insertion sort stands for both. -/

/-- Inner loop of the insertion sort: `x` sits right of the sorted prefix,
given here last element first, and moves left while `less x y`. -/
def insertLeft (less : String → String → Bool) (x : String) : List String → List String
  | [] => [x]
  | y :: rev => if less x y then y :: insertLeft less x rev else x :: y :: rev

/-- Outer loop of the insertion sort; `rev` is the sorted prefix, last
element first. -/
def insertAll (less : String → String → Bool) : List String → List String → List String
  | rev, [] => rev
  | rev, x :: rest => insertAll less (insertLeft less x rev) rest

/-- The call `sort.Slice(val, less)`. -/
def sortSlice (less : String → String → Bool) (val : List String) : List String :=
  (insertAll less [] val).reverse

/-! ## Log lines and events -/

/-- The lines `Run` and `printTable` write through `klog`, by format string. -/
inductive LogLine where
  /-- Format `"Search cost %d point(s). %d remaining."`. -/
  | searchCost (totalCost remaining : Int)
  /-- Format `"PR: %5d %s %s %s"`. -/
  | pr (number : Int) (author approvers reviewers : String)
  /-- Format `"%s:"`. -/
  | header (hdr : String)
  /-- Format `"%6d %s"`. -/
  | row (count : Int) (key : String)
  /-- Format `"query failed: %v"`. -/
  | queryFailed (err : String)
  /-- Format `"list reviews on %d failed: %v"`. -/
  | listReviewsFailed (number : Int) (err : String)
  /-- Format `"list comments on %d failed: %v"`. -/
  | listCommentsFailed (number : Int) (err : String)
  deriving DecidableEq, Repr

/-- What a run does that is visible from outside, in order. -/
inductive Event where
  | Query (query : String) (searchCursor : Option String)
  | ListReviews (org repo : String) (number : Int)
  | ListPullRequestComments (org repo : String) (number : Int)
  | Infof (line : LogLine)
  | Fatalf (line : LogLine)
  deriving DecidableEq, Repr

/-! ## Data model -/

/-- Field `Author` of `pullRequest`. -/
structure Author where
  Login : String
  deriving DecidableEq, Repr

structure pullRequest where
  Number : Int
  Author : Author
  deriving DecidableEq, Repr

structure RateLimit where
  Cost : Int
  Remaining : Int
  deriving DecidableEq, Repr

structure PageInfo where
  HasNextPage : Bool
  EndCursor : String
  deriving DecidableEq, Repr

/-- Field `Search` of `searchQuery`; each node holds one `pullRequest`. -/
structure Search where
  PageInfo : PageInfo
  Nodes : List pullRequest
  deriving DecidableEq, Repr

structure searchQuery where
  RateLimit : RateLimit
  Search : Search
  deriving DecidableEq, Repr

/-- The type `github.User`, reduced to the field read here. -/
structure User where
  Login : String
  deriving DecidableEq, Repr

/-- The type `github.Review`, reduced to the fields read here. -/
structure Review where
  User : User
  State : String
  deriving DecidableEq, Repr

/-- The constant `github.ReviewStateApproved`. -/
def ReviewStateApproved : String := "APPROVED"

/-- The constant `github.ReviewStateChangesRequested`. -/
def ReviewStateChangesRequested : String := "CHANGES_REQUESTED"

/-- The type `github.ReviewComment`, reduced to the fields read here. -/
structure ReviewComment where
  User : User
  Body : String
  deriving DecidableEq, Repr

/-- The interface `github.Client`, reduced to the three methods called, over
a client state `σ`. -/
structure Client (σ : Type) where
  Query : σ → String → Option String → Except String searchQuery × σ
  ListReviews : σ → String → String → Int → Except String (List Review) × σ
  ListPullRequestComments : σ → String → String → Int → Except String (List ReviewComment) × σ

structure KRepoStats (σ : Type) where
  GHC : Client σ

def owners : List String :=
  ["geojaz", "hakman", "johngmyers", "justinsb", "kashifsaadat", "mikesplain",
   "olemarkus", "rdrgmnzs", "rifelpet", "zetaab"]

/-! ## Regular expressions -/

/-- A compiled pattern is a sequence of these. -/
inductive Inst where
  /-- The assertion `^` under `(?m)`: at the start of the text or right after a newline. -/
  | beginLine
  /-- The assertion `$` under `(?m)`: at the end of the text or right before a newline. -/
  | endLine
  /-- One literal character. -/
  | rune (c : Char)
  /-- The repetition `[cls]*`: any number of characters of the class. -/
  | starClass (cls : List Char)
  deriving DecidableEq, Repr

/-- The class `\s` of Go's `regexp`: `[\t\n\f\r ]`. -/
def perlSpace : List Char := ['\t', '\n', '\x0c', '\r', ' ']

/-- The pattern `(?m)^/lgtm\s*$`. -/
def lgtmRegex : List Inst :=
  [.beginLine, .rune '/', .rune 'l', .rune 'g', .rune 't', .rune 'm',
   .starClass perlSpace, .endLine]

/-- The pattern `(?m)^/approve\s*$`. -/
def approveRegex : List Inst :=
  [.beginLine, .rune '/', .rune 'a', .rune 'p', .rune 'p', .rune 'r', .rune 'o',
   .rune 'v', .rune 'e', .starClass perlSpace, .endLine]

/-- Whether `^` holds after the character `prev` (`none` at the start). -/
def atBeginLine (prev : Option Char) : Bool :=
  match prev with
  | none => true
  | some c => c == '\n'

/-- Whether `$` holds before the rest `s` of the text. -/
def atEndLine (s : List Char) : Bool :=
  match s with
  | [] => true
  | c :: _ => c == '\n'

/-- Matching `[cls]*` and then the rest of the pattern, `k`. -/
def starLoop (cls : List Char) (k : Option Char → List Char → Bool) :
    Option Char → List Char → Bool
  | prev, [] => k prev []
  | prev, c :: s => k prev (c :: s) || (cls.contains c && starLoop cls k (some c) s)

/-- Whether the pattern matches a prefix of `s`, the character before `s`
being `prev`. -/
def matchHere : List Inst → Option Char → List Char → Bool
  | [], _, _ => true
  | .beginLine :: re, prev, s => atBeginLine prev && matchHere re prev s
  | .endLine :: re, prev, s => atEndLine s && matchHere re prev s
  | .rune _ :: _, _, [] => false
  | .rune c :: re, _, d :: s => c == d && matchHere re (some d) s
  | .starClass cls :: re, prev, s => starLoop cls (fun p t => matchHere re p t) prev s

/-- Whether the pattern matches somewhere in `s`. -/
def matchFrom (re : List Inst) : Option Char → List Char → Bool
  | prev, [] => matchHere re prev []
  | prev, c :: s => matchHere re prev (c :: s) || matchFrom re (some c) s

/-- The method `(*Regexp).MatchString`. -/
def MatchString (re : List Inst) (s : String) : Bool :=
  matchFrom re none s.toList

/-! ## The program -/

/-- The variables of `Run`, the state of the client, the events so far and
the number of `range` statements over maps executed so far. -/
structure State (σ : Type) where
  ghc : σ
  events : List Event
  ranges : Nat
  numAuthors : GoMap Int
  numApprovals : GoMap Int
  numReviews : GoMap Int
  ret : List pullRequest
  searchCursor : Option String
  totalCost : Int
  remaining : Int

/-- How a piece of `Run` ends: it goes on with the next statement, or
`klog.Fatalf` has ended the process. -/
inductive Outcome (σ : Type) where
  | returned (s : State σ)
  | fatal (s : State σ)

/-- The state an outcome carries. -/
def Outcome.state {σ : Type} : Outcome σ → State σ
  | .returned s => s
  | .fatal s => s

/-- The maps `reviewers` and `approvers` of one pull request. -/
structure Sets where
  reviewers : GoMap Bool
  approvers : GoMap Bool

/-- The query string written to the buffer `query`. -/
def query : String := "is:pr repo:kubernetes/kops updated:2020-07-01..2021-07-01"

/-- The loop `for _, owner := range owners`. -/
def ownersmap (owners : List String) : GoMap Bool :=
  owners.foldl (fun m owner => m.set owner true) ∅

/-- The loop `for { ... }` of `Run`, lines 95 to 109. -/
def searchLoop {σ : Type} (k : KRepoStats σ) : Nat → State σ → Option (Outcome σ)
  | 0, _ => none
  | fuel + 1, s =>
    match k.GHC.Query s.ghc query s.searchCursor with
    | (.error err, g) =>
      some (.fatal { s with
        ghc := g
        events := s.events ++ [Event.Query query s.searchCursor, Event.Fatalf (LogLine.queryFailed err)] })
    | (.ok sq, g) =>
      let s := { s with
        ghc := g
        events := s.events ++ [Event.Query query s.searchCursor]
        totalCost := wrapInt (s.totalCost + sq.RateLimit.Cost)
        remaining := sq.RateLimit.Remaining
        ret := s.ret ++ sq.Search.Nodes }
      if !sq.Search.PageInfo.HasNextPage then some (.returned s)
      else searchLoop k fuel { s with searchCursor := some sq.Search.PageInfo.EndCursor }

/-- One turn of the loop `for _, review := range reviews`. -/
def reviewStep (s : Sets) (review : Review) : Sets :=
  let s :=
    if review.State = ReviewStateApproved then
      { reviewers := s.reviewers.set review.User.Login true
        approvers := s.approvers.set review.User.Login true }
    else s
  if review.State = ReviewStateChangesRequested then
    { s with reviewers := s.reviewers.set review.User.Login true }
  else s

/-- One turn of the loop `for _, comment := range comments`. -/
def commentStep (s : Sets) (comment : ReviewComment) : Sets :=
  let s :=
    if MatchString lgtmRegex comment.Body then
      { s with reviewers := s.reviewers.set comment.User.Login true }
    else s
  if MatchString approveRegex comment.Body then
    { s with approvers := s.approvers.set comment.User.Login true }
  else s

/-- The maps `reviewers` and `approvers` after both loops, lines 114 to 146. -/
def signalSets (reviews : List Review) (comments : List ReviewComment) : Sets :=
  comments.foldl commentStep (reviews.foldl reviewStep ⟨∅, ∅⟩)

def joinkeys (rho : RangeOrder) (n : Nat) (m : GoMap Bool) : String :=
  String.intercalate "," (rho.keys n m)

/-- The loops `for k := range m { t[k]++ }`, lines 149 to 154. -/
def incrKeys (rho : RangeOrder) (n : Nat) (m : GoMap Bool) (t : GoMap Int) : GoMap Int :=
  (rho.keys n m).foldl GoMap.incr t

/-- The body of the loop `for _, pr := range ret`, lines 113 to 154. -/
def prBody {σ : Type} (k : KRepoStats σ) (rho : RangeOrder) (om : GoMap Bool)
    (pr : pullRequest) (s : State σ) : Outcome σ :=
  let s := { s with numAuthors := s.numAuthors.incr pr.Author.Login }
  let s := if om.get false pr.Author.Login then s else s
  match k.GHC.ListReviews s.ghc "kubernetes" "kops" pr.Number with
  | (.error err, g) =>
    .fatal { s with
      ghc := g
      events := s.events ++
        [Event.ListReviews "kubernetes" "kops" pr.Number, Event.Fatalf (LogLine.listReviewsFailed pr.Number err)] }
  | (.ok reviews, g) =>
    let s := { s with ghc := g, events := s.events ++ [Event.ListReviews "kubernetes" "kops" pr.Number] }
    match k.GHC.ListPullRequestComments s.ghc "kubernetes" "kops" pr.Number with
    | (.error err, g) =>
      .fatal { s with
        ghc := g
        events := s.events ++
          [Event.ListPullRequestComments "kubernetes" "kops" pr.Number,
           Event.Fatalf (LogLine.listCommentsFailed pr.Number err)] }
    | (.ok comments, g) =>
      let sets := signalSets reviews comments
      .returned { s with
        ghc := g
        events := s.events ++
          [Event.ListPullRequestComments "kubernetes" "kops" pr.Number,
           Event.Infof (LogLine.pr pr.Number pr.Author.Login
             (joinkeys rho s.ranges sets.approvers) (joinkeys rho (s.ranges + 1) sets.reviewers))]
        numApprovals := incrKeys rho (s.ranges + 2) sets.approvers s.numApprovals
        numReviews := incrKeys rho (s.ranges + 3) sets.reviewers s.numReviews
        ranges := s.ranges + 4 }

/-- The loop `for _, pr := range ret`, lines 112 to 155. -/
def prLoop {σ : Type} (k : KRepoStats σ) (rho : RangeOrder) (om : GoMap Bool) :
    List pullRequest → State σ → Outcome σ
  | [], s => .returned s
  | pr :: rest, s =>
    match prBody k rho om pr s with
    | .fatal s => .fatal s
    | .returned s => prLoop k rho om rest s

/-- The closure passed to `sort.Slice` in `printTable`, on the elements at
the two indices. -/
def less (t : GoMap Int) (a b : String) : Bool :=
  if t.get 0 a < t.get 0 b then false
  else if t.get 0 a > t.get 0 b then true
  else stringLess a b

/-- The lines of `printTable(hdr, t)` when it is the `n`-th `range` over a
map. -/
def printTable (rho : RangeOrder) (n : Nat) (hdr : String) (t : GoMap Int) : List Event :=
  let val := rho.keys n t
  let val := sortSlice (less t) val
  Event.Infof (LogLine.header hdr) :: val.map (fun k => Event.Infof (LogLine.row (t.get 0 k) k))

/-- The state in which `Run` starts, the client being in state `g`. -/
def State.init {σ : Type} (g : σ) : State σ :=
  { ghc := g, events := [], ranges := 0, numAuthors := ∅, numApprovals := ∅, numReviews := ∅,
    ret := [], searchCursor := none, totalCost := 0, remaining := 0 }

/-- The method `Run`, with the package variable `owners` as an argument. -/
def RunWith {σ : Type} (owners : List String) (k : KRepoStats σ) (rho : RangeOrder)
    (fuel : Nat) (g : σ) : Option (Outcome σ) :=
  let om := ownersmap owners
  match searchLoop k fuel (State.init g) with
  | none => none
  | some (.fatal s) => some (.fatal s)
  | some (.returned s) =>
    let s := { s with events := s.events ++ [Event.Infof (LogLine.searchCost s.totalCost s.remaining)] }
    match prLoop k rho om s.ret s with
    | .fatal s => some (.fatal s)
    | .returned s =>
      some (.returned { s with
        events := s.events ++ printTable rho s.ranges "authors" s.numAuthors ++
          printTable rho (s.ranges + 1) "approvers" s.numApprovals ++
          printTable rho (s.ranges + 2) "reviewers" s.numReviews
        ranges := s.ranges + 3 })

/-- The method `Run`. -/
def Run {σ : Type} (k : KRepoStats σ) (rho : RangeOrder) (fuel : Nat) (g : σ) :
    Option (Outcome σ) :=
  RunWith owners k rho fuel g

/-! ## Scenarios -/

/-- The client answers the successive page requests of the search loop,
the first one carrying the cursor `cur`, with the pages listed. -/
def servesPages {σ : Type} (c : Client σ) : σ → Option String → List searchQuery → Prop
  | _, _, [] => True
  | g, cur, p :: ps =>
    (c.Query g query cur).1 = .ok p ∧
      servesPages c (c.Query g query cur).2 (some p.Search.PageInfo.EndCursor) ps

/-- The state of the client after it has served the pages listed. -/
def afterPages {σ : Type} (c : Client σ) : σ → Option String → List searchQuery → σ
  | g, _, [] => g
  | g, cur, p :: ps =>
    afterPages c (c.Query g query cur).2 (some p.Search.PageInfo.EndCursor) ps

/-- The page requests that fetch the pages listed, the first one carrying
the cursor `cur`. -/
def queryEvents : Option String → List searchQuery → List Event
  | _, [] => []
  | cur, p :: ps => Event.Query query cur :: queryEvents (some p.Search.PageInfo.EndCursor) ps

/-- What the client returns for one pull request: its reviews and its
comments. -/
structure Fetched where
  pr : pullRequest
  reviews : List Review
  comments : List ReviewComment

/-- The client, from state `g` on, answers the calls `ListReviews` and
`ListPullRequestComments` made for the pull requests listed, in this order,
with the reviews and comments listed. -/
def servesPRs {σ : Type} (c : Client σ) : σ → List Fetched → Prop
  | _, [] => True
  | g, d :: ds =>
    (c.ListReviews g "kubernetes" "kops" d.pr.Number).1 = .ok d.reviews ∧
    (c.ListPullRequestComments (c.ListReviews g "kubernetes" "kops" d.pr.Number).2
      "kubernetes" "kops" d.pr.Number).1 = .ok d.comments ∧
    servesPRs c (c.ListPullRequestComments (c.ListReviews g "kubernetes" "kops" d.pr.Number).2
      "kubernetes" "kops" d.pr.Number).2 ds

/-! ## The comment patterns in words -/

/-- The first line of a text: what stands before its first newline. -/
def headLine : List Char → List Char
  | [] => []
  | c :: s => if c = '\n' then [] else c :: headLine s

/-- The lines of a text after the first one. -/
def tailLines : List Char → List (List Char)
  | [] => []
  | c :: s => if c = '\n' then headLine s :: tailLines s else tailLines s

/-- The lines of a text: the pieces between its newlines. -/
def splitLines (s : List Char) : List (List Char) :=
  headLine s :: tailLines s

/-- A whitespace character, as `\s` has it. -/
def isSpace (c : Char) : Bool := perlSpace.contains c

/-- The line is the token, then whitespace, and nothing else: the token
stands at the very start of the line. -/
def isCommandLine (tok line : List Char) : Bool :=
  tok.isPrefixOf line && (line.drop tok.length).all isSpace

/-- Some line of the body is the token followed by whitespace only. -/
def hasCommandLine (tok body : String) : Bool :=
  (splitLines body.toList).any (isCommandLine tok.toList)

/-- The pattern as the specification words it: the line is optional leading
whitespace, the token, optional trailing whitespace, and nothing else. -/
def isSignalLine (tok line : List Char) : Bool :=
  isCommandLine tok (line.dropWhile isSpace)

/-- Some line of the body is a signal line in the words of the
specification. -/
def hasSignalLine (tok body : String) : Bool :=
  (splitLines body.toList).any (isSignalLine tok.toList)

/-- A comment body with the line `/lgtm`, followed by `n` spaces, on a line
of its own between the lines `before` and the lines `after`. -/
def lgtmBody (before : List (List Char)) (n : Nat) (after : List (List Char)) : String :=
  String.mk (before.flatMap (fun l => l ++ ['\n']) ++
    ("/lgtm".toList ++ List.replicate n ' ' ++ after.flatMap (fun l => '\n' :: l)))

/-- The character before the text that follows `pre`, `prev` being the
character before `pre`. -/
def lastOr (prev : Option Char) : List Char → Option Char
  | [] => prev
  | c :: s => lastOr (some c) s

/-! ## Test scenarios -/

/-- A client for tests. Its state counts the page requests answered so far:
page request number `g` gets the `g`-th page listed, and a call for the
reviews or the comments of a pull request gets those of the first entry of
`data` with its number. -/
def scripted (pages : List searchQuery) (data : List Fetched) : KRepoStats Nat :=
  { GHC :=
      { Query := fun g _ _ =>
          (match pages.get? g with
            | some p => .ok p
            | none => .error "no such page", g + 1)
        ListReviews := fun g _ _ n =>
          (match data.find? (fun d => d.pr.Number = n) with
            | some d => .ok d.reviews
            | none => .error "no such pull request", g)
        ListPullRequestComments := fun g _ _ n =>
          (match data.find? (fun d => d.pr.Number = n) with
            | some d => .ok d.comments
            | none => .error "no such pull request", g) } }

/-- Every `range` visits the keys in the order the map stores them. -/
def storedOrder : RangeOrder :=
  { enum := fun _ l => l, perm := fun _ l => List.Perm.refl l }

/-- Every `range` visits the keys in the reverse of the stored order. -/
def reversedOrder : RangeOrder :=
  { enum := fun _ l => l.reverse, perm := fun _ l => List.reverse_perm l }

/-- A page of `n` pull requests, all by `login`. -/
def pageOf (n : Nat) (login : String) (more : Bool) (cursor : String) (cost remaining : Int) :
    searchQuery :=
  { RateLimit := { Cost := cost, Remaining := remaining }
    Search :=
      { PageInfo := { HasNextPage := more, EndCursor := cursor }
        Nodes := List.replicate n { Number := 7, Author := { Login := login } } } }

/-- Pull request 42 by alice, approved twice by bob, who also comments
`/lgtm`, and with changes requested by dave. -/
def pr42 : Fetched :=
  { pr := { Number := 42, Author := { Login := "alice" } }
    reviews :=
      [{ User := { Login := "bob" }, State := ReviewStateApproved },
       { User := { Login := "dave" }, State := ReviewStateChangesRequested },
       { User := { Login := "bob" }, State := ReviewStateApproved }]
    comments := [{ User := { Login := "bob" }, Body := "/lgtm" }] }

/-- Pull request 43 by alice, with a comment `/approve` by carol. -/
def pr43 : Fetched :=
  { pr := { Number := 43, Author := { Login := "alice" } }
    reviews := []
    comments := [{ User := { Login := "carol" }, Body := "nice\n/approve\n" }] }

/-- The state after the search, on the client `scripted [p] data`, has found
the pull requests `ret` on one page of cost 1. -/
def foundState (ret : List pullRequest) : State Nat :=
  { ghc := 1, events := [Event.Query query none], ranges := 0, numAuthors := ∅,
    numApprovals := ∅, numReviews := ∅, ret := ret, searchCursor := none,
    totalCost := 1, remaining := 4999 }

/-- The single page, of cost 1, that holds the pull requests `ret`. -/
def singlePage (ret : List pullRequest) : searchQuery :=
  { RateLimit := { Cost := 1, Remaining := 4999 }
    Search := { PageInfo := { HasNextPage := false, EndCursor := "end" }, Nodes := ret } }

/-! ## Variants, for comparison with the program -/

/-- The two loops of lines 125 to 146 in the other order: the comments
first, then the reviews. The program does not run this; it is here to be
compared with `signalSets`. -/
def signalSetsCommentsFirst (reviews : List Review) (comments : List ReviewComment) : Sets :=
  reviews.foldl reviewStep (comments.foldl commentStep ⟨∅, ∅⟩)

/-! ## Reading the events -/

/-- A page request. -/
def Event.isQuery : Event → Bool
  | .Query _ _ => true
  | _ => false

/-- A call of the client. -/
def Event.isCall : Event → Bool
  | .Query _ _ => true
  | .ListReviews _ _ _ => true
  | .ListPullRequestComments _ _ _ => true
  | _ => false

/-- A line written by `klog.Fatalf`. -/
def Event.isFatalf : Event → Bool
  | .Fatalf _ => true
  | _ => false

/-- A line of one of the three tables: a header or a row. -/
def Event.isTableLine : Event → Bool
  | .Infof (.header _) => true
  | .Infof (.row _ _) => true
  | _ => false

/-- What the loop over the pull requests does while all goes well: the two
calls and the line on the pull request. -/
def Event.isPRStep : Event → Bool
  | .ListReviews _ _ _ => true
  | .ListPullRequestComments _ _ _ => true
  | .Infof (.pr _ _ _ _) => true
  | _ => false

/-- The cursor of the page request that follows the pages listed, `cur`
being the cursor of the first request. -/
def cursorAfter : Option String → List searchQuery → Option String
  | cur, [] => cur
  | _, p :: ps => cursorAfter (some p.Search.PageInfo.EndCursor) ps

/-! ## A client that keeps a record of its calls -/

/-- Whether a call has returned a value. -/
def succeeded {α : Type} : Except String α → Bool
  | .ok _ => true
  | .error _ => false

/-- The client `k` with a record added to its state: every call answers as
`k` does and appends to the record whether it has succeeded. -/
def logged {σ : Type} (k : KRepoStats σ) : KRepoStats (σ × List Bool) :=
  { GHC :=
      { Query := fun g q c =>
          ((k.GHC.Query g.1 q c).1,
            ((k.GHC.Query g.1 q c).2, g.2 ++ [succeeded (k.GHC.Query g.1 q c).1]))
        ListReviews := fun g o r n =>
          ((k.GHC.ListReviews g.1 o r n).1,
            ((k.GHC.ListReviews g.1 o r n).2, g.2 ++ [succeeded (k.GHC.ListReviews g.1 o r n).1]))
        ListPullRequestComments := fun g o r n =>
          ((k.GHC.ListPullRequestComments g.1 o r n).1,
            ((k.GHC.ListPullRequestComments g.1 o r n).2,
              g.2 ++ [succeeded (k.GHC.ListPullRequestComments g.1 o r n).1])) } }

/-- The state with the state of the client replaced by its image under `f`. -/
def State.mapGhc {σ τ : Type} (f : σ → τ) (s : State σ) : State τ :=
  { ghc := f s.ghc, events := s.events, ranges := s.ranges, numAuthors := s.numAuthors,
    numApprovals := s.numApprovals, numReviews := s.numReviews, ret := s.ret,
    searchCursor := s.searchCursor, totalCost := s.totalCost, remaining := s.remaining }

/-- The outcome with the state of the client replaced by its image under `f`. -/
def Outcome.mapGhc {σ τ : Type} (f : σ → τ) : Outcome σ → Outcome τ
  | .returned s => .returned (s.mapGhc f)
  | .fatal s => .fatal (s.mapGhc f)

/-- A call, or a line that is neither fatal nor part of a table. -/
def Event.isQuiet : Event → Bool
  | .Fatalf _ => false
  | .Infof (.header _) => false
  | .Infof (.row _ _) => false
  | _ => true

/-- The outcome `o`, on a client that keeps a record, goes on from a point
where the record was `log` and the events were `evs`: either it has
returned, after quiet events whose calls have all succeeded, or it is
fatal, after quiet events whose calls have all succeeded, one more call,
which has failed, and the fatal line. -/
def Outcome.continues {σ : Type} (o : Outcome (σ × List Bool)) (log : List Bool)
    (evs : List Event) : Prop :=
  match o with
  | .returned s =>
    ∃ ev, s.ghc.2 = log ++ List.replicate (ev.countP Event.isCall) true ∧
      s.events = evs ++ ev ∧ ∀ e ∈ ev, e.isQuiet = true
  | .fatal s =>
    ∃ ev c line, s.ghc.2 = log ++ List.replicate (ev.countP Event.isCall) true ++ [false] ∧
      s.events = evs ++ ev ++ [c, Event.Fatalf line] ∧ (∀ e ∈ ev, e.isQuiet = true) ∧
      c.isCall = true

/-- Every count of the three tables is at least 0 and at most `n`. -/
def State.countsWithin {σ : Type} (s : State σ) (n : Nat) : Prop :=
  ∀ l : String,
    (0 ≤ s.numAuthors.get 0 l ∧ s.numAuthors.get 0 l ≤ n) ∧
    (0 ≤ s.numApprovals.get 0 l ∧ s.numApprovals.get 0 l ≤ n) ∧
    (0 ≤ s.numReviews.get 0 l ∧ s.numReviews.get 0 l ≤ n)

/-- A stream of pages for tests: every page holds two pull requests and
announces a next page, but the page of index 1. -/
def demoStream (i : Nat) : searchQuery :=
  pageOf 2 "alice" (i != 1) "next" 1 4000

/-- The state of the client after it has served the reviews and comments of
the pull requests listed. -/
def afterPRs {σ : Type} (c : Client σ) : σ → List Fetched → σ
  | g, [] => g
  | g, d :: ds =>
    afterPRs c (c.ListPullRequestComments (c.ListReviews g "kubernetes" "kops" d.pr.Number).2
      "kubernetes" "kops" d.pr.Number).2 ds

/-- The client `k` with `ListPullRequestComments` out of order: every such
call fails. -/
def commentsDown {σ : Type} (k : KRepoStats σ) : KRepoStats σ :=
  { GHC :=
      { Query := k.GHC.Query
        ListReviews := k.GHC.ListReviews
        ListPullRequestComments := fun g _ _ _ => (.error "comments are down", g) } }

/-- Pull request 50 by alice, with no review and no comment. -/
def pr50 : Fetched :=
  { pr := { Number := 50, Author := { Login := "alice" } }
    reviews := []
    comments := [] }

/-- Pull request 51 by justinsb, one of the owners, with no review and no
comment. -/
def pr51 : Fetched :=
  { pr := { Number := 51, Author := { Login := "justinsb" } }
    reviews := []
    comments := [] }

/-! ## Lemmas: insertion sort -/

theorem stringLess_iff (a b : String) : stringLess a b = true ↔ a < b := by
  simp [stringLess, String.lt_iff_toList_lt]

theorem insertLeft_perm (less : String → String → Bool) (x : String) (rev : List String) :
    (insertLeft less x rev).Perm (x :: rev) := by
  induction rev with
  | nil => exact List.Perm.refl _
  | cons y rev ih =>
    unfold insertLeft
    split
    · exact ((List.Perm.cons y ih).trans (List.Perm.swap x y rev))
    · exact List.Perm.refl _

theorem insertAll_perm (less : String → String → Bool) (val rev : List String) :
    (insertAll less rev val).Perm (rev ++ val) := by
  induction val generalizing rev with
  | nil => simp [insertAll]
  | cons x rest ih =>
    unfold insertAll
    refine (ih _).trans ?_
    refine ((insertLeft_perm less x rev).append_right rest).trans ?_
    simpa using (List.perm_middle : (rev ++ x :: rest).Perm (x :: (rev ++ rest))).symm

theorem sortSlice_perm (less : String → String → Bool) (val : List String) :
    (sortSlice less val).Perm val := by
  unfold sortSlice
  exact (List.reverse_perm _).trans (by simpa using insertAll_perm less val [])

theorem insertLeft_pairwise {less : String → String → Bool}
    (htrans : ∀ a b c, less a b = true → less b c = true → less a c = true)
    (htot : ∀ a b, a ≠ b → less a b = true ∨ less b a = true)
    (x : String) (rev : List String) (hx : x ∉ rev)
    (h : rev.Pairwise (fun a b => less b a = true)) :
    (insertLeft less x rev).Pairwise (fun a b => less b a = true) := by
  induction rev with
  | nil => simp [insertLeft]
  | cons y rev ih =>
    have hy : x ≠ y := fun e => hx (e ▸ List.mem_cons_self _ _)
    have hxr : x ∉ rev := fun e => hx (List.mem_cons_of_mem _ e)
    obtain ⟨hall, hrev⟩ := List.pairwise_cons.1 h
    unfold insertLeft
    split
    · rename_i hlt
      refine List.pairwise_cons.2 ⟨?_, ih hxr hrev⟩
      intro z hz
      rcases List.mem_cons.1 ((insertLeft_perm less x rev).subset hz) with hzx | hzr
      · exact hzx ▸ hlt
      · exact hall z hzr
    · rename_i hlt
      have hyx : less y x = true := (htot x y hy).resolve_left hlt
      refine List.pairwise_cons.2 ⟨?_, h⟩
      intro z hz
      rcases List.mem_cons.1 hz with hzy | hzr
      · exact hzy ▸ hyx
      · exact htrans z y x (hall z hzr) hyx

theorem insertAll_pairwise {less : String → String → Bool}
    (htrans : ∀ a b c, less a b = true → less b c = true → less a c = true)
    (htot : ∀ a b, a ≠ b → less a b = true ∨ less b a = true)
    (val rev : List String) (hnd : (rev ++ val).Nodup)
    (h : rev.Pairwise (fun a b => less b a = true)) :
    (insertAll less rev val).Pairwise (fun a b => less b a = true) := by
  induction val generalizing rev with
  | nil => simpa [insertAll] using h
  | cons x rest ih =>
    unfold insertAll
    have hp : (insertLeft less x rev ++ rest).Perm (rev ++ x :: rest) :=
      ((insertLeft_perm less x rev).append_right rest).trans
        (by simpa using (List.perm_middle : (rev ++ x :: rest).Perm (x :: (rev ++ rest))).symm)
    have hx : x ∉ rev := by
      intro hmem
      have := List.nodup_append.1 hnd
      exact this.2.2 hmem (List.mem_cons_self _ _)
    exact ih _ (hp.nodup_iff.2 hnd) (insertLeft_pairwise htrans htot x rev hx h)

theorem sortSlice_pairwise {less : String → String → Bool}
    (htrans : ∀ a b c, less a b = true → less b c = true → less a c = true)
    (htot : ∀ a b, a ≠ b → less a b = true ∨ less b a = true)
    (val : List String) (hnd : val.Nodup) :
    (sortSlice less val).Pairwise (fun a b => less a b = true) := by
  unfold sortSlice
  rw [List.pairwise_reverse]
  exact insertAll_pairwise htrans htot val [] (by simpa using hnd) List.Pairwise.nil

/-! ## Lemmas: the order of `printTable` -/

theorem less_iff (t : GoMap Int) (a b : String) :
    less t a b = true ↔ t.get 0 a > t.get 0 b ∨ (t.get 0 a = t.get 0 b ∧ a < b) := by
  unfold less
  by_cases h1 : t.get 0 a < t.get 0 b
  · simp [h1]; omega
  · by_cases h2 : t.get 0 a > t.get 0 b
    · simp [h1, h2]
    · have : t.get 0 a = t.get 0 b := by omega
      simp [h1, h2, stringLess_iff, this]

theorem less_trans (t : GoMap Int) (a b c : String)
    (hab : less t a b = true) (hbc : less t b c = true) : less t a c = true := by
  rw [less_iff] at *
  rcases hab with h | ⟨h, h'⟩ <;> rcases hbc with k | ⟨k, k'⟩
  · left; omega
  · left; omega
  · left; omega
  · right; exact ⟨h.trans k, lt_trans h' k'⟩

theorem less_total (t : GoMap Int) (a b : String) (hne : a ≠ b) :
    less t a b = true ∨ less t b a = true := by
  rw [less_iff, less_iff]
  rcases lt_trichotomy (t.get 0 a) (t.get 0 b) with h | h | h
  · right; left; exact h
  · rcases lt_trichotomy a b with k | k | k
    · left; right; exact ⟨h, k⟩
    · exact absurd k hne
    · right; right; exact ⟨h.symm, k⟩
  · left; left; exact h

theorem less_asymm (t : GoMap Int) (a b : String)
    (hab : less t a b = true) (hba : less t b a = true) : False := by
  rw [less_iff] at *
  rcases hab with h | ⟨h, h'⟩ <;> rcases hba with k | ⟨k, k'⟩
  · omega
  · omega
  · omega
  · exact lt_asymm h' k'

theorem RangeOrder.keys_perm {V : Type} (rho : RangeOrder) (n : Nat) (m : GoMap V) :
    (rho.keys n m).Perm m.keys := rho.perm n m.keys

theorem RangeOrder.keys_nodup {V : Type} (rho : RangeOrder) (n : Nat) (m : GoMap V) :
    (rho.keys n m).Nodup := (rho.keys_perm n m).nodup_iff.2 m.keys_nodup

/-- Two lists with the same elements, both in the order of `less t`, are equal. -/
theorem eq_of_perm_of_less (t : GoMap Int) {l₁ l₂ : List String} (hp : l₁.Perm l₂)
    (h₁ : l₁.Pairwise (fun a b => less t a b = true))
    (h₂ : l₂.Pairwise (fun a b => less t a b = true)) : l₁ = l₂ := by
  haveI : IsAntisymm String (fun a b => less t a b = true) :=
    ⟨fun a b hab hba => (less_asymm t a b hab hba).elim⟩
  exact List.eq_of_perm_of_sorted hp h₁ h₂

theorem sortSlice_keys_pairwise (rho : RangeOrder) (n : Nat) (t : GoMap Int) :
    (sortSlice (less t) (rho.keys n t)).Pairwise (fun a b => less t a b = true) :=
  sortSlice_pairwise (less_trans t) (less_total t) _ (rho.keys_nodup n t)

theorem sortSlice_keys_eq (rho₁ rho₂ : RangeOrder) (n₁ n₂ : Nat) (t : GoMap Int) :
    sortSlice (less t) (rho₁.keys n₁ t) = sortSlice (less t) (rho₂.keys n₂ t) := by
  apply eq_of_perm_of_less t _ (sortSlice_keys_pairwise rho₁ n₁ t) (sortSlice_keys_pairwise rho₂ n₂ t)
  exact (sortSlice_perm _ _).trans (((rho₁.keys_perm n₁ t).trans (rho₂.keys_perm n₂ t).symm).trans
    (sortSlice_perm _ _).symm)

theorem wrapInt_add_left (a b : Int) : wrapInt (wrapInt a + b) = wrapInt (a + b) := by
  unfold wrapInt
  norm_num
  omega

theorem wrapInt_of_range (a : Int) (h₁ : -2 ^ 63 ≤ a) (h₂ : a < 2 ^ 63) : wrapInt a = a := by
  unfold wrapInt
  norm_num at *
  omega

theorem queryEvents_length (cur : Option String) (pages : List searchQuery) :
    (queryEvents cur pages).length = pages.length := by
  induction pages generalizing cur with
  | nil => rfl
  | cons p ps ih => simp [queryEvents, ih]

/-- The search loop on a client that serves `pages ++ [last]`. -/
theorem searchLoop_serves {σ : Type} (k : KRepoStats σ) (pages : List searchQuery)
    (last : searchQuery) (fuel : Nat) (s : State σ)
    (hserve : servesPages k.GHC s.ghc s.searchCursor (pages ++ [last]))
    (hmore : ∀ p ∈ pages, p.Search.PageInfo.HasNextPage = true)
    (hlast : last.Search.PageInfo.HasNextPage = false)
    (hfuel : pages.length + 1 ≤ fuel) :
    ∃ s', searchLoop k fuel s = some (.returned s') ∧
      s'.events = s.events ++ queryEvents s.searchCursor (pages ++ [last]) ∧
      s'.ret = s.ret ++ (pages ++ [last]).flatMap (fun p => p.Search.Nodes) ∧
      s'.totalCost = wrapInt (s.totalCost + ((pages ++ [last]).map (fun p => p.RateLimit.Cost)).sum) ∧
      s'.remaining = last.RateLimit.Remaining ∧
      s'.ghc = afterPages k.GHC s.ghc s.searchCursor (pages ++ [last]) := by
  induction pages generalizing fuel s with
  | nil =>
    obtain ⟨fuel, rfl⟩ : ∃ f, fuel = f + 1 := ⟨fuel - 1, by simp at hfuel; omega⟩
    simp only [List.nil_append, servesPages, and_true] at hserve
    unfold searchLoop
    rcases hq : k.GHC.Query s.ghc query s.searchCursor with ⟨r, g⟩
    rw [hq] at hserve
    simp only at hserve
    subst hserve
    simp [hlast, queryEvents, afterPages, hq]
  | cons p ps ih =>
    obtain ⟨fuel, rfl⟩ : ∃ f, fuel = f + 1 := ⟨fuel - 1, by simp at hfuel; omega⟩
    simp only [List.cons_append, servesPages] at hserve
    unfold searchLoop
    rcases hq : k.GHC.Query s.ghc query s.searchCursor with ⟨r, g⟩
    rw [hq] at hserve
    simp only at hserve
    obtain ⟨hr, hrest⟩ := hserve
    subst hr
    have hp : p.Search.PageInfo.HasNextPage = true := hmore p (List.mem_cons_self _ _)
    simp only [hp, Bool.not_true, Bool.false_eq_true, ↓reduceIte]
    obtain ⟨s', h1, h2, h3, h4, h5, h6⟩ := ih fuel
      { ghc := g, events := s.events ++ [Event.Query query s.searchCursor], ranges := s.ranges,
        numAuthors := s.numAuthors, numApprovals := s.numApprovals, numReviews := s.numReviews,
        ret := s.ret ++ p.Search.Nodes, searchCursor := some p.Search.PageInfo.EndCursor,
        totalCost := wrapInt (s.totalCost + p.RateLimit.Cost),
        remaining := p.RateLimit.Remaining }
      hrest (fun q hq => hmore q (List.mem_cons_of_mem _ hq)) (by simp at hfuel ⊢; omega)
    refine ⟨s', h1, ?_, ?_, ?_, h5, ?_⟩
    · simp [h2, queryEvents]
    · simp [h3]
    · rw [h4, wrapInt_add_left]
      simp [add_assoc]
    · rw [h6]
      simp [afterPages, hq]

/-! ## Lemmas: maps -/

theorem GoMap.get_set_self {V : Type} (m : GoMap V) (zero : V) (k : String) (v : V) :
    (m.set k v).get zero k = v := by
  simp [GoMap.get, GoMap.set, AList.lookup_insert]

theorem GoMap.get_set_ne {V : Type} (m : GoMap V) (zero : V) (k l : String) (v : V)
    (h : l ≠ k) : (m.set k v).get zero l = m.get zero l := by
  simp [GoMap.get, GoMap.set, AList.lookup_insert_ne h]

theorem GoMap.mem_set {V : Type} (m : GoMap V) (k l : String) (v : V) :
    l ∈ m.set k v ↔ l = k ∨ l ∈ m := by
  simp [GoMap.set, AList.mem_insert]

theorem GoMap.get_incr_self (m : GoMap Int) (k : String) :
    (m.incr k).get 0 k = wrapInt (m.get 0 k + 1) :=
  GoMap.get_set_self m 0 k _

theorem GoMap.get_incr_ne (m : GoMap Int) (k l : String) (h : l ≠ k) :
    (m.incr k).get 0 l = m.get 0 l :=
  GoMap.get_set_ne m 0 k l _ h

theorem GoMap.mem_incr (m : GoMap Int) (k l : String) : l ∈ m.incr k ↔ l = k ∨ l ∈ m :=
  GoMap.mem_set m k l _

theorem foldl_incr_get (ks : List String) (hnd : ks.Nodup) (t : GoMap Int) (l : String) :
    (ks.foldl GoMap.incr t).get 0 l = if l ∈ ks then wrapInt (t.get 0 l + 1) else t.get 0 l := by
  induction ks generalizing t with
  | nil => simp
  | cons k ks ih =>
    obtain ⟨hk, hks⟩ := List.nodup_cons.1 hnd
    rw [List.foldl_cons, ih hks]
    by_cases hl : l = k
    · subst hl
      simp [hk, GoMap.get_incr_self]
    · have : ¬ k = l := fun e => hl e.symm
      simp [hl, GoMap.get_incr_ne _ _ _ hl]

theorem foldl_incr_mem (ks : List String) (t : GoMap Int) (l : String) :
    l ∈ ks.foldl GoMap.incr t ↔ l ∈ ks ∨ l ∈ t := by
  induction ks generalizing t with
  | nil => simp
  | cons k ks ih =>
    rw [List.foldl_cons, ih, GoMap.mem_incr]
    simp only [List.mem_cons]
    tauto

theorem RangeOrder.mem_keys {V : Type} (rho : RangeOrder) (n : Nat) (m : GoMap V) (l : String) :
    l ∈ rho.keys n m ↔ l ∈ m :=
  (rho.keys_perm n m).mem_iff.trans AList.mem_keys.symm

theorem incrKeys_get (rho : RangeOrder) (n : Nat) (m : GoMap Bool) (t : GoMap Int) (l : String) :
    (incrKeys rho n m t).get 0 l = if l ∈ m then wrapInt (t.get 0 l + 1) else t.get 0 l := by
  unfold incrKeys
  rw [foldl_incr_get _ (rho.keys_nodup n m)]
  simp only [rho.mem_keys]

theorem incrKeys_mem (rho : RangeOrder) (n : Nat) (m : GoMap Bool) (t : GoMap Int) (l : String) :
    l ∈ incrKeys rho n m t ↔ l ∈ m ∨ l ∈ t := by
  unfold incrKeys
  rw [foldl_incr_mem, rho.mem_keys]

/-! ## Lemmas: the sets of one pull request -/

theorem ReviewState_ne : ReviewStateApproved ≠ ReviewStateChangesRequested := by decide

theorem reviewStep_reviewers (s : Sets) (r : Review) (l : String) :
    l ∈ (reviewStep s r).reviewers ↔
      l ∈ s.reviewers ∨
        ((r.State = ReviewStateApproved ∨ r.State = ReviewStateChangesRequested) ∧
          r.User.Login = l) := by
  unfold reviewStep
  by_cases h1 : r.State = ReviewStateApproved
  · have h2 : r.State ≠ ReviewStateChangesRequested := fun e => ReviewState_ne (h1.symm.trans e)
    simp only [h1, ↓reduceIte, ReviewState_ne, GoMap.mem_set]
    constructor
    · rintro (h | h)
      · exact Or.inr ⟨Or.inl trivial, h.symm⟩
      · exact Or.inl h
    · rintro (h | ⟨_, h⟩)
      · exact Or.inr h
      · exact Or.inl h.symm
  · by_cases h2 : r.State = ReviewStateChangesRequested
    · simp only [h1, h2, ↓reduceIte, GoMap.mem_set]
      constructor
      · rintro (h | h)
        · exact Or.inr ⟨Or.inr trivial, h.symm⟩
        · exact Or.inl h
      · rintro (h | ⟨_, h⟩)
        · exact Or.inr h
        · exact Or.inl h.symm
    · simp [h1, h2]

theorem reviewStep_approvers (s : Sets) (r : Review) (l : String) :
    l ∈ (reviewStep s r).approvers ↔
      l ∈ s.approvers ∨ (r.State = ReviewStateApproved ∧ r.User.Login = l) := by
  unfold reviewStep
  by_cases h1 : r.State = ReviewStateApproved
  · have h2 : r.State ≠ ReviewStateChangesRequested := fun e => ReviewState_ne (h1.symm.trans e)
    simp only [h1, ↓reduceIte, ReviewState_ne, GoMap.mem_set]
    constructor
    · rintro (h | h)
      · exact Or.inr ⟨trivial, h.symm⟩
      · exact Or.inl h
    · rintro (h | ⟨_, h⟩)
      · exact Or.inr h
      · exact Or.inl h.symm
  · by_cases h2 : r.State = ReviewStateChangesRequested
    · have h3 : ReviewStateChangesRequested ≠ ReviewStateApproved := ReviewState_ne.symm
      simp [h2, h3]
    · simp [h1, h2]

theorem commentStep_reviewers (s : Sets) (c : ReviewComment) (l : String) :
    l ∈ (commentStep s c).reviewers ↔
      l ∈ s.reviewers ∨ (MatchString lgtmRegex c.Body = true ∧ c.User.Login = l) := by
  unfold commentStep
  by_cases h1 : MatchString lgtmRegex c.Body = true <;>
    by_cases h2 : MatchString approveRegex c.Body = true <;>
    simp [h1, h2, GoMap.mem_set, eq_comm, or_comm]

theorem commentStep_approvers (s : Sets) (c : ReviewComment) (l : String) :
    l ∈ (commentStep s c).approvers ↔
      l ∈ s.approvers ∨ (MatchString approveRegex c.Body = true ∧ c.User.Login = l) := by
  unfold commentStep
  by_cases h1 : MatchString lgtmRegex c.Body = true <;>
    by_cases h2 : MatchString approveRegex c.Body = true <;>
    simp [h1, h2, GoMap.mem_set, eq_comm, or_comm]

theorem foldl_reviewStep_reviewers (rs : List Review) (s : Sets) (l : String) :
    l ∈ (rs.foldl reviewStep s).reviewers ↔
      l ∈ s.reviewers ∨
        ∃ r ∈ rs, (r.State = ReviewStateApproved ∨ r.State = ReviewStateChangesRequested) ∧
          r.User.Login = l := by
  induction rs generalizing s with
  | nil => simp
  | cons r rs ih =>
    rw [List.foldl_cons, ih, reviewStep_reviewers]
    simp only [List.mem_cons, exists_eq_or_imp]
    exact or_assoc

theorem foldl_reviewStep_approvers (rs : List Review) (s : Sets) (l : String) :
    l ∈ (rs.foldl reviewStep s).approvers ↔
      l ∈ s.approvers ∨ ∃ r ∈ rs, r.State = ReviewStateApproved ∧ r.User.Login = l := by
  induction rs generalizing s with
  | nil => simp
  | cons r rs ih =>
    rw [List.foldl_cons, ih, reviewStep_approvers]
    simp only [List.mem_cons, exists_eq_or_imp]
    exact or_assoc

theorem foldl_commentStep_reviewers (cs : List ReviewComment) (s : Sets) (l : String) :
    l ∈ (cs.foldl commentStep s).reviewers ↔
      l ∈ s.reviewers ∨ ∃ c ∈ cs, MatchString lgtmRegex c.Body = true ∧ c.User.Login = l := by
  induction cs generalizing s with
  | nil => simp
  | cons c cs ih =>
    rw [List.foldl_cons, ih, commentStep_reviewers]
    simp only [List.mem_cons, exists_eq_or_imp]
    exact or_assoc

theorem foldl_commentStep_approvers (cs : List ReviewComment) (s : Sets) (l : String) :
    l ∈ (cs.foldl commentStep s).approvers ↔
      l ∈ s.approvers ∨ ∃ c ∈ cs, MatchString approveRegex c.Body = true ∧ c.User.Login = l := by
  induction cs generalizing s with
  | nil => simp
  | cons c cs ih =>
    rw [List.foldl_cons, ih, commentStep_approvers]
    simp only [List.mem_cons, exists_eq_or_imp]
    exact or_assoc

theorem signalSets_approvers (reviews : List Review) (comments : List ReviewComment) (l : String) :
    l ∈ (signalSets reviews comments).approvers ↔
      (∃ r ∈ reviews, r.State = ReviewStateApproved ∧ r.User.Login = l) ∨
        ∃ c ∈ comments, MatchString approveRegex c.Body = true ∧ c.User.Login = l := by
  unfold signalSets
  rw [foldl_commentStep_approvers, foldl_reviewStep_approvers]
  simp [AList.not_mem_empty]

theorem signalSets_reviewers (reviews : List Review) (comments : List ReviewComment) (l : String) :
    l ∈ (signalSets reviews comments).reviewers ↔
      (∃ r ∈ reviews, (r.State = ReviewStateApproved ∨ r.State = ReviewStateChangesRequested) ∧
          r.User.Login = l) ∨
        ∃ c ∈ comments, MatchString lgtmRegex c.Body = true ∧ c.User.Login = l := by
  unfold signalSets
  rw [foldl_commentStep_reviewers, foldl_reviewStep_reviewers]
  simp [AList.not_mem_empty]

/-! ## Lemmas: the loop over the pull requests -/

theorem wrapInt_wrapInt (a : Int) : wrapInt (wrapInt a) = wrapInt a := by
  have := wrapInt_add_left a 0
  simpa using this

theorem wrapInt_zero : wrapInt 0 = 0 := by decide

theorem or_swap_assoc (A B B' C : Prop) (h : B ↔ B') : ((B ∨ A) ∨ C) ↔ (A ∨ (B' ∨ C)) := by
  rw [h]; tauto

/-- The body of the loop when both calls succeed. -/
theorem prBody_ok {σ : Type} (k : KRepoStats σ) (rho : RangeOrder) (om : GoMap Bool)
    (pr : pullRequest) (s : State σ) (reviews : List Review) (comments : List ReviewComment)
    (h₁ : (k.GHC.ListReviews s.ghc "kubernetes" "kops" pr.Number).1 = .ok reviews)
    (h₂ : (k.GHC.ListPullRequestComments (k.GHC.ListReviews s.ghc "kubernetes" "kops" pr.Number).2
      "kubernetes" "kops" pr.Number).1 = .ok comments) :
    ∃ s', prBody k rho om pr s = .returned s' ∧
      s'.ghc = (k.GHC.ListPullRequestComments
          (k.GHC.ListReviews s.ghc "kubernetes" "kops" pr.Number).2
          "kubernetes" "kops" pr.Number).2 ∧
      s'.events = s.events ++
          [Event.ListReviews "kubernetes" "kops" pr.Number,
           Event.ListPullRequestComments "kubernetes" "kops" pr.Number,
           Event.Infof (LogLine.pr pr.Number pr.Author.Login
             (joinkeys rho s.ranges (signalSets reviews comments).approvers)
             (joinkeys rho (s.ranges + 1) (signalSets reviews comments).reviewers))] ∧
      s'.numAuthors = s.numAuthors.incr pr.Author.Login ∧
      s'.numApprovals = incrKeys rho (s.ranges + 2) (signalSets reviews comments).approvers
          s.numApprovals ∧
      s'.numReviews = incrKeys rho (s.ranges + 3) (signalSets reviews comments).reviewers
          s.numReviews ∧
      s'.ranges = s.ranges + 4 ∧
      s'.ret = s.ret ∧ s'.totalCost = s.totalCost ∧ s'.remaining = s.remaining ∧
      s'.searchCursor = s.searchCursor := by
  unfold prBody
  simp only [ite_self]
  rcases hr : k.GHC.ListReviews s.ghc "kubernetes" "kops" pr.Number with ⟨r, g₁⟩
  rw [hr] at h₁ h₂
  simp only at h₁ h₂
  subst h₁
  simp only
  rcases hc : k.GHC.ListPullRequestComments g₁ "kubernetes" "kops" pr.Number with ⟨c, g₂⟩
  rw [hc] at h₂
  simp only at h₂
  subst h₂
  exact ⟨_, rfl, by simp⟩

/-- The loop over the pull requests on a client that serves `data`. -/
theorem prLoop_serves {σ : Type} (k : KRepoStats σ) (rho : RangeOrder) (om : GoMap Bool)
    (data : List Fetched) (s : State σ) (h : servesPRs k.GHC s.ghc data) :
    ∃ s', prLoop k rho om (data.map (fun d => d.pr)) s = .returned s' ∧
      (∃ ev, s'.events = s.events ++ ev) ∧
      s'.ret = s.ret ∧ s'.totalCost = s.totalCost ∧ s'.remaining = s.remaining ∧
      (∀ l, l ∈ s'.numAuthors ↔ l ∈ s.numAuthors ∨ ∃ d ∈ data, d.pr.Author.Login = l) ∧
      (∀ l, l ∈ s'.numApprovals ↔
        l ∈ s.numApprovals ∨ ∃ d ∈ data, l ∈ (signalSets d.reviews d.comments).approvers) ∧
      (∀ l, l ∈ s'.numReviews ↔
        l ∈ s.numReviews ∨ ∃ d ∈ data, l ∈ (signalSets d.reviews d.comments).reviewers) ∧
      (∀ l, wrapInt (s.numAuthors.get 0 l) = s.numAuthors.get 0 l →
        s'.numAuthors.get 0 l =
          wrapInt (s.numAuthors.get 0 l + data.countP (fun d => d.pr.Author.Login = l))) ∧
      (∀ l, wrapInt (s.numApprovals.get 0 l) = s.numApprovals.get 0 l →
        s'.numApprovals.get 0 l =
          wrapInt (s.numApprovals.get 0 l +
            data.countP (fun d => l ∈ (signalSets d.reviews d.comments).approvers.keys))) ∧
      (∀ l, wrapInt (s.numReviews.get 0 l) = s.numReviews.get 0 l →
        s'.numReviews.get 0 l =
          wrapInt (s.numReviews.get 0 l +
            data.countP (fun d => l ∈ (signalSets d.reviews d.comments).reviewers.keys))) := by
  induction data generalizing s with
  | nil =>
    refine ⟨s, rfl, ⟨[], by simp⟩, rfl, rfl, rfl, ?_, ?_, ?_, ?_, ?_, ?_⟩ <;> intro l <;> simp
    all_goals exact fun h => h.symm
  | cons d ds ih =>
    obtain ⟨h₁, h₂, h₃⟩ := h
    obtain ⟨s₁, hb, bg, bev, ba, bp, br, bn, bret, btc, brem, _⟩ :=
      prBody_ok k rho om d.pr s d.reviews d.comments h₁ h₂
    simp only [List.map_cons, prLoop, hb]
    rw [← bg] at h₃
    obtain ⟨s', e, ⟨ev, hev⟩, hret, htc, hrem, ka, kp, kr, ga, gp, gr⟩ := ih s₁ h₃
    rw [ba] at ka ga
    rw [bp] at kp gp
    rw [br] at kr gr
    refine ⟨s', e, ⟨_, by rw [hev, bev, List.append_assoc]⟩, hret.trans bret,
      htc.trans btc, hrem.trans brem, ?_, ?_, ?_, ?_, ?_, ?_⟩
    · intro l
      rw [ka, GoMap.mem_incr]
      simp only [List.mem_cons, exists_eq_or_imp]
      exact or_swap_assoc _ _ _ _ eq_comm
    · intro l
      rw [kp, incrKeys_mem]
      simp only [List.mem_cons, exists_eq_or_imp]
      exact or_swap_assoc _ _ _ _ Iff.rfl
    · intro l
      rw [kr, incrKeys_mem]
      simp only [List.mem_cons, exists_eq_or_imp]
      exact or_swap_assoc _ _ _ _ Iff.rfl
    · intro l hl
      by_cases hd : d.pr.Author.Login = l
      · have hg : (s.numAuthors.incr d.pr.Author.Login).get 0 l
            = wrapInt (s.numAuthors.get 0 l + 1) := by
          subst hd; exact GoMap.get_incr_self _ _
        have hc : List.countP (fun d => decide (d.pr.Author.Login = l)) (d :: ds)
            = List.countP (fun d => decide (d.pr.Author.Login = l)) ds + 1 := by
          simp [List.countP_cons, hd]
        rw [ga l (by simp only [hg, wrapInt_wrapInt]), hg, wrapInt_add_left, hc]
        congr 1
        push_cast
        ring
      · have hg : (s.numAuthors.incr d.pr.Author.Login).get 0 l = s.numAuthors.get 0 l :=
          GoMap.get_incr_ne _ _ _ (fun e => hd e.symm)
        rw [ga l (by simp only [hg, hl])]
        simp [hg, List.countP_cons, hd]
    · intro l hl
      have hg := incrKeys_get rho (s.ranges + 2) (signalSets d.reviews d.comments).approvers
        s.numApprovals l
      by_cases hd : l ∈ (signalSets d.reviews d.comments).approvers
      · rw [if_pos hd] at hg
        rw [gp l (by simp only [hg, wrapInt_wrapInt])]
        have hd' : l ∈ (signalSets d.reviews d.comments).approvers.keys := AList.mem_keys.1 hd
        simp only [hg, wrapInt_add_left, List.countP_cons, hd', decide_True, ↓reduceIte]
        congr 1
        push_cast
        ring
      · rw [if_neg hd] at hg
        rw [gp l (by simp only [hg, hl])]
        have hd' : l ∉ (signalSets d.reviews d.comments).approvers.keys :=
          fun e => hd (AList.mem_keys.2 e)
        simp [hg, List.countP_cons, hd']
    · intro l hl
      have hg := incrKeys_get rho (s.ranges + 3) (signalSets d.reviews d.comments).reviewers
        s.numReviews l
      by_cases hd : l ∈ (signalSets d.reviews d.comments).reviewers
      · rw [if_pos hd] at hg
        rw [gr l (by simp only [hg, wrapInt_wrapInt])]
        have hd' : l ∈ (signalSets d.reviews d.comments).reviewers.keys := AList.mem_keys.1 hd
        simp only [hg, wrapInt_add_left, List.countP_cons, hd', decide_True, ↓reduceIte]
        congr 1
        push_cast
        ring
      · rw [if_neg hd] at hg
        rw [gr l (by simp only [hg, hl])]
        have hd' : l ∉ (signalSets d.reviews d.comments).reviewers.keys :=
          fun e => hd (AList.mem_keys.2 e)
        simp [hg, List.countP_cons, hd']

/-! ## Lemmas: `Run` as a whole -/

/-- The search loop leaves the three tables and the count of `range`
statements alone and only adds events. -/
theorem searchLoop_frame {σ : Type} (k : KRepoStats σ) (fuel : Nat) (s : State σ)
    (o : Outcome σ) (h : searchLoop k fuel s = some o) :
    o.state.numAuthors = s.numAuthors ∧ o.state.numApprovals = s.numApprovals ∧
      o.state.numReviews = s.numReviews ∧ o.state.ranges = s.ranges ∧
      ∃ ev, o.state.events = s.events ++ ev := by
  induction fuel generalizing s with
  | zero => simp [searchLoop] at h
  | succ fuel ih =>
    unfold searchLoop at h
    rcases hq : k.GHC.Query s.ghc query s.searchCursor with ⟨r, g⟩
    rw [hq] at h
    cases r with
    | error err =>
      simp only [Option.some.injEq] at h
      subst h
      exact ⟨rfl, rfl, rfl, rfl, _, rfl⟩
    | ok sq =>
      simp only at h
      by_cases hn : sq.Search.PageInfo.HasNextPage = true
      · simp only [hn, Bool.not_true, Bool.false_eq_true, ↓reduceIte] at h
        obtain ⟨h1, h2, h3, h4, ev, h5⟩ := ih _ h
        exact ⟨h1, h2, h3, h4, _, by rw [h5, List.append_assoc]⟩
      · simp only [hn, Bool.not_false, ↓reduceIte, Option.some.injEq] at h
        subst h
        exact ⟨rfl, rfl, rfl, rfl, _, rfl⟩

theorem GoMap.get_empty (l : String) : (∅ : GoMap Int).get 0 l = 0 := by
  simp [GoMap.get, AList.lookup_empty]

theorem wrapInt_count (n m : Nat) (hn : n ≤ m) (hm : m < 2 ^ 63) :
    wrapInt ((0 : Int) + (n : Int)) = (n : Int) := by
  rw [zero_add]
  apply wrapInt_of_range
  · have : (0 : Int) ≤ (n : Int) := Int.ofNat_nonneg n
    norm_num
    omega
  · have h1 : ((n : Nat) : Int) < ((2 ^ 63 : Nat) : Int) := Int.ofNat_lt.2 (lt_of_le_of_lt hn hm)
    norm_num at h1 ⊢
    exact h1

/-- The whole of `Run` when the search succeeds and the client serves the
reviews and comments of the pull requests found. -/
theorem Run_serves {σ : Type} (k : KRepoStats σ) (rho : RangeOrder) (fuel : Nat) (g : σ)
    (owners : List String) (s₁ : State σ) (data : List Fetched)
    (hsearch : searchLoop k fuel (State.init g) = some (.returned s₁))
    (hret : data.map (fun d => d.pr) = s₁.ret)
    (hserve : servesPRs k.GHC s₁.ghc data) :
    ∃ s, RunWith owners k rho fuel g = some (.returned s) ∧
      (∃ ev n, s.events = s₁.events ++
        Event.Infof (LogLine.searchCost s₁.totalCost s₁.remaining) :: ev ++
        (printTable rho n "authors" s.numAuthors ++
          printTable rho (n + 1) "approvers" s.numApprovals ++
          printTable rho (n + 2) "reviewers" s.numReviews)) ∧
      (∀ l, l ∈ s.numAuthors ↔ ∃ d ∈ data, d.pr.Author.Login = l) ∧
      (∀ l, l ∈ s.numApprovals ↔ ∃ d ∈ data, l ∈ (signalSets d.reviews d.comments).approvers) ∧
      (∀ l, l ∈ s.numReviews ↔ ∃ d ∈ data, l ∈ (signalSets d.reviews d.comments).reviewers) ∧
      (∀ l, s.numAuthors.get 0 l =
          wrapInt (0 + data.countP (fun d => d.pr.Author.Login = l))) ∧
      (∀ l, s.numApprovals.get 0 l =
          wrapInt (0 + data.countP
            (fun d => l ∈ (signalSets d.reviews d.comments).approvers.keys))) ∧
      (∀ l, s.numReviews.get 0 l =
          wrapInt (0 + data.countP
            (fun d => l ∈ (signalSets d.reviews d.comments).reviewers.keys))) := by
  obtain ⟨f1, f2, f3, _, _⟩ := searchLoop_frame k fuel _ _ hsearch
  simp only [Outcome.state, State.init] at f1 f2 f3
  obtain ⟨s₂, hloop, ⟨ev, hev⟩, _, _, _, ka, kp, kr, ga, gp, gr⟩ :=
    prLoop_serves k rho (ownersmap owners) data
      { s₁ with events := s₁.events ++ [Event.Infof (LogLine.searchCost s₁.totalCost s₁.remaining)] }
      hserve
  simp only [f1, f2, f3, AList.not_mem_empty, false_or, GoMap.get_empty, wrapInt_zero,
    forall_const] at ka kp kr ga gp gr
  rw [hret] at hloop
  refine ⟨{ s₂ with
      events := s₂.events ++ printTable rho s₂.ranges "authors" s₂.numAuthors ++
        printTable rho (s₂.ranges + 1) "approvers" s₂.numApprovals ++
        printTable rho (s₂.ranges + 2) "reviewers" s₂.numReviews
      ranges := s₂.ranges + 3 }, ?_, ⟨ev, s₂.ranges, ?_⟩, ka, kp, kr, ga, gp, gr⟩
  · simp only [RunWith, hsearch, hloop]
  · simp only [hev, List.append_assoc, List.singleton_append, List.cons_append, List.nil_append]

/-! ## Lemmas: the patterns -/

theorem starLoop_endLine (prev : Option Char) (s : List Char) :
    starLoop perlSpace (fun _ t => atEndLine t) prev s = (headLine s).all isSpace := by
  induction s generalizing prev with
  | nil => simp [starLoop, atEndLine, headLine]
  | cons c s ih =>
    simp only [starLoop]
    rw [ih]
    by_cases hc : c = '\n'
    · subst hc
      simp [atEndLine, headLine]
    · simp [atEndLine, headLine, hc, isSpace]

theorem matchHere_runes (tok : List Char) (htok : '\n' ∉ tok) (prev : Option Char)
    (s : List Char) :
    matchHere (tok.map Inst.rune ++ [Inst.starClass perlSpace, Inst.endLine]) prev s
      = isCommandLine tok (headLine s) := by
  induction tok generalizing prev s with
  | nil =>
    simp only [List.map_nil, List.nil_append, matchHere, Bool.and_true]
    rw [starLoop_endLine]
    simp [isCommandLine]
  | cons a tok ih =>
    have ha : a ≠ '\n' := fun e => htok (e ▸ List.mem_cons_self _ _)
    have htok' : '\n' ∉ tok := fun e => htok (List.mem_cons_of_mem _ e)
    cases s with
    | nil => simp [matchHere, headLine, isCommandLine]
    | cons d s =>
      simp only [List.map_cons, List.cons_append, matchHere]
      change (a == d && matchHere (tok.map Inst.rune ++
        [Inst.starClass perlSpace, Inst.endLine]) (some d) s) = _
      rw [ih htok']
      by_cases hd : d = '\n'
      · subst hd
        simp [headLine, isCommandLine, ha]
      · simp [headLine, isCommandLine, hd, List.isPrefixOf, Bool.and_assoc]

/-- A pattern `(?m)^tok\s*$`. -/
theorem matchFrom_command (tok : List Char) (htok : '\n' ∉ tok) (prev : Option Char)
    (s : List Char) :
    matchFrom (Inst.beginLine :: (tok.map Inst.rune ++ [Inst.starClass perlSpace, Inst.endLine]))
        prev s
      = ((atBeginLine prev && isCommandLine tok (headLine s))
          || (tailLines s).any (isCommandLine tok)) := by
  induction s generalizing prev with
  | nil => simp [matchFrom, matchHere, matchHere_runes tok htok, tailLines]
  | cons c s ih =>
    simp only [matchFrom, matchHere]
    change (atBeginLine prev && matchHere (tok.map Inst.rune ++
        [Inst.starClass perlSpace, Inst.endLine]) prev (c :: s) || _) = _
    rw [matchHere_runes tok htok, ih]
    by_cases hc : c = '\n'
    · subst hc
      simp [tailLines, atBeginLine]
    · have h1 : atBeginLine (some c) = false := by simp [atBeginLine, hc]
      have h2 : tailLines (c :: s) = tailLines s := by simp [tailLines, hc]
      rw [h1, h2]
      simp

theorem MatchString_command (tok : String) (htok : '\n' ∉ tok.toList) (body : String) :
    MatchString (Inst.beginLine ::
        (tok.toList.map Inst.rune ++ [Inst.starClass perlSpace, Inst.endLine])) body
      = hasCommandLine tok body := by
  unfold MatchString hasCommandLine splitLines
  rw [matchFrom_command _ htok]
  simp [atBeginLine]

theorem MatchString_lgtm (body : String) :
    MatchString lgtmRegex body = hasCommandLine "/lgtm" body :=
  MatchString_command "/lgtm" (by decide) body

theorem MatchString_approve (body : String) :
    MatchString approveRegex body = hasCommandLine "/approve" body :=
  MatchString_command "/approve" (by decide) body

/-! ## Lemmas: a command on a line of its own -/

theorem matchFrom_append (re : List Inst) (pre s : List Char) (prev : Option Char)
    (h : matchHere re (lastOr prev pre) s = true) : matchFrom re prev (pre ++ s) = true := by
  induction pre generalizing prev with
  | nil =>
    simp only [lastOr] at h
    cases s with
    | nil => simpa [matchFrom] using h
    | cons c s => simp [matchFrom, h]
  | cons c pre ih =>
    simp only [lastOr] at h
    simp [matchFrom, ih (some c) h]

theorem lastOr_append (prev : Option Char) (a b : List Char) :
    lastOr prev (a ++ b) = lastOr (lastOr prev a) b := by
  induction a generalizing prev with
  | nil => rfl
  | cons c a ih => simp [lastOr, ih]

theorem atBeginLine_lines (before : List (List Char)) (prev : Option Char)
    (h : atBeginLine prev = true) :
    atBeginLine (lastOr prev (before.flatMap (fun l => l ++ ['\n']))) = true := by
  induction before generalizing prev with
  | nil => simpa [lastOr] using h
  | cons l ls ih =>
    rw [List.flatMap_cons, lastOr_append]
    apply ih
    rw [lastOr_append]
    simp [lastOr, atBeginLine]

theorem headLine_append_newline (a b : List Char) (ha : '\n' ∉ a) :
    headLine (a ++ '\n' :: b) = a := by
  induction a with
  | nil => simp [headLine]
  | cons c a ih =>
    have hc : c ≠ '\n' := fun e => ha (e ▸ List.mem_cons_self _ _)
    simp [headLine, hc, ih (fun e => ha (List.mem_cons_of_mem _ e))]

theorem headLine_of_not_mem (a : List Char) (ha : '\n' ∉ a) : headLine a = a := by
  induction a with
  | nil => simp [headLine]
  | cons c a ih =>
    have hc : c ≠ '\n' := fun e => ha (e ▸ List.mem_cons_self _ _)
    simp [headLine, hc, ih (fun e => ha (List.mem_cons_of_mem _ e))]

theorem headLine_lines (a : List Char) (ha : '\n' ∉ a) (after : List (List Char)) :
    headLine (a ++ after.flatMap (fun l => '\n' :: l)) = a := by
  cases after with
  | nil => simpa using headLine_of_not_mem a ha
  | cons l ls =>
    rw [List.flatMap_cons, List.cons_append]
    exact headLine_append_newline a _ ha

theorem MatchString_lgtmBody (before : List (List Char)) (n : Nat) (after : List (List Char)) :
    MatchString lgtmRegex (lgtmBody before n after) = true := by
  unfold MatchString lgtmBody
  apply matchFrom_append
  have hb := atBeginLine_lines before none rfl
  have hre : lgtmRegex = Inst.beginLine ::
      ("/lgtm".toList.map Inst.rune ++ [Inst.starClass perlSpace, Inst.endLine]) := rfl
  rw [hre, matchHere, hb, Bool.true_and, matchHere_runes _ (by decide)]
  have hnl : '\n' ∉ "/lgtm".toList ++ List.replicate n ' ' := by
    simp only [List.mem_append, List.mem_replicate, not_or]
    exact ⟨by decide, fun h => absurd h.2 (by decide)⟩
  rw [headLine_lines _ hnl]
  simp [isCommandLine, isSpace, perlSpace]

/-! ## Lemmas: events, sums and the lines of a table -/

theorem prBody_events {σ : Type} (k : KRepoStats σ) (rho : RangeOrder) (om : GoMap Bool)
    (pr : pullRequest) (s : State σ) :
    ∃ ev, (prBody k rho om pr s).state.events = s.events ++ ev := by
  unfold prBody
  simp only [ite_self]
  rcases k.GHC.ListReviews s.ghc "kubernetes" "kops" pr.Number with ⟨r, g₁⟩
  cases r with
  | error err => exact ⟨_, rfl⟩
  | ok reviews =>
    simp only
    rcases k.GHC.ListPullRequestComments g₁ "kubernetes" "kops" pr.Number with ⟨c, g₂⟩
    cases c with
    | error err => exact ⟨_, by simp only [Outcome.state, List.append_assoc]; rfl⟩
    | ok comments => exact ⟨_, by simp only [Outcome.state, List.append_assoc]; rfl⟩

theorem prLoop_events {σ : Type} (k : KRepoStats σ) (rho : RangeOrder) (om : GoMap Bool)
    (l : List pullRequest) (s : State σ) :
    ∃ ev, (prLoop k rho om l s).state.events = s.events ++ ev := by
  induction l generalizing s with
  | nil => exact ⟨[], by simp [prLoop, Outcome.state]⟩
  | cons pr rest ih =>
    obtain ⟨ev, hev⟩ := prBody_events k rho om pr s
    unfold prLoop
    cases hb : prBody k rho om pr s with
    | fatal s' =>
      rw [hb] at hev
      exact ⟨ev, hev⟩
    | returned s' =>
      rw [hb] at hev
      simp only [Outcome.state] at hev
      obtain ⟨ev', hev'⟩ := ih s'
      exact ⟨ev ++ ev', by simp only [hev', hev, List.append_assoc]⟩

/-- Once the search has succeeded, `Run` ends, and its events go on with
the line that reports the cost. -/
theorem RunWith_events_of_search {σ : Type} (k : KRepoStats σ) (rho : RangeOrder) (fuel : Nat)
    (g : σ) (owners : List String) (s₁ : State σ)
    (hsearch : searchLoop k fuel (State.init g) = some (.returned s₁)) :
    ∃ o ev, RunWith owners k rho fuel g = some o ∧
      o.state.events = s₁.events ++
        Event.Infof (LogLine.searchCost s₁.totalCost s₁.remaining) :: ev := by
  obtain ⟨ev, hev⟩ := prLoop_events k rho (ownersmap owners) s₁.ret
    { s₁ with events := s₁.events ++ [Event.Infof (LogLine.searchCost s₁.totalCost s₁.remaining)] }
  simp only [RunWith, hsearch]
  cases hb : prLoop k rho (ownersmap owners) s₁.ret
    { s₁ with events := s₁.events ++ [Event.Infof (LogLine.searchCost s₁.totalCost s₁.remaining)] } with
  | fatal s' =>
    rw [hb] at hev
    exact ⟨_, ev, rfl, by simp only [hev, List.append_assoc, List.singleton_append]⟩
  | returned s' =>
    rw [hb] at hev
    simp only [Outcome.state] at hev
    exact ⟨_, _, rfl, by simp only [Outcome.state, hev, List.append_assoc, List.singleton_append,
      List.cons_append]; rfl⟩

theorem keys_perm_of_mem (t : GoMap Int) (ks : List String) (hnd : ks.Nodup)
    (hmem : ∀ l, l ∈ t ↔ l ∈ ks) : t.keys.Perm ks :=
  (List.perm_ext_iff_of_nodup t.keys_nodup hnd).2 (fun l => AList.mem_keys.symm.trans (hmem l))

theorem sum_get_keys (t : GoMap Int) (xs : List String) (hmem : ∀ l, l ∈ t ↔ l ∈ xs)
    (hget : ∀ l, t.get 0 l = (xs.count l : Int)) :
    (t.keys.map (fun l => t.get 0 l)).sum = (xs.length : Int) := by
  have hp : t.keys.Perm xs.dedup :=
    keys_perm_of_mem t xs.dedup (List.nodup_dedup xs) (fun l => by rw [hmem, List.mem_dedup])
  rw [(hp.map _).sum_eq]
  have h := List.sum_map_count_dedup_eq_length xs
  have h2 : (xs.dedup.map (fun l => t.get 0 l)) = (xs.dedup.map (fun l => xs.count l)).map
      (fun n : Nat => (n : Int)) := by
    simp [hget]
  rw [h2, ← h]
  exact (Nat.cast_list_sum _).symm

theorem printTable_eq_of_sorted (rho : RangeOrder) (n : Nat) (hdr : String) (t : GoMap Int)
    (l : List String) (hp : l.Perm t.keys) (hs : l.Pairwise (fun a b => less t a b = true)) :
    printTable rho n hdr t =
      Event.Infof (LogLine.header hdr) ::
        l.map (fun k => Event.Infof (LogLine.row (t.get 0 k) k)) := by
  have : sortSlice (less t) (rho.keys n t) = l :=
    eq_of_perm_of_less t (((sortSlice_perm _ _).trans (rho.keys_perm n t)).trans hp.symm)
      (sortSlice_keys_pairwise rho n t) hs
  simp only [printTable, this]

/-! ## Lemmas: empty sets, owners, order of processing -/

theorem RangeOrder.keys_empty {V : Type} (rho : RangeOrder) (n : Nat) :
    rho.keys n (∅ : GoMap V) = [] :=
  List.Perm.eq_nil (rho.keys_perm n (∅ : GoMap V))

theorem incrKeys_empty (rho : RangeOrder) (n : Nat) (t : GoMap Int) :
    incrKeys rho n ∅ t = t := by
  simp [incrKeys, RangeOrder.keys_empty]

theorem signalSets_nil : signalSets [] [] = ⟨∅, ∅⟩ := rfl

theorem prBody_owners {σ : Type} (k : KRepoStats σ) (rho : RangeOrder) (om₁ om₂ : GoMap Bool)
    (pr : pullRequest) (s : State σ) : prBody k rho om₁ pr s = prBody k rho om₂ pr s := by
  simp only [prBody, ite_self]

theorem prLoop_owners {σ : Type} (k : KRepoStats σ) (rho : RangeOrder) (om₁ om₂ : GoMap Bool)
    (l : List pullRequest) (s : State σ) : prLoop k rho om₁ l s = prLoop k rho om₂ l s := by
  induction l generalizing s with
  | nil => rfl
  | cons pr rest ih =>
    simp only [prLoop, prBody_owners k rho om₁ om₂ pr s]
    cases prBody k rho om₂ pr s with
    | fatal s' => rfl
    | returned s' => exact ih s'

/-- Every value stored in the two maps of a pull request is `true`. -/
theorem reviewStep_values (s : Sets) (r : Review)
    (h : (∀ l b, s.reviewers.lookup l = some b → b = true) ∧
      ∀ l b, s.approvers.lookup l = some b → b = true) :
    (∀ l b, (reviewStep s r).reviewers.lookup l = some b → b = true) ∧
      ∀ l b, (reviewStep s r).approvers.lookup l = some b → b = true := by
  have key : ∀ (m : GoMap Bool) (u : String), (∀ l b, m.lookup l = some b → b = true) →
      ∀ l b, (m.set u true).lookup l = some b → b = true := by
    intro m u hm l b hb
    by_cases hl : l = u
    · subst hl
      simp only [GoMap.set, AList.lookup_insert, Option.some.injEq] at hb
      exact hb.symm
    · rw [GoMap.set, AList.lookup_insert_ne hl] at hb
      exact hm l b hb
  unfold reviewStep
  by_cases h1 : r.State = ReviewStateApproved <;>
    by_cases h2 : r.State = ReviewStateChangesRequested <;>
    simp only [h1, h2, if_true, if_false] <;>
    first
      | exact h
      | exact ⟨key _ _ h.1, h.2⟩
      | exact ⟨key _ _ h.1, key _ _ h.2⟩
      | exact ⟨key _ _ (key _ _ h.1), key _ _ h.2⟩

theorem commentStep_values (s : Sets) (c : ReviewComment)
    (h : (∀ l b, s.reviewers.lookup l = some b → b = true) ∧
      ∀ l b, s.approvers.lookup l = some b → b = true) :
    (∀ l b, (commentStep s c).reviewers.lookup l = some b → b = true) ∧
      ∀ l b, (commentStep s c).approvers.lookup l = some b → b = true := by
  have key : ∀ (m : GoMap Bool) (u : String), (∀ l b, m.lookup l = some b → b = true) →
      ∀ l b, (m.set u true).lookup l = some b → b = true := by
    intro m u hm l b hb
    by_cases hl : l = u
    · subst hl
      simp only [GoMap.set, AList.lookup_insert, Option.some.injEq] at hb
      exact hb.symm
    · rw [GoMap.set, AList.lookup_insert_ne hl] at hb
      exact hm l b hb
  unfold commentStep
  by_cases h1 : MatchString lgtmRegex c.Body = true <;>
    by_cases h2 : MatchString approveRegex c.Body = true <;>
    simp only [h1, h2, if_true, if_false] <;>
    first
      | exact h
      | exact ⟨key _ _ h.1, h.2⟩
      | exact ⟨h.1, key _ _ h.2⟩
      | exact ⟨key _ _ h.1, key _ _ h.2⟩

theorem foldl_reviewStep_values (rs : List Review) (s : Sets)
    (h : (∀ l b, s.reviewers.lookup l = some b → b = true) ∧
      ∀ l b, s.approvers.lookup l = some b → b = true) :
    (∀ l b, (rs.foldl reviewStep s).reviewers.lookup l = some b → b = true) ∧
      ∀ l b, (rs.foldl reviewStep s).approvers.lookup l = some b → b = true := by
  induction rs generalizing s with
  | nil => exact h
  | cons r rs ih => exact ih _ (reviewStep_values s r h)

theorem foldl_commentStep_values (cs : List ReviewComment) (s : Sets)
    (h : (∀ l b, s.reviewers.lookup l = some b → b = true) ∧
      ∀ l b, s.approvers.lookup l = some b → b = true) :
    (∀ l b, (cs.foldl commentStep s).reviewers.lookup l = some b → b = true) ∧
      ∀ l b, (cs.foldl commentStep s).approvers.lookup l = some b → b = true := by
  induction cs generalizing s with
  | nil => exact h
  | cons c cs ih => exact ih _ (commentStep_values s c h)

theorem empty_values :
    (∀ l b, (∅ : GoMap Bool).lookup l = some b → b = true) ∧
      ∀ l b, (∅ : GoMap Bool).lookup l = some b → b = true := by
  constructor <;> intro l b h <;> simp [AList.lookup_empty] at h

theorem signalSets_values (reviews : List Review) (comments : List ReviewComment) :
    (∀ l b, (signalSets reviews comments).reviewers.lookup l = some b → b = true) ∧
      ∀ l b, (signalSets reviews comments).approvers.lookup l = some b → b = true :=
  foldl_commentStep_values comments _ (foldl_reviewStep_values reviews _ empty_values)

theorem signalSetsCommentsFirst_values (reviews : List Review) (comments : List ReviewComment) :
    (∀ l b, (signalSetsCommentsFirst reviews comments).reviewers.lookup l = some b → b = true) ∧
      ∀ l b, (signalSetsCommentsFirst reviews comments).approvers.lookup l = some b → b = true :=
  foldl_reviewStep_values reviews _ (foldl_commentStep_values comments _ empty_values)

theorem signalSetsCommentsFirst_approvers (reviews : List Review)
    (comments : List ReviewComment) (l : String) :
    l ∈ (signalSetsCommentsFirst reviews comments).approvers ↔
      l ∈ (signalSets reviews comments).approvers := by
  unfold signalSetsCommentsFirst
  rw [foldl_reviewStep_approvers, foldl_commentStep_approvers, signalSets_approvers]
  simp only [AList.not_mem_empty, false_or]
  exact or_comm

theorem signalSetsCommentsFirst_reviewers (reviews : List Review)
    (comments : List ReviewComment) (l : String) :
    l ∈ (signalSetsCommentsFirst reviews comments).reviewers ↔
      l ∈ (signalSets reviews comments).reviewers := by
  unfold signalSetsCommentsFirst
  rw [foldl_reviewStep_reviewers, foldl_commentStep_reviewers, signalSets_reviewers]
  simp only [AList.not_mem_empty, false_or]
  exact or_comm

/-- Two maps of a pull request with the same keys are the same map: their
entries differ by the order at most. -/
theorem entries_perm_of_mem (a b : GoMap Bool)
    (ha : ∀ l v, a.lookup l = some v → v = true) (hb : ∀ l v, b.lookup l = some v → v = true)
    (hmem : ∀ l, l ∈ a ↔ l ∈ b) : a.entries.Perm b.entries := by
  apply List.lookup_ext a.nodupKeys b.nodupKeys
  intro x y
  have hx : ∀ (m : GoMap Bool), (∀ l v, m.lookup l = some v → v = true) →
      (y ∈ List.dlookup x m.entries ↔ (x ∈ m ∧ y = true)) := by
    intro m hm
    constructor
    · intro h
      have h' : m.lookup x = some y := h
      exact ⟨AList.lookup_isSome.1 (by rw [h']; rfl), hm x y h'⟩
    · rintro ⟨hxm, rfl⟩
      obtain ⟨v, hv⟩ := Option.isSome_iff_exists.1 (AList.lookup_isSome.2 hxm)
      have : v = true := hm x v hv
      subst this
      exact hv
  rw [hx a ha, hx b hb, hmem]

theorem GoMap.get_eq_of_entries_perm {V : Type} (a b : GoMap V) (zero : V)
    (h : a.entries.Perm b.entries) (l : String) : a.get zero l = b.get zero l := by
  simp only [GoMap.get, AList.perm_lookup h]

theorem signalSets_approvers_perm {reviews reviews' : List Review}
    {comments comments' : List ReviewComment} (hr : reviews'.Perm reviews)
    (hc : comments'.Perm comments) (l : String) :
    l ∈ (signalSets reviews' comments').approvers ↔ l ∈ (signalSets reviews comments).approvers := by
  rw [signalSets_approvers, signalSets_approvers]
  constructor
  · rintro (⟨r, h, p⟩ | ⟨c, h, p⟩)
    · exact Or.inl ⟨r, hr.mem_iff.1 h, p⟩
    · exact Or.inr ⟨c, hc.mem_iff.1 h, p⟩
  · rintro (⟨r, h, p⟩ | ⟨c, h, p⟩)
    · exact Or.inl ⟨r, hr.mem_iff.2 h, p⟩
    · exact Or.inr ⟨c, hc.mem_iff.2 h, p⟩

theorem signalSets_reviewers_perm {reviews reviews' : List Review}
    {comments comments' : List ReviewComment} (hr : reviews'.Perm reviews)
    (hc : comments'.Perm comments) (l : String) :
    l ∈ (signalSets reviews' comments').reviewers ↔ l ∈ (signalSets reviews comments).reviewers := by
  rw [signalSets_reviewers, signalSets_reviewers]
  constructor
  · rintro (⟨r, h, p⟩ | ⟨c, h, p⟩)
    · exact Or.inl ⟨r, hr.mem_iff.1 h, p⟩
    · exact Or.inr ⟨c, hc.mem_iff.1 h, p⟩
  · rintro (⟨r, h, p⟩ | ⟨c, h, p⟩)
    · exact Or.inl ⟨r, hr.mem_iff.2 h, p⟩
    · exact Or.inr ⟨c, hc.mem_iff.2 h, p⟩

/-! ## Lemmas: the entries of a table -/

theorem GoMap.get_of_mem_entries {V : Type} (t : GoMap V) (zero : V) (e : Sigma fun _ : String => V)
    (h : e ∈ t.entries) : t.get zero e.1 = e.2 := by
  have : t.lookup e.1 = some e.2 := AList.mem_lookup_iff.2 (by simpa using h)
  simp [GoMap.get, this]

theorem keys_map_get (t : GoMap Int) :
    t.keys.map (fun k => (k, t.get 0 k)) = t.entries.map (fun e => (e.1, e.2)) := by
  simp only [AList.keys, List.keys, List.map_map]
  apply List.map_congr_left
  intro e he
  simp [GoMap.get_of_mem_entries t 0 e he]

/-! ## Lemmas: the client that keeps a record -/

theorem searchLoop_logged {σ : Type} (k : KRepoStats σ) (fuel : Nat) (s : State (σ × List Bool)) :
    (searchLoop (logged k) fuel s).map (Outcome.mapGhc Prod.fst)
      = searchLoop k fuel (s.mapGhc Prod.fst) := by
  induction fuel generalizing s with
  | zero => rfl
  | succ fuel ih =>
    simp only [searchLoop, logged, State.mapGhc]
    rcases k.GHC.Query s.ghc.1 query s.searchCursor with ⟨r, g⟩
    cases r with
    | error err => rfl
    | ok sq =>
      simp only
      by_cases hn : sq.Search.PageInfo.HasNextPage = true
      · simp only [hn, Bool.not_true, Bool.false_eq_true, if_false]
        exact ih _
      · simp only [hn, Bool.not_false, if_true]
        rfl

theorem prBody_logged {σ : Type} (k : KRepoStats σ) (rho : RangeOrder) (om : GoMap Bool)
    (pr : pullRequest) (s : State (σ × List Bool)) :
    (prBody (logged k) rho om pr s).mapGhc Prod.fst
      = prBody k rho om pr (s.mapGhc Prod.fst) := by
  simp only [prBody, logged, State.mapGhc, ite_self]
  rcases k.GHC.ListReviews s.ghc.1 "kubernetes" "kops" pr.Number with ⟨r, g₁⟩
  cases r with
  | error err => rfl
  | ok reviews =>
    simp only
    rcases k.GHC.ListPullRequestComments g₁ "kubernetes" "kops" pr.Number with ⟨c, g₂⟩
    cases c with
    | error err => rfl
    | ok comments => rfl

theorem prLoop_logged {σ : Type} (k : KRepoStats σ) (rho : RangeOrder) (om : GoMap Bool)
    (l : List pullRequest) (s : State (σ × List Bool)) :
    (prLoop (logged k) rho om l s).mapGhc Prod.fst
      = prLoop k rho om l (s.mapGhc Prod.fst) := by
  induction l generalizing s with
  | nil => rfl
  | cons pr rest ih =>
    simp only [prLoop]
    rw [← prBody_logged]
    cases prBody (logged k) rho om pr s with
    | fatal s' => rfl
    | returned s' => exact ih s'

theorem RunWith_logged {σ : Type} (owners : List String) (k : KRepoStats σ) (rho : RangeOrder)
    (fuel : Nat) (g : σ) (log : List Bool) :
    (RunWith owners (logged k) rho fuel (g, log)).map (Outcome.mapGhc Prod.fst)
      = RunWith owners k rho fuel g := by
  have hs := searchLoop_logged k fuel (State.init (g, log))
  have hi : (State.init (g, log)).mapGhc Prod.fst = State.init g := rfl
  rw [hi] at hs
  simp only [RunWith, ← hs]
  cases searchLoop (logged k) fuel (State.init (g, log)) with
  | none => rfl
  | some o =>
    cases o with
    | fatal s => rfl
    | returned s =>
      simp only [Option.map_some', Outcome.mapGhc]
      have hl := prLoop_logged k rho (ownersmap owners) s.ret
        { s with events := s.events ++ [Event.Infof (LogLine.searchCost s.totalCost s.remaining)] }
      simp only [State.mapGhc] at hl ⊢
      rw [← hl]
      cases prLoop (logged k) rho (ownersmap owners) s.ret
        { s with events := s.events ++ [Event.Infof (LogLine.searchCost s.totalCost s.remaining)] }
        with
      | fatal s' => rfl
      | returned s' => rfl

theorem Outcome.continues_trans {σ : Type} (o : Outcome (σ × List Bool)) (log : List Bool)
    (evs : List Event) (s₁ : State (σ × List Bool))
    (h₁ : (Outcome.returned s₁).continues log evs) (h₂ : o.continues s₁.ghc.2 s₁.events) :
    o.continues log evs := by
  obtain ⟨ev₁, hl₁, he₁, hq₁⟩ := h₁
  cases o with
  | returned s =>
    obtain ⟨ev₂, hl₂, he₂, hq₂⟩ := h₂
    refine ⟨ev₁ ++ ev₂, ?_, ?_, ?_⟩
    · rw [hl₂, hl₁, List.countP_append, List.replicate_add, List.append_assoc]
    · rw [he₂, he₁, List.append_assoc]
    · intro e he
      rcases List.mem_append.1 he with h | h
      · exact hq₁ e h
      · exact hq₂ e h
  | fatal s =>
    obtain ⟨ev₂, c, line, hl₂, he₂, hq₂, hc⟩ := h₂
    refine ⟨ev₁ ++ ev₂, c, line, ?_, ?_, ?_, hc⟩
    · simp only [hl₂, hl₁, List.countP_append, List.replicate_add, List.append_assoc]
    · simp only [he₂, he₁, List.append_assoc]
    · intro e he
      rcases List.mem_append.1 he with h | h
      · exact hq₁ e h
      · exact hq₂ e h

theorem searchLoop_continues {σ : Type} (k : KRepoStats σ) (fuel : Nat)
    (s : State (σ × List Bool)) (o : Outcome (σ × List Bool))
    (h : searchLoop (logged k) fuel s = some o) : o.continues s.ghc.2 s.events := by
  induction fuel generalizing s with
  | zero => simp [searchLoop] at h
  | succ fuel ih =>
    simp only [searchLoop, logged] at h
    rcases hq : k.GHC.Query s.ghc.1 query s.searchCursor with ⟨r, g⟩
    rw [hq] at h
    cases r with
    | error err =>
      simp only [Option.some.injEq] at h
      subst h
      exact ⟨[], Event.Query query s.searchCursor, LogLine.queryFailed err,
        by simp [succeeded], by simp, by simp, rfl⟩
    | ok sq =>
      simp only at h
      by_cases hn : sq.Search.PageInfo.HasNextPage = true
      · simp only [hn, Bool.not_true, Bool.false_eq_true, if_false] at h
        refine Outcome.continues_trans o _ _ _ ?_ (ih _ h)
        exact ⟨[Event.Query query s.searchCursor], by simp [succeeded, Event.isCall], rfl,
          by simp [Event.isQuiet]⟩
      · simp only [hn, Bool.not_false, if_true, Option.some.injEq] at h
        subst h
        exact ⟨[Event.Query query s.searchCursor], by simp [succeeded, Event.isCall], rfl,
          by simp [Event.isQuiet]⟩

theorem prBody_continues {σ : Type} (k : KRepoStats σ) (rho : RangeOrder) (om : GoMap Bool)
    (pr : pullRequest) (s : State (σ × List Bool)) :
    (prBody (logged k) rho om pr s).continues s.ghc.2 s.events := by
  simp only [prBody, logged, ite_self]
  rcases k.GHC.ListReviews s.ghc.1 "kubernetes" "kops" pr.Number with ⟨r, g₁⟩
  cases r with
  | error err =>
    exact ⟨[], Event.ListReviews "kubernetes" "kops" pr.Number,
      LogLine.listReviewsFailed pr.Number err, by simp [succeeded], by simp, by simp, rfl⟩
  | ok reviews =>
    simp only
    rcases k.GHC.ListPullRequestComments g₁ "kubernetes" "kops" pr.Number with ⟨c, g₂⟩
    cases c with
    | error err =>
      exact ⟨[Event.ListReviews "kubernetes" "kops" pr.Number],
        Event.ListPullRequestComments "kubernetes" "kops" pr.Number,
        LogLine.listCommentsFailed pr.Number err,
        by simp [succeeded, Event.isCall], by simp, by simp [Event.isQuiet], rfl⟩
    | ok comments =>
      exact ⟨[Event.ListReviews "kubernetes" "kops" pr.Number,
          Event.ListPullRequestComments "kubernetes" "kops" pr.Number,
          Event.Infof (LogLine.pr pr.Number pr.Author.Login
            (joinkeys rho s.ranges (signalSets reviews comments).approvers)
            (joinkeys rho (s.ranges + 1) (signalSets reviews comments).reviewers))],
        by simp [succeeded, Event.isCall, List.countP_cons], by simp,
        by simp [Event.isQuiet]⟩

theorem prLoop_continues {σ : Type} (k : KRepoStats σ) (rho : RangeOrder) (om : GoMap Bool)
    (l : List pullRequest) (s : State (σ × List Bool)) :
    (prLoop (logged k) rho om l s).continues s.ghc.2 s.events := by
  induction l generalizing s with
  | nil => exact ⟨[], by simp, by simp, by simp⟩
  | cons pr rest ih =>
    have hb := prBody_continues k rho om pr s
    simp only [prLoop]
    cases hp : prBody (logged k) rho om pr s with
    | fatal s' =>
      rw [hp] at hb
      exact hb
    | returned s' =>
      rw [hp] at hb
      exact Outcome.continues_trans _ _ _ s' hb (ih s')

theorem Event.not_tableLine_of_quiet (e : Event) (h : e.isQuiet = true) :
    e.isTableLine = false := by
  cases e with
  | Infof line => cases line <;> simp_all [Event.isQuiet, Event.isTableLine]
  | _ => rfl

theorem Event.not_tableLine_of_call (e : Event) (h : e.isCall = true) :
    e.isTableLine = false := by
  cases e <;> simp_all [Event.isCall, Event.isTableLine]

theorem Event.not_fatalf_of_quiet (e : Event) (h : e.isQuiet = true) :
    e.isFatalf = false := by
  cases e <;> simp_all [Event.isQuiet, Event.isFatalf]

/-- The whole of `Run` on a client that keeps a record. -/
theorem RunWith_continues {σ : Type} (owners : List String) (k : KRepoStats σ)
    (rho : RangeOrder) (fuel : Nat) (g : σ) :
    (∀ s, RunWith owners (logged k) rho fuel (g, []) = some (.fatal s) →
      (Outcome.fatal s).continues [] []) ∧
    (∀ s, RunWith owners (logged k) rho fuel (g, []) = some (.returned s) →
      ∃ s₂ : State (σ × List Bool), (Outcome.returned s₂).continues [] [] ∧
        s.ghc = s₂.ghc ∧ s.numAuthors = s₂.numAuthors ∧ s.numApprovals = s₂.numApprovals ∧
        s.numReviews = s₂.numReviews ∧
        s.events = s₂.events ++ (printTable rho s₂.ranges "authors" s₂.numAuthors ++
          printTable rho (s₂.ranges + 1) "approvers" s₂.numApprovals ++
          printTable rho (s₂.ranges + 2) "reviewers" s₂.numReviews)) := by
  unfold RunWith
  cases hs : searchLoop (logged k) fuel (State.init (g, [])) with
  | none => simp
  | some o =>
    have hc := searchLoop_continues k fuel _ o hs
    simp only [State.init] at hc
    cases o with
    | fatal s₁ =>
      refine ⟨?_, by simp⟩
      intro s h
      simp only [Option.some.injEq, Outcome.fatal.injEq] at h
      subst h
      exact hc
    | returned s₁ =>
      have hc₁ : (Outcome.returned { s₁ with events := s₁.events ++
          [Event.Infof (LogLine.searchCost s₁.totalCost s₁.remaining)] }).continues [] [] := by
        obtain ⟨ev, hl, he, hq⟩ := hc
        refine ⟨ev ++ [Event.Infof (LogLine.searchCost s₁.totalCost s₁.remaining)], ?_, ?_, ?_⟩
        · simp [hl, List.countP_append, Event.isCall]
        · simp [he]
        · intro e h
          rcases List.mem_append.1 h with h | h
          · exact hq e h
          · rw [List.mem_singleton] at h
            subst h
            rfl
      have hp := prLoop_continues k rho (ownersmap owners) s₁.ret
        { s₁ with events := s₁.events ++
          [Event.Infof (LogLine.searchCost s₁.totalCost s₁.remaining)] }
      have hc₂ := Outcome.continues_trans _ [] [] _ hc₁ hp
      simp only
      cases hl : prLoop (logged k) rho (ownersmap owners) s₁.ret
        { s₁ with events := s₁.events ++
          [Event.Infof (LogLine.searchCost s₁.totalCost s₁.remaining)] } with
      | fatal s₂ =>
        rw [hl] at hc₂
        refine ⟨?_, by simp⟩
        intro s h
        simp only [Option.some.injEq, Outcome.fatal.injEq] at h
        subst h
        exact hc₂
      | returned s₂ =>
        rw [hl] at hc₂
        refine ⟨by simp, ?_⟩
        intro s h
        simp only [Option.some.injEq, Outcome.returned.injEq] at h
        subst h
        exact ⟨s₂, hc₂, rfl, rfl, rfl, rfl, by simp only [List.append_assoc]⟩

/-! ## Lemmas: the search loop on any client -/

theorem servesPages_prefix {σ : Type} (c : Client σ) (g : σ) (cur : Option String)
    (a b : List searchQuery) (h : servesPages c g cur (a ++ b)) : servesPages c g cur a := by
  induction a generalizing g cur with
  | nil => trivial
  | cons p ps ih =>
    obtain ⟨h₁, h₂⟩ := h
    exact ⟨h₁, ih _ _ h₂⟩

theorem searchLoop_mono {σ : Type} (k : KRepoStats σ) (fuel fuel' : Nat) (s : State σ)
    (o : Outcome σ) (hle : fuel ≤ fuel') (h : searchLoop k fuel s = some o) :
    searchLoop k fuel' s = some o := by
  induction fuel generalizing s fuel' with
  | zero => simp [searchLoop] at h
  | succ fuel ih =>
    obtain ⟨f, rfl⟩ : ∃ f, fuel' = f + 1 := ⟨fuel' - 1, by omega⟩
    unfold searchLoop at h ⊢
    rcases hq : k.GHC.Query s.ghc query s.searchCursor with ⟨r, g⟩
    rw [hq] at h
    cases r with
    | error err => exact h
    | ok sq =>
      simp only at h ⊢
      by_cases hn : sq.Search.PageInfo.HasNextPage = true
      · simp only [hn, Bool.not_true, Bool.false_eq_true, if_false] at h ⊢
        exact ih f _ (by omega) h
      · simp only [hn, Bool.not_false, if_true] at h ⊢
        exact h

/-- What the search loop has done when it ends, on any client: it has been
served some pages, one per request, and either it has returned after the
last of them, or the request after them has failed. -/
theorem searchLoop_trace {σ : Type} (k : KRepoStats σ) (fuel : Nat) (s : State σ)
    (o : Outcome σ) (h : searchLoop k fuel s = some o) :
    ∃ pages, servesPages k.GHC s.ghc s.searchCursor pages ∧
      ((pages ≠ [] ∧ ∃ s', o = .returned s' ∧
          s'.events = s.events ++ queryEvents s.searchCursor pages) ∨
        (∃ s' err, o = .fatal s' ∧
          s'.events = s.events ++ queryEvents s.searchCursor pages ++
            [Event.Query query (cursorAfter s.searchCursor pages),
             Event.Fatalf (LogLine.queryFailed err)])) := by
  induction fuel generalizing s with
  | zero => simp [searchLoop] at h
  | succ fuel ih =>
    unfold searchLoop at h
    rcases hq : k.GHC.Query s.ghc query s.searchCursor with ⟨r, g⟩
    rw [hq] at h
    cases r with
    | error err =>
      simp only [Option.some.injEq] at h
      subst h
      exact ⟨[], trivial, Or.inr ⟨_, err, rfl, by simp [queryEvents, cursorAfter]⟩⟩
    | ok sq =>
      simp only at h
      by_cases hn : sq.Search.PageInfo.HasNextPage = true
      · simp only [hn, Bool.not_true, Bool.false_eq_true, if_false] at h
        obtain ⟨pages, hserve, hcase⟩ := ih _ h
        refine ⟨sq :: pages, ⟨by rw [hq], by rw [hq]; exact hserve⟩, ?_⟩
        rcases hcase with ⟨_, s', ho, hev⟩ | ⟨s', err, ho, hev⟩
        · exact Or.inl ⟨by simp, s', ho, by simp [hev, queryEvents]⟩
        · exact Or.inr ⟨s', err, ho, by simp [hev, queryEvents, cursorAfter]⟩
      · simp only [hn, Bool.not_false, if_true, Option.some.injEq] at h
        subst h
        exact ⟨[sq], ⟨by rw [hq], trivial⟩, Or.inl ⟨by simp, _, rfl, by simp [queryEvents]⟩⟩

/-- The page requests, by their cursors: the first cursor, then the end
cursors of the pages, one request per page. -/
theorem queryEvents_eq_take (cur : Option String) (pages : List searchQuery) :
    queryEvents cur pages =
      ((cur :: pages.map (fun p => some p.Search.PageInfo.EndCursor)).take pages.length).map
        (fun c => Event.Query query c) := by
  induction pages generalizing cur with
  | nil => rfl
  | cons p ps ih =>
    simp only [queryEvents, List.map_cons, List.length_cons, List.take_succ_cons, ih]

theorem queryEvents_append_next (cur : Option String) (pages : List searchQuery) :
    queryEvents cur pages ++ [Event.Query query (cursorAfter cur pages)] =
      ((cur :: pages.map (fun p => some p.Search.PageInfo.EndCursor)).take
        (pages.length + 1)).map (fun c => Event.Query query c) := by
  induction pages generalizing cur with
  | nil => rfl
  | cons p ps ih =>
    have := ih (some p.Search.PageInfo.EndCursor)
    simp only [queryEvents, cursorAfter, List.map_cons, List.length_cons, List.take_succ_cons,
      List.cons_append] at this ⊢
    rw [this]

theorem queryEvents_filter (cur : Option String) (pages : List searchQuery) :
    (queryEvents cur pages).filter Event.isQuery = queryEvents cur pages := by
  induction pages generalizing cur with
  | nil => rfl
  | cons p ps ih => simp [queryEvents, Event.isQuery, ih]

theorem prBody_no_query {σ : Type} (k : KRepoStats σ) (rho : RangeOrder) (om : GoMap Bool)
    (pr : pullRequest) (s : State σ) :
    ∃ ev, (prBody k rho om pr s).state.events = s.events ++ ev ∧
      ev.filter Event.isQuery = [] := by
  unfold prBody
  simp only [ite_self]
  rcases k.GHC.ListReviews s.ghc "kubernetes" "kops" pr.Number with ⟨r, g₁⟩
  cases r with
  | error err => exact ⟨_, rfl, rfl⟩
  | ok reviews =>
    simp only
    rcases k.GHC.ListPullRequestComments g₁ "kubernetes" "kops" pr.Number with ⟨c, g₂⟩
    cases c with
    | error err =>
      exact ⟨[Event.ListReviews "kubernetes" "kops" pr.Number,
        Event.ListPullRequestComments "kubernetes" "kops" pr.Number,
        Event.Fatalf (LogLine.listCommentsFailed pr.Number err)],
        by simp [Outcome.state], rfl⟩
    | ok comments =>
      exact ⟨[Event.ListReviews "kubernetes" "kops" pr.Number,
        Event.ListPullRequestComments "kubernetes" "kops" pr.Number,
        Event.Infof (LogLine.pr pr.Number pr.Author.Login
          (joinkeys rho s.ranges (signalSets reviews comments).approvers)
          (joinkeys rho (s.ranges + 1) (signalSets reviews comments).reviewers))],
        by simp [Outcome.state], rfl⟩

theorem prLoop_no_query {σ : Type} (k : KRepoStats σ) (rho : RangeOrder) (om : GoMap Bool)
    (l : List pullRequest) (s : State σ) :
    ∃ ev, (prLoop k rho om l s).state.events = s.events ++ ev ∧
      ev.filter Event.isQuery = [] := by
  induction l generalizing s with
  | nil => exact ⟨[], by simp [prLoop, Outcome.state], rfl⟩
  | cons pr rest ih =>
    obtain ⟨ev, hev, hq⟩ := prBody_no_query k rho om pr s
    unfold prLoop
    cases hb : prBody k rho om pr s with
    | fatal s' =>
      rw [hb] at hev
      exact ⟨ev, hev, hq⟩
    | returned s' =>
      rw [hb] at hev
      simp only [Outcome.state] at hev
      obtain ⟨ev', hev', hq'⟩ := ih s'
      exact ⟨ev ++ ev', by simp only [hev', hev, List.append_assoc],
        by rw [List.filter_append, hq, hq']; rfl⟩

theorem printTable_no_query (rho : RangeOrder) (n : Nat) (hdr : String) (t : GoMap Int) :
    (printTable rho n hdr t).filter Event.isQuery = [] := by
  simp [printTable, List.filter_eq_nil_iff, Event.isQuery]

/-- When the fuel runs out, the search loop has been served as many pages
as it had fuel, each with a next page. -/
theorem searchLoop_none {σ : Type} (k : KRepoStats σ) (fuel : Nat) (s : State σ)
    (h : searchLoop k fuel s = none) :
    ∃ pages, pages.length = fuel ∧ servesPages k.GHC s.ghc s.searchCursor pages ∧
      ∀ p ∈ pages, p.Search.PageInfo.HasNextPage = true := by
  induction fuel generalizing s with
  | zero => exact ⟨[], rfl, trivial, by simp⟩
  | succ fuel ih =>
    unfold searchLoop at h
    rcases hq : k.GHC.Query s.ghc query s.searchCursor with ⟨r, g⟩
    rw [hq] at h
    cases r with
    | error err => simp at h
    | ok sq =>
      simp only at h
      by_cases hn : sq.Search.PageInfo.HasNextPage = true
      · simp only [hn, Bool.not_true, Bool.false_eq_true, if_false] at h
        obtain ⟨pages, hlen, hserve, hmore⟩ := ih _ h
        refine ⟨sq :: pages, by simp [hlen], ⟨by rw [hq], by rw [hq]; exact hserve⟩, ?_⟩
        intro p hp
        rcases List.mem_cons.1 hp with rfl | hp
        · exact hn
        · exact hmore p hp
      · simp [hn] at h

/-! ## Lemmas: counts never go down -/

theorem incr_get_cases (t : GoMap Int) (a l : String) :
    (t.incr a).get 0 l = t.get 0 l ∨ (t.incr a).get 0 l = wrapInt (t.get 0 l + 1) := by
  by_cases h : l = a
  · subst h
    exact Or.inr (GoMap.get_incr_self t l)
  · exact Or.inl (GoMap.get_incr_ne t a l h)

theorem incrKeys_get_cases (rho : RangeOrder) (n : Nat) (m : GoMap Bool) (t : GoMap Int)
    (l : String) :
    (incrKeys rho n m t).get 0 l = t.get 0 l ∨
      (incrKeys rho n m t).get 0 l = wrapInt (t.get 0 l + 1) := by
  rw [incrKeys_get]
  by_cases h : l ∈ m
  · exact Or.inr (if_pos h)
  · exact Or.inl (if_neg h)

/-- One turn of the loop over the pull requests, however it ends, leaves
each count as it is or adds one to it, and leaves `ret` alone. -/
theorem prBody_step {σ : Type} (k : KRepoStats σ) (rho : RangeOrder) (om : GoMap Bool)
    (pr : pullRequest) (s : State σ) :
    (prBody k rho om pr s).state.ret = s.ret ∧
    ∀ l : String,
      ((prBody k rho om pr s).state.numAuthors.get 0 l = s.numAuthors.get 0 l ∨
        (prBody k rho om pr s).state.numAuthors.get 0 l = wrapInt (s.numAuthors.get 0 l + 1)) ∧
      ((prBody k rho om pr s).state.numApprovals.get 0 l = s.numApprovals.get 0 l ∨
        (prBody k rho om pr s).state.numApprovals.get 0 l
          = wrapInt (s.numApprovals.get 0 l + 1)) ∧
      ((prBody k rho om pr s).state.numReviews.get 0 l = s.numReviews.get 0 l ∨
        (prBody k rho om pr s).state.numReviews.get 0 l
          = wrapInt (s.numReviews.get 0 l + 1)) := by
  unfold prBody
  simp only [ite_self]
  rcases k.GHC.ListReviews s.ghc "kubernetes" "kops" pr.Number with ⟨r, g₁⟩
  cases r with
  | error err =>
    exact ⟨rfl, fun l => ⟨incr_get_cases _ _ l, Or.inl rfl, Or.inl rfl⟩⟩
  | ok reviews =>
    simp only
    rcases k.GHC.ListPullRequestComments g₁ "kubernetes" "kops" pr.Number with ⟨c, g₂⟩
    cases c with
    | error err =>
      exact ⟨rfl, fun l => ⟨incr_get_cases _ _ l, Or.inl rfl, Or.inl rfl⟩⟩
    | ok comments =>
      exact ⟨rfl, fun l => ⟨incr_get_cases _ _ l, incrKeys_get_cases _ _ _ _ l,
        incrKeys_get_cases _ _ _ _ l⟩⟩

theorem step_within (old new : Int) (n : Nat) (hn : n + 1 < 2 ^ 63)
    (hold : 0 ≤ old ∧ old ≤ n) (h : new = old ∨ new = wrapInt (old + 1)) :
    0 ≤ new ∧ new ≤ ((n + 1 : Nat) : Int) := by
  have hn' : ((n + 1 : Nat) : Int) < 2 ^ 63 := by exact_mod_cast hn
  push_cast at hn' ⊢
  rcases h with h | h
  · subst h
    omega
  · rw [wrapInt_of_range (old + 1) (by norm_num; omega) (by omega)] at h
    subst h
    omega

theorem State.countsWithin_mono {σ : Type} (s : State σ) (n m : Nat) (hnm : n ≤ m)
    (h : s.countsWithin n) : s.countsWithin m := by
  intro l
  have hc : (n : Int) ≤ (m : Int) := by exact_mod_cast hnm
  obtain ⟨⟨a1, a2⟩, ⟨b1, b2⟩, ⟨c1, c2⟩⟩ := h l
  exact ⟨⟨a1, le_trans a2 hc⟩, ⟨b1, le_trans b2 hc⟩, ⟨c1, le_trans c2 hc⟩⟩

theorem prBody_within {σ : Type} (k : KRepoStats σ) (rho : RangeOrder) (om : GoMap Bool)
    (pr : pullRequest) (s : State σ) (n : Nat) (hn : n + 1 < 2 ^ 63)
    (h : s.countsWithin n) : (prBody k rho om pr s).state.countsWithin (n + 1) := by
  intro l
  obtain ⟨ha, hp, hr⟩ := (prBody_step k rho om pr s).2 l
  obtain ⟨ia, ip, ir⟩ := h l
  exact ⟨step_within _ _ n hn ia ha, step_within _ _ n hn ip hp, step_within _ _ n hn ir hr⟩

theorem prLoop_within {σ : Type} (k : KRepoStats σ) (rho : RangeOrder) (om : GoMap Bool)
    (prs : List pullRequest) (s : State σ) (n : Nat) (hn : n + prs.length < 2 ^ 63)
    (h : s.countsWithin n) :
    (prLoop k rho om prs s).state.countsWithin (n + prs.length) ∧
      (prLoop k rho om prs s).state.ret = s.ret := by
  induction prs generalizing s n with
  | nil => exact ⟨h, rfl⟩
  | cons pr rest ih =>
    simp only [List.length_cons] at hn ⊢
    have hb := prBody_within k rho om pr s n (by omega) h
    have hret := (prBody_step k rho om pr s).1
    unfold prLoop
    cases hp : prBody k rho om pr s with
    | fatal s' =>
      rw [hp] at hb hret
      exact ⟨State.countsWithin_mono _ _ _ (by omega) hb, hret⟩
    | returned s' =>
      rw [hp] at hb hret
      simp only [Outcome.state] at hb hret
      obtain ⟨h1, h2⟩ := ih s' (n + 1) (by omega) hb
      refine ⟨?_, h2.trans hret⟩
      have : n + 1 + rest.length = n + (rest.length + 1) := by omega
      rw [← this]
      exact h1

theorem State.init_within {σ : Type} (s : State σ) (ha : s.numAuthors = ∅)
    (hp : s.numApprovals = ∅) (hr : s.numReviews = ∅) : s.countsWithin 0 := by
  intro l
  simp [ha, hp, hr, GoMap.get_empty]

theorem prLoop_ret {σ : Type} (k : KRepoStats σ) (rho : RangeOrder) (om : GoMap Bool)
    (prs : List pullRequest) (s : State σ) : (prLoop k rho om prs s).state.ret = s.ret := by
  induction prs generalizing s with
  | nil => rfl
  | cons pr rest ih =>
    have hret := (prBody_step k rho om pr s).1
    unfold prLoop
    cases hp : prBody k rho om pr s with
    | fatal s' =>
      rw [hp] at hret
      exact hret
    | returned s' =>
      rw [hp] at hret
      exact (ih s').trans hret

/-! ## Lemmas: a call that fails -/

theorem Event.not_tableLine_of_prStep (e : Event) (h : e.isPRStep = true) :
    e.isTableLine = false := by
  cases e with
  | Infof line => cases line <;> simp_all [Event.isPRStep, Event.isTableLine]
  | _ => rfl

theorem queryEvents_not_tableLine (cur : Option String) (pages : List searchQuery) :
    ∀ e ∈ queryEvents cur pages, e.isTableLine = false := by
  induction pages generalizing cur with
  | nil => simp [queryEvents]
  | cons p ps ih =>
    intro e he
    simp only [queryEvents, List.mem_cons] at he
    rcases he with rfl | he
    · rfl
    · exact ih _ e he

/-- The search loop on a client that serves `pages`, each with a next page,
and fails on the request after them. -/
theorem searchLoop_fails {σ : Type} (k : KRepoStats σ) (pages : List searchQuery) (err : String)
    (fuel : Nat) (s : State σ)
    (hserve : servesPages k.GHC s.ghc s.searchCursor pages)
    (hmore : ∀ p ∈ pages, p.Search.PageInfo.HasNextPage = true)
    (hfail : (k.GHC.Query (afterPages k.GHC s.ghc s.searchCursor pages) query
      (cursorAfter s.searchCursor pages)).1 = .error err)
    (hfuel : pages.length + 1 ≤ fuel) :
    ∃ s', searchLoop k fuel s = some (.fatal s') ∧
      s'.events = s.events ++ queryEvents s.searchCursor pages ++
        [Event.Query query (cursorAfter s.searchCursor pages),
         Event.Fatalf (LogLine.queryFailed err)] ∧
      s'.ghc = (k.GHC.Query (afterPages k.GHC s.ghc s.searchCursor pages) query
        (cursorAfter s.searchCursor pages)).2 := by
  induction pages generalizing fuel s with
  | nil =>
    obtain ⟨fuel, rfl⟩ : ∃ f, fuel = f + 1 := ⟨fuel - 1, by simp at hfuel; omega⟩
    simp only [afterPages, cursorAfter] at hfail ⊢
    unfold searchLoop
    rcases hq : k.GHC.Query s.ghc query s.searchCursor with ⟨r, g⟩
    rw [hq] at hfail
    simp only at hfail
    subst hfail
    exact ⟨_, rfl, by simp [queryEvents], rfl⟩
  | cons p ps ih =>
    obtain ⟨fuel, rfl⟩ : ∃ f, fuel = f + 1 := ⟨fuel - 1, by simp at hfuel; omega⟩
    obtain ⟨hr, hrest⟩ := hserve
    simp only [afterPages, cursorAfter] at hfail ⊢
    unfold searchLoop
    rcases hq : k.GHC.Query s.ghc query s.searchCursor with ⟨r, g⟩
    rw [hq] at hr hrest hfail
    simp only at hr hrest hfail
    subst hr
    have hp : p.Search.PageInfo.HasNextPage = true := hmore p (List.mem_cons_self _ _)
    simp only [hp, Bool.not_true, Bool.false_eq_true, if_false]
    obtain ⟨s', h1, h2, h3⟩ := ih fuel
      { ghc := g, events := s.events ++ [Event.Query query s.searchCursor], ranges := s.ranges,
        numAuthors := s.numAuthors, numApprovals := s.numApprovals, numReviews := s.numReviews,
        ret := s.ret ++ p.Search.Nodes, searchCursor := some p.Search.PageInfo.EndCursor,
        totalCost := wrapInt (s.totalCost + p.RateLimit.Cost),
        remaining := p.RateLimit.Remaining }
      hrest (fun q hq => hmore q (List.mem_cons_of_mem _ hq)) hfail
      (by simp at hfuel ⊢; omega)
    exact ⟨s', h1, by simp [h2, queryEvents], h3⟩

theorem prBody_reviews_fail {σ : Type} (k : KRepoStats σ) (rho : RangeOrder) (om : GoMap Bool)
    (pr : pullRequest) (s : State σ) (err : String)
    (h : (k.GHC.ListReviews s.ghc "kubernetes" "kops" pr.Number).1 = .error err) :
    ∃ s', prBody k rho om pr s = .fatal s' ∧
      s'.events = s.events ++ [Event.ListReviews "kubernetes" "kops" pr.Number,
        Event.Fatalf (LogLine.listReviewsFailed pr.Number err)] ∧
      s'.ghc = (k.GHC.ListReviews s.ghc "kubernetes" "kops" pr.Number).2 := by
  unfold prBody
  simp only [ite_self]
  rcases hr : k.GHC.ListReviews s.ghc "kubernetes" "kops" pr.Number with ⟨r, g₁⟩
  rw [hr] at h
  simp only at h
  subst h
  exact ⟨_, rfl, rfl, rfl⟩

theorem prBody_comments_fail {σ : Type} (k : KRepoStats σ) (rho : RangeOrder) (om : GoMap Bool)
    (pr : pullRequest) (s : State σ) (reviews : List Review) (err : String)
    (h₁ : (k.GHC.ListReviews s.ghc "kubernetes" "kops" pr.Number).1 = .ok reviews)
    (h₂ : (k.GHC.ListPullRequestComments (k.GHC.ListReviews s.ghc "kubernetes" "kops" pr.Number).2
      "kubernetes" "kops" pr.Number).1 = .error err) :
    ∃ s', prBody k rho om pr s = .fatal s' ∧
      s'.events = s.events ++ [Event.ListReviews "kubernetes" "kops" pr.Number,
        Event.ListPullRequestComments "kubernetes" "kops" pr.Number,
        Event.Fatalf (LogLine.listCommentsFailed pr.Number err)] ∧
      s'.ghc = (k.GHC.ListPullRequestComments
        (k.GHC.ListReviews s.ghc "kubernetes" "kops" pr.Number).2
        "kubernetes" "kops" pr.Number).2 := by
  unfold prBody
  simp only [ite_self]
  rcases hr : k.GHC.ListReviews s.ghc "kubernetes" "kops" pr.Number with ⟨r, g₁⟩
  rw [hr] at h₁ h₂
  simp only at h₁ h₂
  subst h₁
  simp only
  rcases hc : k.GHC.ListPullRequestComments g₁ "kubernetes" "kops" pr.Number with ⟨c, g₂⟩
  rw [hc] at h₂
  simp only at h₂
  subst h₂
  exact ⟨_, rfl, by simp, rfl⟩

theorem prLoop_append {σ : Type} (k : KRepoStats σ) (rho : RangeOrder) (om : GoMap Bool)
    (l₁ l₂ : List pullRequest) (s s' : State σ)
    (h : prLoop k rho om l₁ s = .returned s') :
    prLoop k rho om (l₁ ++ l₂) s = prLoop k rho om l₂ s' := by
  induction l₁ generalizing s with
  | nil =>
    simp only [prLoop, Outcome.returned.injEq] at h
    subst h
    rfl
  | cons pr rest ih =>
    simp only [List.cons_append, prLoop] at h ⊢
    cases hb : prBody k rho om pr s with
    | fatal s₁ => simp [hb] at h
    | returned s₁ =>
      rw [hb] at h
      exact ih s₁ h

/-- The loop over the pull requests on a client that serves `data`: where
it leaves the client and what it adds to the events. -/
theorem prLoop_serves_state {σ : Type} (k : KRepoStats σ) (rho : RangeOrder) (om : GoMap Bool)
    (data : List Fetched) (s : State σ) (h : servesPRs k.GHC s.ghc data) :
    ∃ s' ev, prLoop k rho om (data.map (fun d => d.pr)) s = .returned s' ∧
      s'.ghc = afterPRs k.GHC s.ghc data ∧ s'.events = s.events ++ ev ∧
      ∀ e ∈ ev, e.isPRStep = true := by
  induction data generalizing s with
  | nil => exact ⟨s, [], rfl, rfl, by simp, by simp⟩
  | cons d ds ih =>
    obtain ⟨h₁, h₂, h₃⟩ := h
    obtain ⟨s₁, hb, bg, bev, _⟩ := prBody_ok k rho om d.pr s d.reviews d.comments h₁ h₂
    rw [← bg] at h₃
    obtain ⟨s', ev, hl, hg, hev, hq⟩ := ih s₁ h₃
    refine ⟨s', [Event.ListReviews "kubernetes" "kops" d.pr.Number,
        Event.ListPullRequestComments "kubernetes" "kops" d.pr.Number,
        Event.Infof (LogLine.pr d.pr.Number d.pr.Author.Login
          (joinkeys rho s.ranges (signalSets d.reviews d.comments).approvers)
          (joinkeys rho (s.ranges + 1) (signalSets d.reviews d.comments).reviewers))] ++ ev,
      by simp only [List.map_cons, prLoop, hb, hl], ?_,
      by rw [hev, bev, List.append_assoc], ?_⟩
    · rw [hg, bg]
      rfl
    · intro e he
      rcases List.mem_append.1 he with he | he
      · simp only [List.mem_cons, List.mem_singleton, List.not_mem_nil, or_false] at he
        rcases he with rfl | rfl | rfl <;> rfl
      · exact hq e he

/-- The run up to a pull request on which the body of the loop is fatal:
the search has succeeded, the pull requests before it have been served. -/
theorem RunWith_fatal_of_prBody {σ : Type} (owners : List String) (k : KRepoStats σ)
    (rho : RangeOrder) (fuel : Nat) (g : σ) (s₁ : State σ) (done : List Fetched)
    (pr : pullRequest) (rest : List pullRequest)
    (hsearch : searchLoop k fuel (State.init g) = some (.returned s₁))
    (hret : s₁.ret = done.map (fun d => d.pr) ++ pr :: rest)
    (hserve : servesPRs k.GHC s₁.ghc done) :
    ∃ s₂ ev, s₂.ghc = afterPRs k.GHC s₁.ghc done ∧
      s₂.events = s₁.events ++
        Event.Infof (LogLine.searchCost s₁.totalCost s₁.remaining) :: ev ∧
      (∀ e ∈ ev, e.isPRStep = true) ∧
      (∀ e ∈ s₁.events, e.isTableLine = false) ∧
      ∀ s, prBody k rho (ownersmap owners) pr s₂ = .fatal s →
        RunWith owners k rho fuel g = some (.fatal s) := by
  obtain ⟨s₂, ev, hl, hg, hev, hq⟩ := prLoop_serves_state k rho (ownersmap owners) done
    { s₁ with events := s₁.events ++ [Event.Infof (LogLine.searchCost s₁.totalCost s₁.remaining)] }
    hserve
  have htl : ∀ e ∈ s₁.events, e.isTableLine = false := by
    obtain ⟨pages, _, hcase⟩ := searchLoop_trace k fuel _ _ hsearch
    rcases hcase with ⟨_, s', ho, hev'⟩ | ⟨s', err, ho, _⟩
    · simp only [Option.some.injEq, Outcome.returned.injEq] at ho
      subst ho
      simp only [State.init, List.nil_append] at hev'
      rw [hev']
      exact queryEvents_not_tableLine _ _
    · cases ho
  refine ⟨s₂, ev, hg, by rw [hev]; simp, hq, htl, ?_⟩
  intro s hs
  have happ := prLoop_append k rho (ownersmap owners) _ (pr :: rest) _ s₂ hl
  rw [← hret] at happ
  simp only [RunWith, hsearch]
  rw [happ]
  simp only [prLoop, hs]

/-! ## The specification, sentence by sentence -/

/-- C1: the lines `printTable` writes after the header are ranked by count,
highest first, and by login, ascending, among equal counts: of two
consecutive lines `(a, ca)` then `(b, cb)`, either `ca > cb`, or `ca = cb`
and `a < b`. The same holds of any two lines, consecutive or not. -/
theorem printTable_ranked (rho : RangeOrder) (n : Nat) (hdr : String) (t : GoMap Int) :
    ∃ rows : List (String × Int),
      printTable rho n hdr t =
        Event.Infof (LogLine.header hdr) ::
          rows.map (fun r => Event.Infof (LogLine.row r.2 r.1)) ∧
      rows.Chain' (fun a b => a.2 > b.2 ∨ (a.2 = b.2 ∧ a.1 < b.1)) ∧
      rows.Pairwise (fun a b => a.2 > b.2 ∨ (a.2 = b.2 ∧ a.1 < b.1)) := by
  have hs := sortSlice_keys_pairwise rho n t
  have hp : ((sortSlice (less t) (rho.keys n t)).map (fun k => (k, t.get 0 k))).Pairwise
      (fun a b : String × Int => a.2 > b.2 ∨ (a.2 = b.2 ∧ a.1 < b.1)) := by
    rw [List.pairwise_map]
    exact hs.imp (fun {a b} h => (less_iff t a b).1 h)
  refine ⟨(sortSlice (less t) (rho.keys n t)).map (fun k => (k, t.get 0 k)), ?_, hp.chain', hp⟩
  simp [printTable, Function.comp_def]

/-- C2: the lines of `printTable` do not depend on the order in which
`range` enumerates the keys of the counter: any two enumerations give the
same lines, so ranking the same counter twice gives the same output. -/
theorem printTable_deterministic (rho₁ rho₂ : RangeOrder) (n₁ n₂ : Nat) (hdr : String)
    (t : GoMap Int) : printTable rho₁ n₁ hdr t = printTable rho₂ n₂ hdr t := by
  simp only [printTable, sortSlice_keys_eq rho₁ rho₂ n₁ n₂ t]

/-- C3: when the client answers the successive page requests with the pages
`pages ++ [last]`, where every page of `pages` has `HasNextPage` set and
`last` has not, the search loop, given at least as much fuel as there are
pages, ends after exactly these page requests, one per page and in order;
`ret` is the concatenation of the pull requests of the pages in page order,
`totalCost` is the sum of the costs of the pages (in Go's `int`, so equal to
the sum whenever that fits 64 bits), `remaining` is the value of the last
page, and `Run` goes on to report these two values. -/
theorem Run_pagination {σ : Type} (k : KRepoStats σ) (rho : RangeOrder) (g : σ)
    (pages : List searchQuery) (last : searchQuery) (fuel : Nat)
    (hserve : servesPages k.GHC g none (pages ++ [last]))
    (hmore : ∀ p ∈ pages, p.Search.PageInfo.HasNextPage = true)
    (hlast : last.Search.PageInfo.HasNextPage = false)
    (hfuel : pages.length + 1 ≤ fuel) :
    ∃ s, searchLoop k fuel (State.init g) = some (.returned s) ∧
      s.events = queryEvents none (pages ++ [last]) ∧
      s.events.length = pages.length + 1 ∧
      s.ret = (pages ++ [last]).flatMap (fun p => p.Search.Nodes) ∧
      s.totalCost = wrapInt ((pages ++ [last]).map (fun p => p.RateLimit.Cost)).sum ∧
      (-2 ^ 63 ≤ ((pages ++ [last]).map (fun p => p.RateLimit.Cost)).sum →
        ((pages ++ [last]).map (fun p => p.RateLimit.Cost)).sum < 2 ^ 63 →
        s.totalCost = ((pages ++ [last]).map (fun p => p.RateLimit.Cost)).sum) ∧
      s.remaining = last.RateLimit.Remaining ∧
      ∃ o ev, Run k rho fuel g = some o ∧
        o.state.events = queryEvents none (pages ++ [last]) ++
          Event.Infof (LogLine.searchCost s.totalCost last.RateLimit.Remaining) :: ev := by
  obtain ⟨s, h1, h2, h3, h4, h5, _⟩ :=
    searchLoop_serves k pages last fuel (State.init g) hserve hmore hlast hfuel
  simp only [State.init, List.nil_append, zero_add] at h2 h3 h4
  obtain ⟨o, ev, ho, hev⟩ := RunWith_events_of_search k rho fuel g owners s h1
  refine ⟨s, h1, h2, ?_, h3, h4, ?_, h5, o, ev, ho, ?_⟩
  · rw [h2, queryEvents_length, List.length_append, List.length_singleton]
  · intro hlo hhi
    rw [h4, wrapInt_of_range _ hlo hhi]
  · rw [hev, h2, h5]

/-- C3, on three pages of 100, 100 and 50 pull requests: three page
requests, 250 pull requests. -/
theorem Run_pagination_witness :
    ∃ s, searchLoop (scripted [pageOf 100 "alice" true "c1" 1 4999,
        pageOf 100 "bob" true "c2" 2 4997, pageOf 50 "carol" false "c3" 3 4994] []) 3
        (State.init 0) = some (.returned s) ∧
      s.events.length = 3 ∧ s.ret.length = 250 ∧ s.totalCost = 6 ∧ s.remaining = 4994 := by
  obtain ⟨s, h1, _, h3, h4, _, h6, h7, _⟩ :=
    Run_pagination (scripted [pageOf 100 "alice" true "c1" 1 4999,
        pageOf 100 "bob" true "c2" 2 4997, pageOf 50 "carol" false "c3" 3 4994] [])
      storedOrder 0
      [pageOf 100 "alice" true "c1" 1 4999, pageOf 100 "bob" true "c2" 2 4997]
      (pageOf 50 "carol" false "c3" 3 4994) 3
      ⟨rfl, rfl, rfl, trivial⟩ (by decide) rfl (by decide)
  refine ⟨s, h1, h3, ?_, ?_, h7⟩
  · rw [h4]
    simp only [List.cons_append, List.nil_append, List.flatMap_cons, List.flatMap_nil,
      List.length_append, List.length_nil, pageOf, List.length_replicate]
  · exact h6 (by decide) (by decide)

/-- C4: the sets of one pull request. A login is among the approvers exactly
when it is the author of a review in state Approved or of a comment whose
body matches the `/approve` pattern, and among the reviewers exactly when it
is the author of a review in state Approved or ChangesRequested or of a
comment whose body matches the `/lgtm` pattern. A review in state
ChangesRequested adds its author to the reviewers and leaves the approvers
as they are; a review in any other state changes neither set. -/
theorem signalSets_members (reviews : List Review) (comments : List ReviewComment) :
    (∀ l, l ∈ (signalSets reviews comments).approvers ↔
      (∃ r ∈ reviews, r.State = ReviewStateApproved ∧ r.User.Login = l) ∨
        ∃ c ∈ comments, MatchString approveRegex c.Body = true ∧ c.User.Login = l) ∧
    (∀ l, l ∈ (signalSets reviews comments).reviewers ↔
      (∃ r ∈ reviews, (r.State = ReviewStateApproved ∨ r.State = ReviewStateChangesRequested) ∧
          r.User.Login = l) ∨
        ∃ c ∈ comments, MatchString lgtmRegex c.Body = true ∧ c.User.Login = l) ∧
    (∀ (s : Sets) (r : Review), r.State = ReviewStateChangesRequested →
      reviewStep s r =
        { reviewers := s.reviewers.set r.User.Login true, approvers := s.approvers }) ∧
    (∀ (s : Sets) (r : Review), r.State ≠ ReviewStateApproved →
      r.State ≠ ReviewStateChangesRequested → reviewStep s r = s) := by
  refine ⟨signalSets_approvers reviews comments, signalSets_reviewers reviews comments, ?_, ?_⟩
  · intro s r h
    have h' : ReviewStateChangesRequested ≠ ReviewStateApproved := ReviewState_ne.symm
    simp [reviewStep, h, h']
  · intro s r h₁ h₂
    simp [reviewStep, h₁, h₂]

/-- C4, on a pull request with an approval by bob, changes requested by dave
and a review in state COMMENTED by erin. -/
theorem signalSets_members_witness :
    reviewStep ⟨∅, ∅⟩ ⟨⟨"dave"⟩, ReviewStateChangesRequested⟩ =
        { reviewers := (∅ : GoMap Bool).set "dave" true, approvers := ∅ } ∧
      reviewStep ⟨∅, ∅⟩ ⟨⟨"erin"⟩, "COMMENTED"⟩ = ⟨∅, ∅⟩ :=
  ⟨(signalSets_members [] []).2.2.1 ⟨∅, ∅⟩ ⟨⟨"dave"⟩, ReviewStateChangesRequested⟩ rfl,
   (signalSets_members [] []).2.2.2 ⟨∅, ∅⟩ ⟨⟨"erin"⟩, "COMMENTED"⟩ (by decide) (by decide)⟩

/-- C5, as stated, fails: the body `"  /lgtm"`, with two leading spaces, has
a line that is optional leading whitespace, the token and nothing else, yet
`lgtmRegex` does not match it and the comment adds nobody to the reviewers;
likewise for `"  /approve"` and the approvers. -/
theorem leading_space_not_matched :
    hasSignalLine "/lgtm" "  /lgtm" = true ∧
      MatchString lgtmRegex "  /lgtm" = false ∧
      (commentStep ⟨∅, ∅⟩ ⟨⟨"carol"⟩, "  /lgtm"⟩).reviewers.keys = [] ∧
      hasSignalLine "/approve" "  /approve" = true ∧
      MatchString approveRegex "  /approve" = false ∧
      (commentStep ⟨∅, ∅⟩ ⟨⟨"carol"⟩, "  /approve"⟩).approvers.keys = [] := by
  decide

/-- C5, amended: `lgtmRegex` matches a body exactly when some line of the
body is the token `/lgtm`, standing at the very start of the line, followed
by whitespace only (space, tab, form feed, carriage return); a comment adds
its author to the reviewers exactly in that case. The same holds of
`approveRegex`, the token `/approve` and the approvers. Letters match in
their own case only. -/
theorem MatchString_iff_commandLine (body : String) :
    (MatchString lgtmRegex body = true ↔ hasCommandLine "/lgtm" body = true) ∧
    (MatchString approveRegex body = true ↔ hasCommandLine "/approve" body = true) ∧
    (∀ (s : Sets) (u l : String), l ∈ (commentStep s ⟨⟨u⟩, body⟩).reviewers ↔
      l ∈ s.reviewers ∨ (hasCommandLine "/lgtm" body = true ∧ u = l)) ∧
    (∀ (s : Sets) (u l : String), l ∈ (commentStep s ⟨⟨u⟩, body⟩).approvers ↔
      l ∈ s.approvers ∨ (hasCommandLine "/approve" body = true ∧ u = l)) ∧
    MatchString lgtmRegex "/LGTM" = false ∧ MatchString approveRegex "/Approve" = false := by
  refine ⟨by rw [MatchString_lgtm], by rw [MatchString_approve], ?_, ?_, by decide, by decide⟩
  · intro s u l
    rw [commentStep_reviewers, MatchString_lgtm]
  · intro s u l
    rw [commentStep_approvers, MatchString_approve]

/-- C6: a body that holds the line `/lgtm`, followed by any number of
spaces, between any lines before it and any lines after it (blank lines
among them) matches `lgtmRegex`, and the comment adds its author to the
reviewers; the body `"I /lgtm this"` does not match, and that comment leaves
both sets as they are. -/
theorem lgtm_on_own_line (before : List (List Char)) (n : Nat) (after : List (List Char)) :
    MatchString lgtmRegex (lgtmBody before n after) = true ∧
    (∀ (s : Sets) (u : String), u ∈ (commentStep s ⟨⟨u⟩, lgtmBody before n after⟩).reviewers) ∧
    (∀ (reviews : List Review) (comments : List ReviewComment) (u : String),
      (⟨⟨u⟩, lgtmBody before n after⟩ : ReviewComment) ∈ comments →
        u ∈ (signalSets reviews comments).reviewers) ∧
    MatchString lgtmRegex "I /lgtm this" = false ∧
    (∀ (s : Sets) (u : String), commentStep s ⟨⟨u⟩, "I /lgtm this"⟩ = s) := by
  have hm := MatchString_lgtmBody before n after
  refine ⟨hm, ?_, ?_, by decide, ?_⟩
  · intro s u
    rw [commentStep_reviewers]
    exact Or.inr ⟨hm, rfl⟩
  · intro reviews comments u hu
    rw [signalSets_reviewers]
    exact Or.inr ⟨_, hu, hm, rfl⟩
  · intro s u
    have h₁ : MatchString lgtmRegex "I /lgtm this" = false := by decide
    have h₂ : MatchString approveRegex "I /lgtm this" = false := by decide
    simp [commentStep, h₁, h₂]

/-- C6, on the body with one empty line before and after the line `/lgtm`
with two trailing spaces. -/
theorem lgtm_on_own_line_witness :
    lgtmBody [[]] 2 [[]] = "\n/lgtm  \n" ∧
      MatchString lgtmRegex (lgtmBody [[]] 2 [[]]) = true ∧
      "carol" ∈ (signalSets [] [⟨⟨"carol"⟩, lgtmBody [[]] 2 [[]]⟩]).reviewers :=
  ⟨by decide, (lgtm_on_own_line [[]] 2 [[]]).1,
   (lgtm_on_own_line [[]] 2 [[]]).2.2.1 [] [⟨⟨"carol"⟩, lgtmBody [[]] 2 [[]]⟩] "carol"
     (List.mem_cons_self _ _)⟩

theorem count_keys_eq_one {V : Type} (m : GoMap V) (l : String) (h : l ∈ m) :
    m.keys.count l = 1 :=
  List.count_eq_one_of_mem m.keys_nodup (AList.mem_keys.1 h)

/-- C7: when user `U` has submitted at least one review in state Approved
on a pull request, `U` is in the approvers and in the reviewers of that pull
request, once in each, and processing the pull request raises the count of
`U` in the table of approvers and in the table of reviewers by one each (in
Go's `int`: by exactly one unless the count stood at the largest `int`),
whatever else `U` has submitted on it. -/
theorem approved_review_counts_once {σ : Type} (k : KRepoStats σ) (rho : RangeOrder)
    (om : GoMap Bool) (pr : pullRequest) (s : State σ) (reviews : List Review)
    (comments : List ReviewComment) (U : String)
    (h₁ : (k.GHC.ListReviews s.ghc "kubernetes" "kops" pr.Number).1 = .ok reviews)
    (h₂ : (k.GHC.ListPullRequestComments (k.GHC.ListReviews s.ghc "kubernetes" "kops" pr.Number).2
      "kubernetes" "kops" pr.Number).1 = .ok comments)
    (hU : ∃ r ∈ reviews, r.State = ReviewStateApproved ∧ r.User.Login = U) :
    U ∈ (signalSets reviews comments).approvers ∧
    U ∈ (signalSets reviews comments).reviewers ∧
    (signalSets reviews comments).approvers.keys.count U = 1 ∧
    (signalSets reviews comments).reviewers.keys.count U = 1 ∧
    ∃ s', prBody k rho om pr s = .returned s' ∧
      s'.numApprovals.get 0 U = wrapInt (s.numApprovals.get 0 U + 1) ∧
      s'.numReviews.get 0 U = wrapInt (s.numReviews.get 0 U + 1) ∧
      (-2 ^ 63 ≤ s.numApprovals.get 0 U + 1 → s.numApprovals.get 0 U + 1 < 2 ^ 63 →
        s'.numApprovals.get 0 U = s.numApprovals.get 0 U + 1) ∧
      (-2 ^ 63 ≤ s.numReviews.get 0 U + 1 → s.numReviews.get 0 U + 1 < 2 ^ 63 →
        s'.numReviews.get 0 U = s.numReviews.get 0 U + 1) := by
  obtain ⟨r, hr, hst, hlog⟩ := hU
  have ha : U ∈ (signalSets reviews comments).approvers :=
    (signalSets_approvers reviews comments U).2 (Or.inl ⟨r, hr, hst, hlog⟩)
  have hv : U ∈ (signalSets reviews comments).reviewers :=
    (signalSets_reviewers reviews comments U).2 (Or.inl ⟨r, hr, Or.inl hst, hlog⟩)
  obtain ⟨s', hb, _, _, _, bp, br, _⟩ := prBody_ok k rho om pr s reviews comments h₁ h₂
  have gp : s'.numApprovals.get 0 U = wrapInt (s.numApprovals.get 0 U + 1) := by
    rw [bp, incrKeys_get, if_pos ha]
  have gr : s'.numReviews.get 0 U = wrapInt (s.numReviews.get 0 U + 1) := by
    rw [br, incrKeys_get, if_pos hv]
  refine ⟨ha, hv, count_keys_eq_one _ _ ha, count_keys_eq_one _ _ hv, s', hb, gp, gr, ?_, ?_⟩
  · intro hlo hhi
    rw [gp, wrapInt_of_range _ hlo hhi]
  · intro hlo hhi
    rw [gr, wrapInt_of_range _ hlo hhi]

/-- C7, on pull request 42, which bob approves twice and comments with
`/lgtm`: one more approval and one more review for bob. -/
theorem approved_review_counts_once_witness :
    ∃ s', prBody (scripted [] [pr42]) reversedOrder (ownersmap owners) pr42.pr (State.init 0)
        = .returned s' ∧
      s'.numApprovals.get 0 "bob" = 1 ∧ s'.numReviews.get 0 "bob" = 1 := by
  obtain ⟨_, _, _, _, s', hb, gp, gr, _⟩ :=
    approved_review_counts_once (scripted [] [pr42]) reversedOrder (ownersmap owners) pr42.pr
      (State.init 0) pr42.reviews pr42.comments "bob" rfl rfl
      ⟨_, List.mem_cons_self _ _, rfl, rfl⟩
  exact ⟨s', hb, gp.trans (by decide), gr.trans (by decide)⟩

/-- C8: when the search has returned the pull requests of `data` and the
client serves their reviews and comments, `Run` ends with a table of
approvers that maps every login to the number of pull requests whose set of
approvers holds it, and a table of reviewers that maps every login to the
number of pull requests whose set of reviewers holds it (numbers in Go's
`int`, which are the numbers themselves as long as there are fewer than
`2 ^ 63` pull requests). A pull request counts once for a login in each
table, however many signals the login gave on it. -/
theorem Run_counts_signals {σ : Type} (k : KRepoStats σ) (rho : RangeOrder) (fuel : Nat)
    (g : σ) (s₁ : State σ) (data : List Fetched)
    (hsearch : searchLoop k fuel (State.init g) = some (.returned s₁))
    (hret : data.map (fun d => d.pr) = s₁.ret)
    (hserve : servesPRs k.GHC s₁.ghc data) :
    ∃ s, Run k rho fuel g = some (.returned s) ∧
      (∀ l, l ∈ s.numApprovals ↔
        ∃ d ∈ data, l ∈ (signalSets d.reviews d.comments).approvers) ∧
      (∀ l, l ∈ s.numReviews ↔
        ∃ d ∈ data, l ∈ (signalSets d.reviews d.comments).reviewers) ∧
      (∀ l, s.numApprovals.get 0 l = wrapInt
        (data.countP (fun d => l ∈ (signalSets d.reviews d.comments).approvers.keys))) ∧
      (∀ l, s.numReviews.get 0 l = wrapInt
        (data.countP (fun d => l ∈ (signalSets d.reviews d.comments).reviewers.keys))) ∧
      (data.length < 2 ^ 63 →
        (∀ l, s.numApprovals.get 0 l =
          data.countP (fun d => l ∈ (signalSets d.reviews d.comments).approvers.keys)) ∧
        (∀ l, s.numReviews.get 0 l =
          data.countP (fun d => l ∈ (signalSets d.reviews d.comments).reviewers.keys))) := by
  obtain ⟨s, hrun, _, _, kp, kr, _, gp, gr⟩ :=
    Run_serves k rho fuel g owners s₁ data hsearch hret hserve
  refine ⟨s, hrun, kp, kr, ?_, ?_, ?_⟩
  · intro l
    simpa using gp l
  · intro l
    simpa using gr l
  · intro hlen
    exact ⟨fun l => (gp l).trans (wrapInt_count _ _ (List.countP_le_length _) hlen),
      fun l => (gr l).trans (wrapInt_count _ _ (List.countP_le_length _) hlen)⟩

/-- C8, on the pull requests 42 and 43: bob approves and reviews one, carol
approves one and reviews none, dave reviews one and approves none. -/
theorem Run_counts_signals_witness :
    ∃ s, Run (scripted [singlePage [pr42.pr, pr43.pr]] [pr42, pr43]) reversedOrder 1 0
        = some (.returned s) ∧
      s.numApprovals.get 0 "bob" = 1 ∧ s.numReviews.get 0 "bob" = 1 ∧
      s.numApprovals.get 0 "carol" = 1 ∧ s.numReviews.get 0 "carol" = 0 ∧
      s.numApprovals.get 0 "dave" = 0 ∧ s.numReviews.get 0 "dave" = 1 := by
  obtain ⟨s, hrun, _, _, _, _, h⟩ :=
    Run_counts_signals (scripted [singlePage [pr42.pr, pr43.pr]] [pr42, pr43]) reversedOrder 1 0
      (foundState [pr42.pr, pr43.pr]) [pr42, pr43] rfl rfl ⟨rfl, rfl, rfl, rfl, trivial⟩
  obtain ⟨hp, hr⟩ := h (by decide)
  exact ⟨s, hrun, (hp "bob").trans (by decide), (hr "bob").trans (by decide),
    (hp "carol").trans (by decide), (hr "carol").trans (by decide),
    (hp "dave").trans (by decide), (hr "dave").trans (by decide)⟩

theorem countP_author (data : List Fetched) (l : String) :
    data.countP (fun d => d.pr.Author.Login = l)
      = ((data.map (fun d => d.pr)).map (fun pr => pr.Author.Login)).count l := by
  induction data with
  | nil => rfl
  | cons d ds ih =>
    by_cases h : d.pr.Author.Login = l
    · simp [List.countP_cons, List.count_cons, h, ih]
    · simp [List.countP_cons, List.count_cons, h, ih]

/-- C9: when the search has returned the pull requests `ret` and the client
serves their reviews and comments, whatever these are, `Run` ends with a
table of authors that maps every login to the number of entries of `ret`
whose author it is (a number in Go's `int`, which is the number itself as
long as `ret` has fewer than `2 ^ 63` entries); its keys are the authors of
`ret`, and its counts then add up to the length of `ret`. -/
theorem Run_counts_authors {σ : Type} (k : KRepoStats σ) (rho : RangeOrder) (fuel : Nat)
    (g : σ) (s₁ : State σ) (data : List Fetched)
    (hsearch : searchLoop k fuel (State.init g) = some (.returned s₁))
    (hret : data.map (fun d => d.pr) = s₁.ret)
    (hserve : servesPRs k.GHC s₁.ghc data) :
    ∃ s, Run k rho fuel g = some (.returned s) ∧
      (∀ l, l ∈ s.numAuthors ↔ ∃ pr ∈ s₁.ret, pr.Author.Login = l) ∧
      (∀ l, s.numAuthors.get 0 l =
        wrapInt ((s₁.ret.map (fun pr => pr.Author.Login)).count l)) ∧
      (s₁.ret.length < 2 ^ 63 →
        (∀ l, s.numAuthors.get 0 l = (s₁.ret.map (fun pr => pr.Author.Login)).count l) ∧
        (s.numAuthors.keys.map (fun l => s.numAuthors.get 0 l)).sum = s₁.ret.length) := by
  obtain ⟨s, hrun, _, ka, _, _, ga, _, _⟩ :=
    Run_serves k rho fuel g owners s₁ data hsearch hret hserve
  have hmem : ∀ l, l ∈ s.numAuthors ↔ ∃ pr ∈ s₁.ret, pr.Author.Login = l := by
    intro l
    rw [ka, ← hret]
    simp
  have hget : ∀ l, s.numAuthors.get 0 l =
      wrapInt ((s₁.ret.map (fun pr => pr.Author.Login)).count l) := by
    intro l
    rw [ga, countP_author, hret, zero_add]
  refine ⟨s, hrun, hmem, hget, ?_⟩
  intro hlen
  have hexact : ∀ l, s.numAuthors.get 0 l
      = ((s₁.ret.map (fun pr => pr.Author.Login)).count l : Int) := by
    intro l
    have := wrapInt_count ((s₁.ret.map (fun pr => pr.Author.Login)).count l) s₁.ret.length
      (by simpa using List.count_le_length l (s₁.ret.map (fun pr => pr.Author.Login)))
      hlen
    rw [zero_add] at this
    rw [hget, this]
  refine ⟨hexact, ?_⟩
  have := sum_get_keys s.numAuthors (s₁.ret.map (fun pr => pr.Author.Login))
    (fun l => by rw [hmem]; simp) hexact
  simpa using this

/-- C9, on the pull requests 42 and 43, both by alice: two for alice, and
two in all. -/
theorem Run_counts_authors_witness :
    ∃ s, Run (scripted [singlePage [pr42.pr, pr43.pr]] [pr42, pr43]) storedOrder 1 0
        = some (.returned s) ∧
      s.numAuthors.get 0 "alice" = 2 ∧ s.numAuthors.get 0 "bob" = 0 ∧
      (s.numAuthors.keys.map (fun l => s.numAuthors.get 0 l)).sum = 2 := by
  obtain ⟨s, hrun, _, _, h⟩ :=
    Run_counts_authors (scripted [singlePage [pr42.pr, pr43.pr]] [pr42, pr43]) storedOrder 1 0
      (foundState [pr42.pr, pr43.pr]) [pr42, pr43] rfl rfl ⟨rfl, rfl, rfl, rfl, trivial⟩
  obtain ⟨hg, hs⟩ := h (by decide)
  exact ⟨s, hrun, (hg "alice").trans (by decide), (hg "bob").trans (by decide), hs⟩

theorem string_bob_lt_carol : "bob" < "carol" := by
  rw [String.lt_iff_toList_lt]
  decide

/-- C10, as stated, fails: the body `/lgtm`, newline, `/approve` has a line
`/lgtm`, and with it as the one comment of carol on pull request 42 (by
alice, approved by bob) `Run` returns with carol among the approvers, with
a count of 1: the approvers are not `bob: 1` alone. -/
theorem end_to_end_with_approve_line :
    hasCommandLine "/lgtm" "/lgtm\n/approve" = true ∧
    ∃ s, Run (scripted [singlePage [{ Number := 42, Author := { Login := "alice" } }]]
        [{ pr := { Number := 42, Author := { Login := "alice" } }
           reviews := [{ User := { Login := "bob" }, State := ReviewStateApproved }]
           comments := [{ User := { Login := "carol" }, Body := "/lgtm\n/approve" }] }])
        storedOrder 1 0 = some (.returned s) ∧
      s.numApprovals.get 0 "carol" = 1 ∧
      s.numApprovals.keys = ["bob", "carol"] ∧
      ¬ s.numApprovals.keys.Perm ["bob"] := by
  refine ⟨by decide, _, rfl, by decide, by decide, ?_⟩
  intro h
  have := h.length_eq
  revert this
  decide

/-- C10, amended: end to end. The search returns one page that holds pull
request 42 by alice; the reviews of 42 are one review by bob in state
Approved; the comments of 42 are one comment by carol whose body has a line
`/lgtm` and no line `/approve`. Then `Run` ends with the authors `alice: 1`,
the approvers `bob: 1` and the reviewers `bob: 1, carol: 1`, and the last
lines it writes are the three tables, the reviewers in the order bob,
carol. -/
theorem Run_end_to_end {σ : Type} (k : KRepoStats σ) (rho : RangeOrder) (fuel : Nat) (g : σ)
    (page : searchQuery) (body : String)
    (hfuel : 1 ≤ fuel)
    (hpage : (k.GHC.Query g query none).1 = .ok page)
    (hlast : page.Search.PageInfo.HasNextPage = false)
    (hnodes : page.Search.Nodes = [{ Number := 42, Author := { Login := "alice" } }])
    (hreviews : (k.GHC.ListReviews (k.GHC.Query g query none).2 "kubernetes" "kops" 42).1
      = .ok [{ User := { Login := "bob" }, State := ReviewStateApproved }])
    (hcomments : (k.GHC.ListPullRequestComments
        (k.GHC.ListReviews (k.GHC.Query g query none).2 "kubernetes" "kops" 42).2
        "kubernetes" "kops" 42).1
      = .ok [{ User := { Login := "carol" }, Body := body }])
    (hlgtm : hasCommandLine "/lgtm" body = true)
    (happrove : hasCommandLine "/approve" body = false) :
    ∃ s, Run k rho fuel g = some (.returned s) ∧
      s.numAuthors.keys.Perm ["alice"] ∧ s.numAuthors.get 0 "alice" = 1 ∧
      s.numApprovals.keys.Perm ["bob"] ∧ s.numApprovals.get 0 "bob" = 1 ∧
      s.numReviews.keys.Perm ["bob", "carol"] ∧
      s.numReviews.get 0 "bob" = 1 ∧ s.numReviews.get 0 "carol" = 1 ∧
      ∃ ev, s.events = ev ++
        [Event.Infof (LogLine.header "authors"), Event.Infof (LogLine.row 1 "alice"),
         Event.Infof (LogLine.header "approvers"), Event.Infof (LogLine.row 1 "bob"),
         Event.Infof (LogLine.header "reviewers"), Event.Infof (LogLine.row 1 "bob"),
         Event.Infof (LogLine.row 1 "carol")] := by
  obtain ⟨s₁, hsearch, _, hret, _, _, hghc⟩ :=
    searchLoop_serves k [] page fuel (State.init g) ⟨hpage, trivial⟩ (by simp) hlast
      (by simpa using hfuel)
  simp only [State.init, List.nil_append, List.flatMap_cons, List.flatMap_nil, List.append_nil,
    hnodes, afterPages] at hret hghc
  have hserve : servesPRs k.GHC s₁.ghc
      [{ pr := { Number := 42, Author := { Login := "alice" } }
         reviews := [{ User := { Login := "bob" }, State := ReviewStateApproved }]
         comments := [{ User := { Login := "carol" }, Body := body }] }] := by
    rw [hghc]
    exact ⟨hreviews, hcomments, trivial⟩
  obtain ⟨s, hrun, ⟨ev, n, hev⟩, ka, kp, kr, ga, gp, gr⟩ :=
    Run_serves k rho fuel g owners s₁ _ hsearch (by rw [hret]; rfl) hserve
  have hl : MatchString lgtmRegex body = true := by rw [MatchString_lgtm, hlgtm]
  have hp : MatchString approveRegex body = false := by rw [MatchString_approve, happrove]
  have hne : "bob" ≠ "carol" := by decide
  have hne' : "carol" ≠ "bob" := by decide
  have ma : ∀ l, l ∈ s.numAuthors ↔ l ∈ ["alice"] := by
    intro l
    rw [ka]
    simp [eq_comm]
  have mp : ∀ l, l ∈ s.numApprovals ↔ l ∈ ["bob"] := by
    intro l
    rw [kp]
    simp only [List.mem_singleton, exists_eq_left, signalSets_approvers, hp,
      Bool.false_eq_true, false_and, exists_false, or_false, true_and]
    exact eq_comm
  have mr : ∀ l, l ∈ s.numReviews ↔ l ∈ ["bob", "carol"] := by
    intro l
    rw [kr]
    simp only [List.mem_singleton, exists_eq_left, signalSets_reviewers, hl, true_or, true_and,
      List.mem_cons, List.not_mem_nil, or_false]
    exact or_congr eq_comm eq_comm
  have one : wrapInt (0 + ((1 : Nat) : Int)) = 1 := by decide
  have va : s.numAuthors.get 0 "alice" = 1 := by
    rw [ga]
    simpa using one
  have vp : s.numApprovals.get 0 "bob" = 1 := by
    have hm : "bob" ∈ (signalSets [{ User := { Login := "bob" }, State := ReviewStateApproved }]
        [{ User := { Login := "carol" }, Body := body }]).approvers.keys := by
      rw [← AList.mem_keys, signalSets_approvers]
      simp
    rw [gp]
    simpa [hm] using one
  have vb : s.numReviews.get 0 "bob" = 1 := by
    have hm : "bob" ∈ (signalSets [{ User := { Login := "bob" }, State := ReviewStateApproved }]
        [{ User := { Login := "carol" }, Body := body }]).reviewers.keys := by
      rw [← AList.mem_keys, signalSets_reviewers]
      simp
    rw [gr]
    simpa [hm] using one
  have vc : s.numReviews.get 0 "carol" = 1 := by
    have hm : "carol" ∈ (signalSets [{ User := { Login := "bob" }, State := ReviewStateApproved }]
        [{ User := { Login := "carol" }, Body := body }]).reviewers.keys := by
      rw [← AList.mem_keys, signalSets_reviewers]
      simp [hl]
    rw [gr]
    simpa [hm] using one
  have pa := keys_perm_of_mem s.numAuthors ["alice"] (by decide) ma
  have pp := keys_perm_of_mem s.numApprovals ["bob"] (by decide) mp
  have pr := keys_perm_of_mem s.numReviews ["bob", "carol"] (by decide) mr
  have ta := printTable_eq_of_sorted rho n "authors" s.numAuthors ["alice"] pa.symm (by simp)
  have tp := printTable_eq_of_sorted rho (n + 1) "approvers" s.numApprovals ["bob"] pp.symm
    (by simp)
  have tr := printTable_eq_of_sorted rho (n + 2) "reviewers" s.numReviews ["bob", "carol"]
    pr.symm (by
      simp only [List.pairwise_cons, List.mem_singleton, forall_eq, List.not_mem_nil,
        false_implies, implies_true, List.Pairwise.nil, and_true]
      rw [less_iff, vb, vc]
      exact Or.inr ⟨rfl, string_bob_lt_carol⟩)
  refine ⟨s, hrun, pa, va, pp, vp, pr, vb, vc,
    s₁.events ++ Event.Infof (LogLine.searchCost s₁.totalCost s₁.remaining) :: ev, ?_⟩
  rw [hev, ta, tp, tr]
  simp [va, vp, vb, vc]

/-- C10, amended, on a scripted client whose comment by carol reads `thanks`
and, on the next line, `/lgtm`. -/
theorem Run_end_to_end_witness :
    ∃ s, Run (scripted [singlePage [{ Number := 42, Author := { Login := "alice" } }]]
        [{ pr := { Number := 42, Author := { Login := "alice" } }
           reviews := [{ User := { Login := "bob" }, State := ReviewStateApproved }]
           comments := [{ User := { Login := "carol" }, Body := "thanks\n/lgtm\n" }] }])
        reversedOrder 1 0 = some (.returned s) ∧
      s.numReviews.keys.Perm ["bob", "carol"] ∧
      s.numReviews.get 0 "bob" = 1 ∧ s.numReviews.get 0 "carol" = 1 := by
  obtain ⟨s, hrun, _, _, _, _, pr, vb, vc, _⟩ :=
    Run_end_to_end (scripted [singlePage [{ Number := 42, Author := { Login := "alice" } }]]
        [{ pr := { Number := 42, Author := { Login := "alice" } }
           reviews := [{ User := { Login := "bob" }, State := ReviewStateApproved }]
           comments := [{ User := { Login := "carol" }, Body := "thanks\n/lgtm\n" }] }])
      reversedOrder 1 0 (singlePage [{ Number := 42, Author := { Login := "alice" } }])
      "thanks\n/lgtm\n" (by decide) rfl rfl rfl rfl rfl (by decide) (by decide)
  exact ⟨s, hrun, pr, vb, vc⟩

/-- C11: errors are fatal. (1) When the client has served some pages, each
with a next page, and the next page request fails, `Run` ends in
`klog.Fatalf` at that request: the events are the page requests and the
fatal line, the client is left as the failed call has left it, and no line
of a table has been written. (2) When the search has succeeded, the reviews
and comments of the first pull requests have been served and `ListReviews`
fails on the next one, `Run` ends in `klog.Fatalf` at that call, in the
same way. (3) Likewise when `ListPullRequestComments` fails. (4) `Run` has
no outcome only when the fuel runs out in the search, every page request
having succeeded. (5) With a client that keeps a record of the success of
its calls, which changes nothing in what `Run` does: a fatal run has
exactly one failed call, its last call, and no table line; a run that
returns has no failed call, and its events end with the three tables. -/
theorem Run_fatal_on_first_error {σ : Type} (k : KRepoStats σ) (rho : RangeOrder)
    (fuel : Nat) (g : σ) :
    (∀ (pages : List searchQuery) (err : String),
      servesPages k.GHC g none pages →
      (∀ p ∈ pages, p.Search.PageInfo.HasNextPage = true) →
      (k.GHC.Query (afterPages k.GHC g none pages) query (cursorAfter none pages)).1
        = .error err →
      pages.length + 1 ≤ fuel →
      ∃ s, Run k rho fuel g = some (.fatal s) ∧
        s.events = queryEvents none pages ++
          [Event.Query query (cursorAfter none pages),
           Event.Fatalf (LogLine.queryFailed err)] ∧
        s.ghc = (k.GHC.Query (afterPages k.GHC g none pages) query
          (cursorAfter none pages)).2 ∧
        (∀ e ∈ s.events, e.isTableLine = false)) ∧
    (∀ (s₁ : State σ) (done : List Fetched) (pr : pullRequest) (rest : List pullRequest)
      (err : String),
      searchLoop k fuel (State.init g) = some (.returned s₁) →
      s₁.ret = done.map (fun d => d.pr) ++ pr :: rest →
      servesPRs k.GHC s₁.ghc done →
      (k.GHC.ListReviews (afterPRs k.GHC s₁.ghc done) "kubernetes" "kops" pr.Number).1
        = .error err →
      ∃ s ev, Run k rho fuel g = some (.fatal s) ∧
        s.events = s₁.events ++
          Event.Infof (LogLine.searchCost s₁.totalCost s₁.remaining) :: ev ++
          [Event.ListReviews "kubernetes" "kops" pr.Number,
           Event.Fatalf (LogLine.listReviewsFailed pr.Number err)] ∧
        (∀ e ∈ ev, e.isPRStep = true) ∧
        s.ghc = (k.GHC.ListReviews (afterPRs k.GHC s₁.ghc done)
          "kubernetes" "kops" pr.Number).2 ∧
        (∀ e ∈ s.events, e.isTableLine = false)) ∧
    (∀ (s₁ : State σ) (done : List Fetched) (pr : pullRequest) (rest : List pullRequest)
      (reviews : List Review) (err : String),
      searchLoop k fuel (State.init g) = some (.returned s₁) →
      s₁.ret = done.map (fun d => d.pr) ++ pr :: rest →
      servesPRs k.GHC s₁.ghc done →
      (k.GHC.ListReviews (afterPRs k.GHC s₁.ghc done) "kubernetes" "kops" pr.Number).1
        = .ok reviews →
      (k.GHC.ListPullRequestComments
        (k.GHC.ListReviews (afterPRs k.GHC s₁.ghc done) "kubernetes" "kops" pr.Number).2
        "kubernetes" "kops" pr.Number).1 = .error err →
      ∃ s ev, Run k rho fuel g = some (.fatal s) ∧
        s.events = s₁.events ++
          Event.Infof (LogLine.searchCost s₁.totalCost s₁.remaining) :: ev ++
          [Event.ListReviews "kubernetes" "kops" pr.Number,
           Event.ListPullRequestComments "kubernetes" "kops" pr.Number,
           Event.Fatalf (LogLine.listCommentsFailed pr.Number err)] ∧
        (∀ e ∈ ev, e.isPRStep = true) ∧
        s.ghc = (k.GHC.ListPullRequestComments
          (k.GHC.ListReviews (afterPRs k.GHC s₁.ghc done) "kubernetes" "kops" pr.Number).2
          "kubernetes" "kops" pr.Number).2 ∧
        (∀ e ∈ s.events, e.isTableLine = false)) ∧
    (Run k rho fuel g = none →
      ∃ pages : List searchQuery, pages.length = fuel ∧ servesPages k.GHC g none pages ∧
        ∀ p ∈ pages, p.Search.PageInfo.HasNextPage = true) ∧
    (Run (logged k) rho fuel (g, [])).map (Outcome.mapGhc Prod.fst) = Run k rho fuel g ∧
    (∀ s, Run (logged k) rho fuel (g, []) = some (.fatal s) →
      ∃ ev c line,
        s.ghc.2 = List.replicate (ev.countP Event.isCall) true ++ [false] ∧
        s.events = ev ++ [c, Event.Fatalf line] ∧ c.isCall = true ∧
        (∀ e ∈ ev, e.isQuiet = true) ∧
        (∀ e ∈ s.events, e.isTableLine = false)) ∧
    (∀ s, Run (logged k) rho fuel (g, []) = some (.returned s) →
      ∃ ev n,
        s.ghc.2 = List.replicate (ev.countP Event.isCall) true ∧
        s.events = ev ++ (printTable rho n "authors" s.numAuthors ++
          printTable rho (n + 1) "approvers" s.numApprovals ++
          printTable rho (n + 2) "reviewers" s.numReviews) ∧
        (∀ e ∈ ev, e.isQuiet = true) ∧
        (∀ e ∈ s.events, e.isFatalf = false)) := by
  obtain ⟨hf, hr⟩ := RunWith_continues owners k rho fuel g
  refine ⟨?_, ?_, ?_, ?_, RunWith_logged owners k rho fuel g [], ?_, ?_⟩
  · intro pages err hserve hmore hfail hfuel
    obtain ⟨s, h1, h2, h3⟩ :=
      searchLoop_fails k pages err fuel (State.init g) hserve hmore hfail hfuel
    simp only [State.init, List.nil_append] at h2 h3
    refine ⟨s, by simp only [Run, RunWith, h1], h2, h3, ?_⟩
    intro e he
    rw [h2] at he
    rcases List.mem_append.1 he with he | he
    · exact queryEvents_not_tableLine _ _ e he
    · simp only [List.mem_cons, List.mem_singleton, List.not_mem_nil, or_false] at he
      rcases he with rfl | rfl <;> rfl
  · intro s₁ done pr rest err hsearch hret hserve hfail
    obtain ⟨s₂, ev, hg, hev, hq, htl, hrun⟩ :=
      RunWith_fatal_of_prBody owners k rho fuel g s₁ done pr rest hsearch hret hserve
    rw [← hg] at hfail ⊢
    obtain ⟨s, hb, he, hgs⟩ := prBody_reviews_fail k rho (ownersmap owners) pr s₂ err hfail
    refine ⟨s, ev, hrun s hb, by rw [he, hev], hq, hgs, ?_⟩
    intro e hmem
    rw [he, hev] at hmem
    simp only [List.mem_append, List.mem_cons, List.mem_singleton, List.not_mem_nil,
      or_false] at hmem
    rcases hmem with (h | rfl | h) | rfl | rfl
    · exact htl e h
    · rfl
    · exact Event.not_tableLine_of_prStep e (hq e h)
    · rfl
    · rfl
  · intro s₁ done pr rest reviews err hsearch hret hserve hok hfail
    obtain ⟨s₂, ev, hg, hev, hq, htl, hrun⟩ :=
      RunWith_fatal_of_prBody owners k rho fuel g s₁ done pr rest hsearch hret hserve
    rw [← hg] at hok hfail ⊢
    obtain ⟨s, hb, he, hgs⟩ :=
      prBody_comments_fail k rho (ownersmap owners) pr s₂ reviews err hok hfail
    refine ⟨s, ev, hrun s hb, by rw [he, hev], hq, hgs, ?_⟩
    intro e hmem
    rw [he, hev] at hmem
    simp only [List.mem_append, List.mem_cons, List.mem_singleton, List.not_mem_nil,
      or_false] at hmem
    rcases hmem with (h | rfl | h) | rfl | rfl | rfl
    · exact htl e h
    · rfl
    · exact Event.not_tableLine_of_prStep e (hq e h)
    · rfl
    · rfl
    · rfl
  · intro h
    unfold Run RunWith at h
    cases hs : searchLoop k fuel (State.init g) with
    | none => exact searchLoop_none k fuel (State.init g) hs
    | some o₁ =>
      rw [hs] at h
      cases o₁ with
      | fatal s₁ => simp at h
      | returned s₁ =>
        simp only at h
        cases hp : prLoop k rho (ownersmap owners) s₁.ret
          { s₁ with events := s₁.events ++
            [Event.Infof (LogLine.searchCost s₁.totalCost s₁.remaining)] } with
        | fatal s₂ => simp [hp] at h
        | returned s₂ => simp [hp] at h
  · intro s hs
    obtain ⟨ev, c, line, hl, he, hq, hc⟩ := hf s hs
    simp only [List.nil_append] at hl he
    refine ⟨ev, c, line, hl, he, hc, hq, ?_⟩
    intro e hmem
    rw [he] at hmem
    rcases List.mem_append.1 hmem with h | h
    · exact Event.not_tableLine_of_quiet e (hq e h)
    · simp only [List.mem_cons, List.mem_singleton, List.not_mem_nil, or_false] at h
      rcases h with h | h
      · subst h
        exact Event.not_tableLine_of_call _ hc
      · subst h
        rfl
  · intro s hs
    obtain ⟨s₂, ⟨ev, hl, he, hq⟩, hg, ha, hp, hv, hev⟩ := hr s hs
    simp only [List.nil_append] at hl he
    refine ⟨ev, s₂.ranges, by rw [hg, hl], by rw [hev, he, ha, hp, hv], hq, ?_⟩
    intro e hmem
    rw [hev, he] at hmem
    rcases List.mem_append.1 hmem with h | h
    · exact Event.not_fatalf_of_quiet e (hq e h)
    · simp only [printTable, List.mem_append, List.mem_cons, List.mem_map] at h
      rcases h with (((h | ⟨_, _, h⟩) | (h | ⟨_, _, h⟩)) | (h | ⟨_, _, h⟩)) <;>
        (subst h; rfl)

/-- C11, on four runs. (1) The first page, which has a next page, is
served and the second page request fails: `Run` is fatal after the two
page requests. (2) The search finds the pull requests 42 and 99, and the
reviews of 99 cannot be listed: `Run` is fatal at `ListReviews` for 99.
(3) The search finds pull request 42, of which the comments cannot be
listed: `Run` is fatal at `ListPullRequestComments` for 42. In all three no
line of a table is written. (4) On the run of (2) the record of the calls
is three successes, then the failure. -/
theorem Run_fatal_on_first_error_witness :
    (∃ s, Run (scripted [pageOf 1 "alice" true "c1" 1 4999] []) storedOrder 2 0
        = some (.fatal s) ∧
      s.events = [Event.Query query none, Event.Query query (some "c1"),
        Event.Fatalf (LogLine.queryFailed "no such page")] ∧
      (∀ e ∈ s.events, e.isTableLine = false)) ∧
    (∃ s ev, Run (scripted
        [singlePage [pr42.pr, { Number := 99, Author := { Login := "zed" } }]] [pr42])
        storedOrder 1 0 = some (.fatal s) ∧
      s.events = [Event.Query query none] ++
        Event.Infof (LogLine.searchCost 1 4999) :: ev ++
        [Event.ListReviews "kubernetes" "kops" 99,
         Event.Fatalf (LogLine.listReviewsFailed 99 "no such pull request")] ∧
      (∀ e ∈ ev, e.isPRStep = true) ∧
      (∀ e ∈ s.events, e.isTableLine = false)) ∧
    (∃ s ev, Run (commentsDown (scripted [singlePage [pr42.pr]] [pr42]))
        storedOrder 1 0 = some (.fatal s) ∧
      s.events = [Event.Query query none] ++
        Event.Infof (LogLine.searchCost 1 4999) :: ev ++
        [Event.ListReviews "kubernetes" "kops" 42,
         Event.ListPullRequestComments "kubernetes" "kops" 42,
         Event.Fatalf (LogLine.listCommentsFailed 42 "comments are down")] ∧
      (∀ e ∈ ev, e.isPRStep = true) ∧
      (∀ e ∈ s.events, e.isTableLine = false)) ∧
    (∃ s, Run (logged (scripted
        [singlePage [pr42.pr, { Number := 99, Author := { Login := "zed" } }]] [pr42]))
        storedOrder 1 (0, []) = some (.fatal s) ∧
      s.ghc.2 = [true, true, true, false] ∧ (∀ e ∈ s.events, e.isTableLine = false)) := by
  refine ⟨?_, ?_, ?_, ?_⟩
  · obtain ⟨s, h1, h2, _, h4⟩ :=
      (Run_fatal_on_first_error (scripted [pageOf 1 "alice" true "c1" 1 4999] [])
        storedOrder 2 0).1 [pageOf 1 "alice" true "c1" 1 4999] "no such page"
        ⟨rfl, trivial⟩ (by decide) rfl (by decide)
    exact ⟨s, h1, h2, h4⟩
  · obtain ⟨s, ev, h1, h2, h3, _, h5⟩ :=
      (Run_fatal_on_first_error (scripted
        [singlePage [pr42.pr, { Number := 99, Author := { Login := "zed" } }]] [pr42])
        storedOrder 1 0).2.1
        (foundState [pr42.pr, { Number := 99, Author := { Login := "zed" } }])
        [pr42] { Number := 99, Author := { Login := "zed" } } [] "no such pull request"
        rfl rfl ⟨rfl, rfl, trivial⟩ rfl
    exact ⟨s, ev, h1, h2, h3, h5⟩
  · obtain ⟨s, ev, h1, h2, h3, _, h5⟩ :=
      (Run_fatal_on_first_error (commentsDown (scripted [singlePage [pr42.pr]] [pr42]))
        storedOrder 1 0).2.2.1
        (foundState [pr42.pr]) [] pr42.pr [] pr42.reviews "comments are down"
        rfl rfl trivial rfl rfl
    exact ⟨s, ev, h1, h2, h3, h5⟩
  · have h : ∃ s, Run (logged (scripted
        [singlePage [pr42.pr, { Number := 99, Author := { Login := "zed" } }]] [pr42]))
        storedOrder 1 (0, []) = some (.fatal s) ∧ s.ghc.2 = [true, true, true, false] :=
      ⟨_, rfl, rfl⟩
    obtain ⟨s, hs, hl⟩ := h
    obtain ⟨_, _, _, _, _, _, _, ht⟩ :=
      (Run_fatal_on_first_error (scripted
        [singlePage [pr42.pr, { Number := 99, Author := { Login := "zed" } }]] [pr42])
        storedOrder 1 0).2.2.2.2.2.1 s hs
    exact ⟨s, hs, hl, ht⟩

/-- C12: a pull request with no review and no comment has no approver and
no reviewer, and processing it changes no table but that of the authors:
the tables of approvers and reviewers stay as they are, and the author's
count goes up. -/
theorem no_signal_no_credit {σ : Type} (k : KRepoStats σ) (rho : RangeOrder) (om : GoMap Bool)
    (pr : pullRequest) (s : State σ)
    (h₁ : (k.GHC.ListReviews s.ghc "kubernetes" "kops" pr.Number).1 = .ok [])
    (h₂ : (k.GHC.ListPullRequestComments (k.GHC.ListReviews s.ghc "kubernetes" "kops" pr.Number).2
      "kubernetes" "kops" pr.Number).1 = .ok []) :
    (signalSets [] []).approvers.keys = [] ∧ (signalSets [] []).reviewers.keys = [] ∧
    ∃ s', prBody k rho om pr s = .returned s' ∧
      s'.numApprovals = s.numApprovals ∧ s'.numReviews = s.numReviews ∧
      s'.numAuthors = s.numAuthors.incr pr.Author.Login := by
  obtain ⟨s', hb, _, _, ba, bp, br, _⟩ := prBody_ok k rho om pr s [] [] h₁ h₂
  rw [signalSets_nil, incrKeys_empty] at bp br
  exact ⟨rfl, rfl, s', hb, bp, br, ba⟩

/-- C12, on pull request 50 by alice, which has no review and no comment. -/
theorem no_signal_no_credit_witness :
    ∃ s', prBody (scripted [] [pr50]) storedOrder (ownersmap owners) pr50.pr (State.init 0) = .returned s' ∧
      s'.numApprovals = ∅ ∧ s'.numReviews = ∅ ∧ s'.numAuthors.get 0 "alice" = 1 := by
  obtain ⟨_, _, s', hb, hp, hr, ha⟩ :=
    no_signal_no_credit (scripted [] [pr50]) storedOrder (ownersmap owners) pr50.pr
      (State.init 0) rfl rfl
  exact ⟨s', hb, hp, hr, by rw [ha]; decide⟩

/-- C13: the two patterns are tried one after the other on every comment,
and neither excludes the other: a comment whose body has a line `/lgtm` and
a line `/approve` matches both and adds its author to the reviewers and to
the approvers. -/
theorem both_commands_both_sets (body : String)
    (hl : hasCommandLine "/lgtm" body = true) (ha : hasCommandLine "/approve" body = true) :
    MatchString lgtmRegex body = true ∧ MatchString approveRegex body = true ∧
    (∀ (s : Sets) (u : String),
      u ∈ (commentStep s ⟨⟨u⟩, body⟩).reviewers ∧ u ∈ (commentStep s ⟨⟨u⟩, body⟩).approvers) ∧
    (∀ (reviews : List Review) (comments : List ReviewComment) (u : String),
      (⟨⟨u⟩, body⟩ : ReviewComment) ∈ comments →
        u ∈ (signalSets reviews comments).reviewers ∧
          u ∈ (signalSets reviews comments).approvers) := by
  have ml : MatchString lgtmRegex body = true := by rw [MatchString_lgtm, hl]
  have ma : MatchString approveRegex body = true := by rw [MatchString_approve, ha]
  refine ⟨ml, ma, ?_, ?_⟩
  · intro s u
    exact ⟨(commentStep_reviewers s _ u).2 (Or.inr ⟨ml, rfl⟩),
      (commentStep_approvers s _ u).2 (Or.inr ⟨ma, rfl⟩)⟩
  · intro reviews comments u hu
    exact ⟨(signalSets_reviewers reviews comments u).2 (Or.inr ⟨_, hu, ml, rfl⟩),
      (signalSets_approvers reviews comments u).2 (Or.inr ⟨_, hu, ma, rfl⟩)⟩

/-- C13, on the body `/lgtm`, newline, `/approve`. -/
theorem both_commands_both_sets_witness :
    hasCommandLine "/lgtm" "/lgtm\n/approve" = true ∧
      hasCommandLine "/approve" "/lgtm\n/approve" = true ∧
      "carol" ∈ (signalSets [] [⟨⟨"carol"⟩, "/lgtm\n/approve"⟩]).reviewers ∧
      "carol" ∈ (signalSets [] [⟨⟨"carol"⟩, "/lgtm\n/approve"⟩]).approvers :=
  ⟨by decide, by decide,
   (both_commands_both_sets "/lgtm\n/approve" (by decide) (by decide)).2.2.2 []
     [⟨⟨"carol"⟩, "/lgtm\n/approve"⟩] "carol" (List.mem_cons_self _ _)⟩

/-- C14: on any pull request, a login that has a comment matching `/lgtm`,
no comment matching `/approve` and no review in state Approved is a reviewer
and not an approver; a login that has a comment matching `/approve`, no
comment matching `/lgtm` and no review in state Approved or ChangesRequested
is an approver and not a reviewer. So there is a pull request whose
approvers are not all among its reviewers, and one whose reviewers are not
all among its approvers. -/
theorem comment_only_credit (reviews : List Review) (comments : List ReviewComment)
    (L : String) :
    ((∃ c ∈ comments, c.User.Login = L ∧ MatchString lgtmRegex c.Body = true) →
      (∀ c ∈ comments, c.User.Login = L → MatchString approveRegex c.Body = false) →
      (∀ r ∈ reviews, r.User.Login = L → r.State ≠ ReviewStateApproved) →
      L ∈ (signalSets reviews comments).reviewers ∧
        L ∉ (signalSets reviews comments).approvers) ∧
    ((∃ c ∈ comments, c.User.Login = L ∧ MatchString approveRegex c.Body = true) →
      (∀ c ∈ comments, c.User.Login = L → MatchString lgtmRegex c.Body = false) →
      (∀ r ∈ reviews, r.User.Login = L →
        r.State ≠ ReviewStateApproved ∧ r.State ≠ ReviewStateChangesRequested) →
      L ∈ (signalSets reviews comments).approvers ∧
        L ∉ (signalSets reviews comments).reviewers) ∧
    (∃ (rs : List Review) (cs : List ReviewComment) (l : String),
      l ∈ (signalSets rs cs).approvers ∧ l ∉ (signalSets rs cs).reviewers) ∧
    (∃ (rs : List Review) (cs : List ReviewComment) (l : String),
      l ∈ (signalSets rs cs).reviewers ∧ l ∉ (signalSets rs cs).approvers) := by
  have part₁ : ∀ (rs : List Review) (cs : List ReviewComment) (l : String),
      (∃ c ∈ cs, c.User.Login = l ∧ MatchString lgtmRegex c.Body = true) →
      (∀ c ∈ cs, c.User.Login = l → MatchString approveRegex c.Body = false) →
      (∀ r ∈ rs, r.User.Login = l → r.State ≠ ReviewStateApproved) →
      l ∈ (signalSets rs cs).reviewers ∧ l ∉ (signalSets rs cs).approvers := by
    intro rs cs l hc hno hr
    obtain ⟨c, hc, hl, hm⟩ := hc
    refine ⟨(signalSets_reviewers rs cs l).2 (Or.inr ⟨c, hc, hm, hl⟩), ?_⟩
    rw [signalSets_approvers]
    rintro (⟨r, hr', hst, hlog⟩ | ⟨c', hc', hm', hlog⟩)
    · exact hr r hr' hlog hst
    · rw [hno c' hc' hlog] at hm'
      exact Bool.false_ne_true hm'
  have part₂ : ∀ (rs : List Review) (cs : List ReviewComment) (l : String),
      (∃ c ∈ cs, c.User.Login = l ∧ MatchString approveRegex c.Body = true) →
      (∀ c ∈ cs, c.User.Login = l → MatchString lgtmRegex c.Body = false) →
      (∀ r ∈ rs, r.User.Login = l →
        r.State ≠ ReviewStateApproved ∧ r.State ≠ ReviewStateChangesRequested) →
      l ∈ (signalSets rs cs).approvers ∧ l ∉ (signalSets rs cs).reviewers := by
    intro rs cs l hc hno hr
    obtain ⟨c, hc, hl, hm⟩ := hc
    refine ⟨(signalSets_approvers rs cs l).2 (Or.inr ⟨c, hc, hm, hl⟩), ?_⟩
    rw [signalSets_reviewers]
    rintro (⟨r, hr', hst, hlog⟩ | ⟨c', hc', hm', hlog⟩)
    · rcases hst with hst | hst
      · exact (hr r hr' hlog).1 hst
      · exact (hr r hr' hlog).2 hst
    · rw [hno c' hc' hlog] at hm'
      exact Bool.false_ne_true hm'
  refine ⟨part₁ reviews comments L, part₂ reviews comments L, ?_, ?_⟩
  · refine ⟨[], [⟨⟨"carol"⟩, "/approve"⟩], "carol", ?_⟩
    refine part₂ _ _ _ ⟨_, List.mem_cons_self _ _, rfl, by decide⟩ ?_ ?_
    · intro c hc _
      rw [List.mem_singleton] at hc
      subst hc
      decide
    · intro r hr
      cases hr
  · refine ⟨[], [⟨⟨"carol"⟩, "/lgtm"⟩], "carol", ?_⟩
    refine part₁ _ _ _ ⟨_, List.mem_cons_self _ _, rfl, by decide⟩ ?_ ?_
    · intro c hc _
      rw [List.mem_singleton] at hc
      subst hc
      decide
    · intro r hr
      cases hr

/-- C14, on a pull request where dave requests changes and writes `/lgtm`
and erin writes `/approve`: dave is a reviewer only, erin an approver only. -/
theorem comment_only_credit_witness :
    ("dave" ∈ (signalSets [⟨⟨"dave"⟩, ReviewStateChangesRequested⟩]
        [⟨⟨"dave"⟩, "/lgtm"⟩, ⟨⟨"erin"⟩, "/approve"⟩]).reviewers ∧
      "dave" ∉ (signalSets [⟨⟨"dave"⟩, ReviewStateChangesRequested⟩]
        [⟨⟨"dave"⟩, "/lgtm"⟩, ⟨⟨"erin"⟩, "/approve"⟩]).approvers) ∧
    ("erin" ∈ (signalSets [⟨⟨"dave"⟩, ReviewStateChangesRequested⟩]
        [⟨⟨"dave"⟩, "/lgtm"⟩, ⟨⟨"erin"⟩, "/approve"⟩]).approvers ∧
      "erin" ∉ (signalSets [⟨⟨"dave"⟩, ReviewStateChangesRequested⟩]
        [⟨⟨"dave"⟩, "/lgtm"⟩, ⟨⟨"erin"⟩, "/approve"⟩]).reviewers) :=
  ⟨(comment_only_credit [⟨⟨"dave"⟩, ReviewStateChangesRequested⟩]
      [⟨⟨"dave"⟩, "/lgtm"⟩, ⟨⟨"erin"⟩, "/approve"⟩] "dave").1
      ⟨_, List.mem_cons_self _ _, rfl, by decide⟩ (by decide) (by decide),
   (comment_only_credit [⟨⟨"dave"⟩, ReviewStateChangesRequested⟩]
      [⟨⟨"dave"⟩, "/lgtm"⟩, ⟨⟨"erin"⟩, "/approve"⟩] "erin").2.1
      ⟨_, List.mem_cons_of_mem _ (List.mem_cons_self _ _), rfl, by decide⟩
      (by decide) (by decide)⟩

/-- C15: the list of owners has no effect. With any two lists of owners
`Run` ends in the same way, with the same three tables (and the same
events); the list in the source may as well be empty. A pull request by one
of the owners, without reviews and comments, leaves the tables of approvers
and reviewers as they are: its author gets no credit in either. -/
theorem owners_without_effect {σ : Type} (owners₁ owners₂ : List String) (k : KRepoStats σ)
    (rho : RangeOrder) (fuel : Nat) (g : σ) :
    RunWith owners₁ k rho fuel g = RunWith owners₂ k rho fuel g ∧
    Run k rho fuel g = RunWith [] k rho fuel g ∧
    (∀ (pr : pullRequest) (s : State σ), pr.Author.Login ∈ owners →
      (k.GHC.ListReviews s.ghc "kubernetes" "kops" pr.Number).1 = .ok [] →
      (k.GHC.ListPullRequestComments (k.GHC.ListReviews s.ghc "kubernetes" "kops" pr.Number).2
        "kubernetes" "kops" pr.Number).1 = .ok [] →
      ∃ s', prBody k rho (ownersmap owners) pr s = .returned s' ∧
        s'.numApprovals = s.numApprovals ∧ s'.numReviews = s.numReviews) := by
  have key : ∀ o₁ o₂ : List String, RunWith o₁ k rho fuel g = RunWith o₂ k rho fuel g := by
    intro o₁ o₂
    unfold RunWith
    cases searchLoop k fuel (State.init g) with
    | none => rfl
    | some o =>
      cases o with
      | fatal s => rfl
      | returned s => simp only [prLoop_owners k rho (ownersmap o₁) (ownersmap o₂)]
  refine ⟨key owners₁ owners₂, key owners [], ?_⟩
  intro pr s _ h₁ h₂
  obtain ⟨s', hb, _, _, _, bp, br, _⟩ := prBody_ok k rho (ownersmap owners) pr s [] [] h₁ h₂
  rw [signalSets_nil, incrKeys_empty] at bp br
  exact ⟨s', hb, bp, br⟩

/-- C15, on pull request 51 by justinsb, an owner, without reviews and
comments. -/
theorem owners_without_effect_witness :
    "justinsb" ∈ owners ∧
      ∃ s', prBody (scripted [] [pr51]) storedOrder (ownersmap owners) pr51.pr (State.init 0)
          = .returned s' ∧
        s'.numApprovals = ∅ ∧ s'.numReviews = ∅ :=
  ⟨by decide,
   (owners_without_effect [] [] (scripted [] [pr51]) storedOrder 1 0).2.2 pr51.pr (State.init 0)
     (by decide) rfl rfl⟩

/-- C16: the sets of a pull request do not depend on the order of
processing. With the reviews in any other order and the comments in any
other order, and also with the comments processed before the reviews, the
map of approvers and the map of reviewers hold the same entries as those
the program computes. -/
theorem signalSets_order_independent (reviews reviews' : List Review)
    (comments comments' : List ReviewComment)
    (hr : reviews'.Perm reviews) (hc : comments'.Perm comments) :
    (signalSets reviews' comments').approvers.entries.Perm
      (signalSets reviews comments).approvers.entries ∧
    (signalSets reviews' comments').reviewers.entries.Perm
      (signalSets reviews comments).reviewers.entries ∧
    (signalSetsCommentsFirst reviews' comments').approvers.entries.Perm
      (signalSets reviews comments).approvers.entries ∧
    (signalSetsCommentsFirst reviews' comments').reviewers.entries.Perm
      (signalSets reviews comments).reviewers.entries ∧
    (∀ l, (l ∈ (signalSets reviews' comments').approvers ↔
        l ∈ (signalSets reviews comments).approvers) ∧
      (l ∈ (signalSets reviews' comments').reviewers ↔
        l ∈ (signalSets reviews comments).reviewers) ∧
      (l ∈ (signalSetsCommentsFirst reviews' comments').approvers ↔
        l ∈ (signalSets reviews comments).approvers) ∧
      (l ∈ (signalSetsCommentsFirst reviews' comments').reviewers ↔
        l ∈ (signalSets reviews comments).reviewers)) := by
  have ma := signalSets_approvers_perm hr hc
  have mr := signalSets_reviewers_perm hr hc
  have fa : ∀ l, l ∈ (signalSetsCommentsFirst reviews' comments').approvers ↔
      l ∈ (signalSets reviews comments).approvers :=
    fun l => (signalSetsCommentsFirst_approvers reviews' comments' l).trans (ma l)
  have fr : ∀ l, l ∈ (signalSetsCommentsFirst reviews' comments').reviewers ↔
      l ∈ (signalSets reviews comments).reviewers :=
    fun l => (signalSetsCommentsFirst_reviewers reviews' comments' l).trans (mr l)
  exact ⟨entries_perm_of_mem _ _ (signalSets_values _ _).2 (signalSets_values _ _).2 ma,
    entries_perm_of_mem _ _ (signalSets_values _ _).1 (signalSets_values _ _).1 mr,
    entries_perm_of_mem _ _ (signalSetsCommentsFirst_values _ _).2 (signalSets_values _ _).2 fa,
    entries_perm_of_mem _ _ (signalSetsCommentsFirst_values _ _).1 (signalSets_values _ _).1 fr,
    fun l => ⟨ma l, mr l, fa l, fr l⟩⟩

/-- C16, on a pull request where dave requests changes and bob approves,
and on the same reviews the other way round. -/
theorem signalSets_order_independent_witness :
    (signalSets [⟨⟨"bob"⟩, ReviewStateApproved⟩, ⟨⟨"dave"⟩, ReviewStateChangesRequested⟩]
        []).reviewers.entries.Perm
      (signalSets [⟨⟨"dave"⟩, ReviewStateChangesRequested⟩, ⟨⟨"bob"⟩, ReviewStateApproved⟩]
        []).reviewers.entries ∧
    (signalSets [⟨⟨"bob"⟩, ReviewStateApproved⟩, ⟨⟨"dave"⟩, ReviewStateChangesRequested⟩]
      []).reviewers.keys = ["dave", "bob"] ∧
    (signalSets [⟨⟨"dave"⟩, ReviewStateChangesRequested⟩, ⟨⟨"bob"⟩, ReviewStateApproved⟩]
      []).reviewers.keys = ["bob", "dave"] :=
  ⟨(signalSets_order_independent
      [⟨⟨"dave"⟩, ReviewStateChangesRequested⟩, ⟨⟨"bob"⟩, ReviewStateApproved⟩]
      [⟨⟨"bob"⟩, ReviewStateApproved⟩, ⟨⟨"dave"⟩, ReviewStateChangesRequested⟩] [] []
      (List.Perm.swap _ _ _) (List.Perm.refl _)).2.1,
   by decide, by decide⟩

/-- C17: let `f` be a stream of pages, finite or not, of which the client
serves at least the first `m + 1 + extra`, whatever `extra`, and let the
page of index `m` be the first one without a next page. Then the search
loop ends, with any fuel of at least `m + 1`, after exactly the `m + 1`
requests for the pages of index 0 to `m`: the client has been asked no
more, `ret` holds the pull requests of these pages and no other, and
`totalCost` is the sum of their costs and no other. -/
theorem searchLoop_stops_at_last_page {σ : Type} (k : KRepoStats σ) (g : σ)
    (f : Nat → searchQuery) (m extra : Nat)
    (hserve : servesPages k.GHC g none ((List.range (m + 1 + extra)).map f))
    (hmore : ∀ i, i < m → (f i).Search.PageInfo.HasNextPage = true)
    (hlast : (f m).Search.PageInfo.HasNextPage = false) :
    ∃ s, (∀ fuel, m + 1 ≤ fuel → searchLoop k fuel (State.init g) = some (.returned s)) ∧
      s.events = queryEvents none ((List.range (m + 1)).map f) ∧
      s.events.length = m + 1 ∧
      s.ghc = afterPages k.GHC g none ((List.range (m + 1)).map f) ∧
      s.ret = ((List.range (m + 1)).map f).flatMap (fun p => p.Search.Nodes) ∧
      s.totalCost = wrapInt (((List.range (m + 1)).map f).map (fun p => p.RateLimit.Cost)).sum ∧
      (-2 ^ 63 ≤ (((List.range (m + 1)).map f).map (fun p => p.RateLimit.Cost)).sum →
        (((List.range (m + 1)).map f).map (fun p => p.RateLimit.Cost)).sum < 2 ^ 63 →
        s.totalCost = (((List.range (m + 1)).map f).map (fun p => p.RateLimit.Cost)).sum) ∧
      s.remaining = (f m).RateLimit.Remaining := by
  have hsplit : (List.range (m + 1 + extra)).map f =
      ((List.range m).map f ++ [f m]) ++ (List.map (fun x => m + 1 + x) (List.range extra)).map f := by
    rw [List.range_add, List.map_append, List.range_succ, List.map_append]
    rfl
  rw [hsplit] at hserve
  have hserve' := servesPages_prefix k.GHC g none _ _ hserve
  have hm : ∀ p ∈ (List.range m).map f, p.Search.PageInfo.HasNextPage = true := by
    intro p hp
    obtain ⟨i, hi, rfl⟩ := List.mem_map.1 hp
    exact hmore i (List.mem_range.1 hi)
  obtain ⟨s, h1, h2, h3, h4, h5, h6⟩ :=
    searchLoop_serves k ((List.range m).map f) (f m) (m + 1) (State.init g) hserve' hm hlast
      (by simp)
  have hr : (List.range (m + 1)).map f = (List.range m).map f ++ [f m] := by
    rw [List.range_succ, List.map_append]
    rfl
  simp only [State.init, List.nil_append, zero_add] at h2 h3 h4 h6
  refine ⟨s, fun fuel hf => searchLoop_mono k (m + 1) fuel _ _ hf h1, ?_, ?_, ?_, ?_, ?_, ?_, h5⟩
  · rw [hr, h2]
  · rw [h2, queryEvents_length]
    simp
  · rw [hr, h6]
  · rw [hr, h3]
  · rw [hr, h4]
  · intro hlo hhi
    rw [hr] at hlo hhi ⊢
    rw [h4, wrapInt_of_range _ hlo hhi]

/-- C17, on a client that serves three pages of a stream whose page of
index 1 is the first without a next page: two requests, four pull requests,
a cost of two. -/
theorem searchLoop_stops_at_last_page_witness :
    ∃ s, searchLoop (scripted [demoStream 0, demoStream 1, demoStream 2] []) 7 (State.init 0)
        = some (.returned s) ∧
      s.events.length = 2 ∧ s.ghc = 2 ∧ s.ret.length = 4 ∧ s.totalCost = 2 := by
  obtain ⟨s, h1, _, h3, h4, h5, _, h7, _⟩ :=
    searchLoop_stops_at_last_page (scripted [demoStream 0, demoStream 1, demoStream 2] []) 0
      demoStream 1 1 ⟨rfl, rfl, rfl, trivial⟩ (by decide) rfl
  exact ⟨s, h1 7 (by decide), h3, h4, by rw [h5]; rfl, h7 (by decide) (by decide)⟩

/-- C18: the cursor is threaded. In every run of `Run` that ends, the page
requests are, in order, requests with the query string `query` and the
cursors `none`, then the end cursor of the first page served, then that of
the second, and so on: request number `i + 1` carries the end cursor of the
page that request number `i` has returned. There is one request per page
served, and one more if the run ends on a failed page request. In a run
that the fuel cuts short, the client has served, in the same way, as many
pages as there was fuel. -/
theorem cursor_threading {σ : Type} (k : KRepoStats σ) (rho : RangeOrder) (fuel : Nat) (g : σ) :
    (∀ o, Run k rho fuel g = some o →
      ∃ (pages : List searchQuery) (r : Nat),
        servesPages k.GHC g none pages ∧ 1 ≤ r ∧
        (r = pages.length ∨ r = pages.length + 1) ∧
        o.state.events.filter Event.isQuery =
          ((none :: pages.map (fun p => some p.Search.PageInfo.EndCursor)).take r).map
            (fun c => Event.Query query c)) ∧
    (Run k rho fuel g = none →
      ∃ pages : List searchQuery, pages.length = fuel ∧ servesPages k.GHC g none pages ∧
        ∀ p ∈ pages, p.Search.PageInfo.HasNextPage = true) := by
  constructor
  swap
  · intro h
    unfold Run RunWith at h
    cases hs : searchLoop k fuel (State.init g) with
    | none => exact searchLoop_none k fuel (State.init g) hs
    | some o₁ =>
      rw [hs] at h
      cases o₁ with
      | fatal s₁ => simp at h
      | returned s₁ =>
        simp only at h
        cases hp : prLoop k rho (ownersmap owners) s₁.ret
          { s₁ with events := s₁.events ++
            [Event.Infof (LogLine.searchCost s₁.totalCost s₁.remaining)] } with
        | fatal s₂ => simp [hp] at h
        | returned s₂ => simp [hp] at h
  intro o h
  unfold Run RunWith at h
  cases hs : searchLoop k fuel (State.init g) with
  | none => simp [hs] at h
  | some o₁ =>
    obtain ⟨pages, hserve, hcase⟩ := searchLoop_trace k fuel _ o₁ hs
    simp only [State.init, List.nil_append] at hserve hcase
    rw [hs] at h
    rcases hcase with ⟨hne, s₁, ho, hev⟩ | ⟨s₁, err, ho, hev⟩
    · subst ho
      simp only at h
      obtain ⟨ev, hpl, hq⟩ := prLoop_no_query k rho (ownersmap owners) s₁.ret
        { s₁ with events := s₁.events ++
          [Event.Infof (LogLine.searchCost s₁.totalCost s₁.remaining)] }
      have hlen : 1 ≤ pages.length := by
        cases pages with
        | nil => exact absurd rfl hne
        | cons p ps => simp
      refine ⟨pages, pages.length, hserve, hlen, Or.inl rfl, ?_⟩
      rw [← queryEvents_eq_take]
      cases hp : prLoop k rho (ownersmap owners) s₁.ret
        { s₁ with events := s₁.events ++
          [Event.Infof (LogLine.searchCost s₁.totalCost s₁.remaining)] } with
      | fatal s₂ =>
        rw [hp] at h hpl
        simp only [Option.some.injEq] at h
        subst h
        simp only [Outcome.state] at hpl ⊢
        rw [hpl, hev]
        simp [List.filter_append, queryEvents_filter, hq, Event.isQuery]
      | returned s₂ =>
        rw [hp] at h hpl
        simp only [Option.some.injEq] at h
        subst h
        simp only [Outcome.state] at hpl ⊢
        rw [hpl, hev]
        simp [List.filter_append, queryEvents_filter, hq, Event.isQuery, printTable_no_query]
    · subst ho
      simp only [Option.some.injEq] at h
      subst h
      refine ⟨pages, pages.length + 1, hserve, by omega, Or.inr rfl, ?_⟩
      rw [← queryEvents_append_next]
      simp only [Outcome.state]
      rw [hev]
      simp [List.filter_append, queryEvents_filter, Event.isQuery]

/-- C18, on three pages with the end cursors c1, c2 and c3. -/
theorem cursor_threading_witness :
    ∃ o, Run (scripted [pageOf 1 "alice" true "c1" 1 4999, pageOf 1 "bob" true "c2" 1 4998,
        pageOf 0 "carol" false "c3" 1 4997] []) storedOrder 3 0 = some o ∧
      o.state.events.filter Event.isQuery =
        [Event.Query query none, Event.Query query (some "c1"), Event.Query query (some "c2")] ∧
      ∃ (pages : List searchQuery) (r : Nat),
        servesPages (scripted [pageOf 1 "alice" true "c1" 1 4999,
          pageOf 1 "bob" true "c2" 1 4998, pageOf 0 "carol" false "c3" 1 4997] []).GHC 0 none
          pages ∧ 1 ≤ r ∧ (r = pages.length ∨ r = pages.length + 1) ∧
        o.state.events.filter Event.isQuery =
          ((none :: pages.map (fun p => some p.Search.PageInfo.EndCursor)).take r).map
            (fun c => Event.Query query c) := by
  have h : ∃ o, Run (scripted [pageOf 1 "alice" true "c1" 1 4999, pageOf 1 "bob" true "c2" 1 4998,
      pageOf 0 "carol" false "c3" 1 4997] []) storedOrder 3 0 = some o ∧
      o.state.events.filter Event.isQuery =
        [Event.Query query none, Event.Query query (some "c1"), Event.Query query (some "c2")] :=
    ⟨_, rfl, by decide⟩
  obtain ⟨o, ho, hq⟩ := h
  exact ⟨o, ho, hq, (cursor_threading _ storedOrder 3 0).1 o ho⟩

/-- C19: counts are never decremented. One turn of the loop over the pull
requests, however it ends, leaves every count of every table as it is or
adds one to it (in Go's `int`: exactly one as long as the count is below the
largest `int`). So when the counts are between 0 and `n` before the loop
processes the pull requests `prs`, they are between 0 and `n` plus the
length of `prs` after it, and when `Run` ends, every count is between 0 and
the number of pull requests collected (Go slices have fewer than `2 ^ 63`
elements). -/
theorem counts_never_decrease {σ : Type} (k : KRepoStats σ) (rho : RangeOrder) :
    (∀ (om : GoMap Bool) (pr : pullRequest) (s : State σ) (l : String),
      ((prBody k rho om pr s).state.numAuthors.get 0 l = s.numAuthors.get 0 l ∨
        (prBody k rho om pr s).state.numAuthors.get 0 l = wrapInt (s.numAuthors.get 0 l + 1)) ∧
      ((prBody k rho om pr s).state.numApprovals.get 0 l = s.numApprovals.get 0 l ∨
        (prBody k rho om pr s).state.numApprovals.get 0 l
          = wrapInt (s.numApprovals.get 0 l + 1)) ∧
      ((prBody k rho om pr s).state.numReviews.get 0 l = s.numReviews.get 0 l ∨
        (prBody k rho om pr s).state.numReviews.get 0 l
          = wrapInt (s.numReviews.get 0 l + 1))) ∧
    (∀ x : Int, -2 ^ 63 ≤ x + 1 → x + 1 < 2 ^ 63 → wrapInt (x + 1) = x + 1) ∧
    (∀ (om : GoMap Bool) (prs : List pullRequest) (s : State σ) (n : Nat),
      n + prs.length < 2 ^ 63 → s.countsWithin n →
        (prLoop k rho om prs s).state.countsWithin (n + prs.length)) ∧
    (∀ (fuel : Nat) (g : σ) (o : Outcome σ), Run k rho fuel g = some o →
      o.state.ret.length < 2 ^ 63 → o.state.countsWithin o.state.ret.length) := by
  refine ⟨fun om pr s l => (prBody_step k rho om pr s).2 l,
    fun x h₁ h₂ => wrapInt_of_range _ h₁ h₂,
    fun om prs s n hn h => (prLoop_within k rho om prs s n hn h).1, ?_⟩
  intro fuel g o h hlen
  unfold Run RunWith at h
  cases hs : searchLoop k fuel (State.init g) with
  | none => simp [hs] at h
  | some o₁ =>
    obtain ⟨fa, fp, fr, _, _⟩ := searchLoop_frame k fuel _ o₁ hs
    simp only [State.init] at fa fp fr
    rw [hs] at h
    cases o₁ with
    | fatal s₁ =>
      simp only [Option.some.injEq] at h
      subst h
      exact State.countsWithin_mono _ 0 _ (Nat.zero_le _) (State.init_within s₁ fa fp fr)
    | returned s₁ =>
      simp only [Outcome.state] at fa fp fr
      simp only at h
      have hw : ({ s₁ with events := s₁.events ++
          [Event.Infof (LogLine.searchCost s₁.totalCost s₁.remaining)] } : State σ).countsWithin 0 :=
        State.init_within _ fa fp fr
      have hret := prLoop_ret k rho (ownersmap owners) s₁.ret
        { s₁ with events := s₁.events ++
          [Event.Infof (LogLine.searchCost s₁.totalCost s₁.remaining)] }
      have hbound : 0 + s₁.ret.length < 2 ^ 63 →
          (prLoop k rho (ownersmap owners) s₁.ret
            { s₁ with events := s₁.events ++
              [Event.Infof (LogLine.searchCost s₁.totalCost s₁.remaining)] }).state.countsWithin
            (0 + s₁.ret.length) :=
        fun hn => (prLoop_within k rho (ownersmap owners) s₁.ret _ 0 hn hw).1
      cases hp : prLoop k rho (ownersmap owners) s₁.ret
        { s₁ with events := s₁.events ++
          [Event.Infof (LogLine.searchCost s₁.totalCost s₁.remaining)] } with
      | fatal s₂ =>
        rw [hp] at h hret hbound
        simp only [Option.some.injEq] at h
        subst h
        simp only [Outcome.state, zero_add] at hlen hret hbound ⊢
        rw [hret] at hlen ⊢
        exact hbound hlen
      | returned s₂ =>
        rw [hp] at h hret hbound
        simp only [Option.some.injEq] at h
        subst h
        simp only [Outcome.state, zero_add] at hlen hret hbound ⊢
        rw [hret] at hlen ⊢
        exact hbound hlen

/-- C19, on the run over the pull requests 42 and 43: every count is between
0 and 2. -/
theorem counts_never_decrease_witness :
    ∃ o, Run (scripted [singlePage [pr42.pr, pr43.pr]] [pr42, pr43]) storedOrder 1 0 = some o ∧
      o.state.ret.length = 2 ∧ o.state.countsWithin 2 := by
  have h : ∃ o, Run (scripted [singlePage [pr42.pr, pr43.pr]] [pr42, pr43]) storedOrder 1 0
      = some o ∧ o.state.ret.length = 2 := ⟨_, rfl, rfl⟩
  obtain ⟨o, ho, hl⟩ := h
  have hw := (counts_never_decrease (scripted [singlePage [pr42.pr, pr43.pr]] [pr42, pr43])
    storedOrder).2.2.2 1 0 o ho (by rw [hl]; decide)
  rw [hl] at hw
  exact ⟨o, ho, hl, hw⟩

/-- C20: the lines `printTable` writes after the header are the entries of
the counter in some order: every key of the counter is on exactly one line,
with its own count, and no other login is on any line. -/
theorem printTable_rows_perm (rho : RangeOrder) (n : Nat) (hdr : String) (t : GoMap Int) :
    ∃ rows : List (String × Int),
      printTable rho n hdr t =
        Event.Infof (LogLine.header hdr) ::
          rows.map (fun r => Event.Infof (LogLine.row r.2 r.1)) ∧
      rows.Perm (t.entries.map (fun e => (e.1, e.2))) ∧
      (rows.map Prod.fst).Nodup ∧
      (∀ l, l ∈ rows.map Prod.fst ↔ l ∈ t) ∧
      (∀ l, l ∈ t → (rows.map Prod.fst).count l = 1) ∧
      (∀ r ∈ rows, r.2 = t.get 0 r.1) := by
  have hp : (sortSlice (less t) (rho.keys n t)).Perm t.keys :=
    (sortSlice_perm _ _).trans (rho.keys_perm n t)
  have hfst : ((sortSlice (less t) (rho.keys n t)).map (fun k => (k, t.get 0 k))).map Prod.fst
      = sortSlice (less t) (rho.keys n t) := by
    simp [Function.comp_def]
  have hnd : (sortSlice (less t) (rho.keys n t)).Nodup := hp.nodup_iff.2 t.keys_nodup
  refine ⟨(sortSlice (less t) (rho.keys n t)).map (fun k => (k, t.get 0 k)), ?_, ?_, ?_, ?_, ?_, ?_⟩
  · simp [printTable, Function.comp_def]
  · rw [← keys_map_get]
    exact hp.map _
  · rw [hfst]
    exact hnd
  · intro l
    rw [hfst, hp.mem_iff]
    exact AList.mem_keys.symm
  · intro l hl
    rw [hfst]
    exact List.count_eq_one_of_mem hnd (hp.mem_iff.2 (AList.mem_keys.1 hl))
  · intro r hr
    obtain ⟨k, _, rfl⟩ := List.mem_map.1 hr
    rfl

end krepostats
